import Mathlib

/-!
Verification development for the mandarin-anki deck builder.

Strings are modelled as `List Char` (`Text`).  Python loops are embedded
with an explicit fuel argument (structural recursion) so that every
definition evaluates by `decide`/`rfl`; each top-level wrapper supplies a
fuel that is proved (or easily seen) sufficient.
-/

namespace MA

abbrev Text := List Char

/-- Python `str` whitespace test, restricted to the ASCII whitespace
characters (the inputs handled by this development contain no exotic
Unicode whitespace). -/
def pyIsSpace (c : Char) : Bool :=
  c = ' ' || c = '\t' || c = '\n' || c = '\r' || c = Char.ofNat 11 || c = Char.ofNat 12

/-- The separator class of the regex `[，,；;]` in `_literal_to_br`. -/
def isSepChar (c : Char) : Bool :=
  c = ',' || c = ';' || c = '，' || c = '；'

/-- The replacement text `<br>`. -/
def brTxt : Text := ['<', 'b', 'r', '>']

/-- `s.lstrip()`-part of Python `str.strip`. -/
def lstrip (s : Text) : Text := s.dropWhile pyIsSpace

/-- `s.rstrip()`-part of Python `str.strip`. -/
def rstrip (s : Text) : Text := (s.reverse.dropWhile pyIsSpace).reverse

/-- Python `str.strip()`. -/
def pyStrip (s : Text) : Text := rstrip (lstrip s)

/-- builder.py `_clean`: remove BOM and zero-width-space characters, then
strip surrounding whitespace.  (`str.replace(x, "")` removes every
occurrence of the single character `x`.) -/
def clean (s : Text) : Text :=
  pyStrip (s.filter (fun c => c ≠ Char.ofNat 0xfeff && c ≠ Char.ofNat 0x200b))

/-- Boolean prefix test on `Text`. -/
def pfxB : Text → Text → Bool
  | [], _ => true
  | _ :: _, [] => false
  | a :: as, b :: bs => a = b && pfxB as bs

/-- Boolean suffix test on `Text`. -/
def sfxB (pat s : Text) : Bool := pfxB pat.reverse s.reverse

/-- One pass of `re.sub(r"\s*[，,；;]\s*", "<br>", s)`: at each position,
a match is a (possibly empty) whitespace run, one separator character and
a (possibly empty) whitespace run; matched text is replaced by `<br>` and
scanning resumes after the match.  Fueled scan. -/
def subSepF : Nat → Text → Text
  | 0, s => s
  | _ + 1, [] => []
  | fuel + 1, c :: t =>
    let ws := (c :: t).takeWhile pyIsSpace
    match (c :: t).drop ws.length with
    | d :: r =>
      if isSepChar d then brTxt ++ subSepF fuel (r.dropWhile pyIsSpace)
      else c :: subSepF fuel t
    | [] => c :: subSepF fuel t

def subSep (s : Text) : Text := subSepF s.length s

/-- Parse a maximal run of `(?:<br>\s*)` repetitions: returns the number
of repetitions and the remaining text. -/
def parseBrRunF : Nat → Text → Nat × Text
  | 0, s => (0, s)
  | fuel + 1, s =>
    if pfxB brTxt s then
      let p := parseBrRunF fuel ((s.drop 4).dropWhile pyIsSpace)
      (p.1 + 1, p.2)
    else (0, s)

def parseBrRun (s : Text) : Nat × Text := parseBrRunF s.length s

/-- `re.sub(r"(?:<br>\s*){2,}", "<br>", s)`: a run of two or more
`<br>`-plus-whitespace repetitions collapses to a single `<br>`. -/
def collapseBrF : Nat → Text → Text
  | 0, s => s
  | _ + 1, [] => []
  | fuel + 1, c :: t =>
    let p := parseBrRun (c :: t)
    if 2 ≤ p.1 then brTxt ++ collapseBrF fuel p.2
    else c :: collapseBrF fuel t

def collapseBr (s : Text) : Text := collapseBrF s.length s

/-- `re.sub(r"^(<br>)+", "", s)`: drop every leading `<br>`.  Fueled. -/
def stripLeadingBrF : Nat → Text → Text
  | 0, s => s
  | fuel + 1, s =>
    if pfxB brTxt s then stripLeadingBrF fuel (s.drop 4) else s

def stripLeadingBr (s : Text) : Text := stripLeadingBrF s.length s

/-- `re.sub(r"(<br>)+$", "", s)`: drop every trailing `<br>`.  Fueled. -/
def stripTrailingBrF : Nat → Text → Text
  | 0, s => s
  | fuel + 1, s =>
    if sfxB brTxt s then stripTrailingBrF fuel (s.take (s.length - 4)) else s

def stripTrailingBr (s : Text) : Text := stripTrailingBrF s.length s

/-- builder.py `_literal_to_br` (identical to deck_builder.py
`_literal_to_br`): convert comma/semicolon separators to `<br>`, collapse
runs, and trim leading/trailing markers; when disabled just clean. -/
def literal_to_br (text : Text) (enable : Bool) : Text :=
  if !enable then clean text
  else
    let s := clean text
    if s = [] then []
    else
      let s1 := subSep s
      let s2 := pyStrip (collapseBr s1)
      let s3 := stripLeadingBr s2
      stripTrailingBr s3

/-! ### TTS device selection (claim C2)

builder.py `ensure_tts` tries each device of `config.device_preference`,
breaking on the first success and silently continuing on failure; it then
returns the model unconditionally.  deck_builder.py `_select_tts_device`
raises when every candidate fails, and deck_builder.py `build_anki_deck`
wraps that in a final `cpu` retry.

A device attempt `tts.to(device)` is modelled by an environment oracle
`ok : Text → Bool` saying whether the attempt succeeds. -/

/-- State of the lazily created TTS engine of builder.py `ensure_tts`:
whether a model was created, and which device (if any) was successfully
selected. -/
structure TtsState where
  created : Bool
  device : Option Text
deriving Repr, DecidableEq

/-- The device-selection loop inside builder.py `ensure_tts`:
`for device in config.device_preference: try: tts_model.to(device); break
except Exception: continue`.  Returns the first succeeding device, if
any; failures are silently skipped and exhausting the list is not an
error. -/
def ensureTtsDeviceLoop (ok : Text → Bool) : List Text → Option Text
  | [] => none
  | d :: rest => if ok d then some d else ensureTtsDeviceLoop ok rest

/-- builder.py `ensure_tts` on the first call (`tts_model is None`): the
model is created, the device loop runs, and the model is returned
unconditionally — there is no error path. -/
def ensureTts (ok : Text → Bool) (devicePreference : List Text) : TtsState :=
  { created := true, device := ensureTtsDeviceLoop ok devicePreference }

/-- deck_builder.py `_select_tts_device`: try each candidate in order,
return the first that succeeds; if all fail and at least one was tried,
raise `RuntimeError("Tidak bisa menginisialisasi perangkat TTS")`
(`last_error` is only set when some candidate raised); with no candidates
raise `RuntimeError("Tidak ada kandidat perangkat TTS yang diberikan")`. -/
def selectTtsDevice (ok : Text → Bool) (candidates : List Text) : Except Text Text :=
  match candidates with
  | [] => .error "Tidak ada kandidat perangkat TTS yang diberikan".data
  | _ :: _ =>
    match candidates.find? ok with
    | some d => .ok d
    | none => .error "Tidak bisa menginisialisasi perangkat TTS".data

/-- deck_builder.py `build_anki_deck` TTS initialisation: call
`_select_tts_device`; on `RuntimeError` retry on `"cpu"`; if that also
fails, raise `RuntimeError("TTS tidak dapat dijalankan di CPU.")`. -/
def initTtsDevice (ok : Text → Bool) (preference : List Text) : Except Text Unit :=
  match selectTtsDevice ok preference with
  | .ok _ => .ok ()
  | .error _ =>
    if ok "cpu".data then .ok ()
    else .error "TTS tidak dapat dijalankan di CPU.".data

/-! ### Ambient overlay length (claim C7)

builder.py `_render_audio` (and identically
mandarin_anki_ui.audio_engine `PydubAudioEngine.render`):

    if len(ambient) < len(voice):
        repeat = (len(voice) // len(ambient)) + 1
        ambient = ambient * repeat
    ambient = ambient[: len(voice)]

pydub segment lengths are naturals (milliseconds); `seg * n` has length
`len(seg) * n` and `seg[:n]` has length `min (len seg) n`. -/

/-- Length of the ambient segment after the loop/truncate steps of
`_render_audio`, as a function of the voice and ambient lengths. -/
def ambientOverlayLen (voiceLen ambientLen : Nat) : Nat :=
  let looped := if ambientLen < voiceLen
    then ambientLen * (voiceLen / ambientLen + 1)
    else ambientLen
  min looped voiceLen

/-! ### Generic text lemmas -/

theorem drop_app (x y : Text) (j : Nat) : (x ++ y).drop (x.length + j) = y.drop j := by
  induction x with
  | nil => simp
  | cons a t ih => simpa [Nat.succ_add] using ih

theorem drop_app0 (x y : Text) : (x ++ y).drop x.length = y := by
  simpa using drop_app x y 0

theorem drop_lt_app (x y : Text) (j : Nat) (h : j ≤ x.length) :
    (x ++ y).drop j = x.drop j ++ y := by
  induction x generalizing j with
  | nil => simp at h; simp [h]
  | cons a t ih =>
    cases j with
    | zero => simp
    | succ k => simpa using ih k (by simpa using h)

theorem pfxB_iff_exists {p s : Text} : pfxB p s = true ↔ ∃ u, s = p ++ u := by
  induction p generalizing s with
  | nil => simp [pfxB]
  | cons a as ih =>
    cases s with
    | nil => simp [pfxB]
    | cons b bs =>
      simp only [pfxB, Bool.and_eq_true, decide_eq_true_eq, ih, List.cons_append,
        List.cons.injEq]
      constructor
      · rintro ⟨rfl, u, rfl⟩; exact ⟨u, rfl, rfl⟩
      · rintro ⟨u, rfl, rfl⟩; exact ⟨rfl, u, rfl⟩

theorem pfxB_length {p s : Text} (h : pfxB p s = true) : p.length ≤ s.length := by
  obtain ⟨u, rfl⟩ := pfxB_iff_exists.mp h
  simp

theorem pfxB_append_same (x p s : Text) : pfxB (x ++ p) (x ++ s) = pfxB p s := by
  induction x with
  | nil => rfl
  | cons a t ih => simpa [pfxB] using ih

theorem pfxB_append_iff (p q s : Text) :
    pfxB (p ++ q) s = (pfxB p s && pfxB q (s.drop p.length)) := by
  induction p generalizing s with
  | nil => simp [pfxB]
  | cons a as ih =>
    cases s with
    | nil => simp [pfxB]
    | cons b bs => simp [pfxB, ih, Bool.and_assoc]

theorem pfxB_of_take {p : Text} (j : Nat) {s : Text}
    (h : pfxB p (s.take j) = true) : pfxB p s = true := by
  induction p generalizing s j with
  | nil => rfl
  | cons a as ih =>
    cases s with
    | nil => simp [pfxB] at h
    | cons b bs =>
      cases j with
      | zero => simp [pfxB] at h
      | succ k =>
        simp only [List.take_succ_cons, pfxB, Bool.and_eq_true] at h ⊢
        exact ⟨h.1, ih k h.2⟩

theorem pfxB_pfxB {p r s : Text} (h1 : pfxB p r = true) (h2 : pfxB r s = true) :
    pfxB p s = true := by
  obtain ⟨u, rfl⟩ := pfxB_iff_exists.mp h1
  obtain ⟨v, rfl⟩ := pfxB_iff_exists.mp h2
  exact pfxB_iff_exists.mpr ⟨u ++ v, by simp⟩

theorem pfxB_br_shape {s : Text} (h : pfxB brTxt s = true) :
    ∃ u, s = '<' :: 'b' :: 'r' :: '>' :: u := pfxB_iff_exists.mp h

theorem dropWhile_head {p : Char → Bool} :
    ∀ (l : Text) (c : Char) (t : Text), l.dropWhile p = c :: t → p c = false := by
  intro l
  induction l with
  | nil => intro c t h; simp at h
  | cons a as ih =>
    intro c t h
    by_cases hp : p a
    · rw [List.dropWhile_cons_of_pos hp] at h
      exact ih c t h
    · rw [List.dropWhile_cons_of_neg hp] at h
      cases h
      exact Bool.of_not_eq_true hp

theorem dropWhile_eq_drop (p : Char → Bool) (l : Text) :
    l.dropWhile p = l.drop (l.takeWhile p).length := by
  induction l with
  | nil => rfl
  | cons a as ih =>
    by_cases hp : p a
    · rw [List.dropWhile_cons_of_pos hp, List.takeWhile_cons_of_pos hp]
      simpa using ih
    · rw [List.dropWhile_cons_of_neg hp, List.takeWhile_cons_of_neg hp]
      simp

theorem dropWhile_nospace_id {s : Text}
    (h : s = [] ∨ ∃ c u, s = c :: u ∧ pyIsSpace c = false) :
    s.dropWhile pyIsSpace = s := by
  rcases h with rfl | ⟨c, u, rfl, hc⟩
  · rfl
  · exact List.dropWhile_cons_of_neg (by simp [hc])

theorem sep_not_space {c : Char} (h : isSepChar c = true) : pyIsSpace c = false := by
  simp only [isSepChar, Bool.or_eq_true, decide_eq_true_eq] at h
  rcases h with ((rfl | rfl) | rfl) | rfl <;> decide

theorem space_not_sep {c : Char} (h : pyIsSpace c = true) : isSepChar c = false := by
  simp only [pyIsSpace, Bool.or_eq_true, decide_eq_true_eq] at h
  rcases h with ((((rfl | rfl) | rfl) | rfl) | rfl) | rfl <;> decide

/-! ### Occurrence-form invariants for the literal-break formatter -/

/-- `pat` occurs nowhere in `s`. -/
def NoOcc (pat s : Text) : Prop := ∀ i, pfxB pat (s.drop i) = false

/-- Every occurrence of `<br>` in `s` is followed by a non-space
character or the end of the string. -/
def FollowOk (s : Text) : Prop :=
  ∀ i, pfxB brTxt (s.drop i) = true →
    s.drop (i + 4) = [] ∨ ∃ c u, s.drop (i + 4) = c :: u ∧ pyIsSpace c = false

/-- Every occurrence of `<br>` in `s` (other than at the start) is
preceded by a non-space character. -/
def PrecedeOk (s : Text) : Prop :=
  ∀ i c u, s.drop i = c :: u → pfxB brTxt u = true → pyIsSpace c = false

theorem noOcc_of_forall_lt {pat s : Text} (hne : pat ≠ [])
    (h : ∀ i < s.length, pfxB pat (s.drop i) = false) : NoOcc pat s := by
  intro i
  by_cases hi : i < s.length
  · exact h i hi
  · rw [List.drop_eq_nil_of_le (by omega)]
    cases pat with
    | nil => exact absurd rfl hne
    | cons a as => rfl

theorem noOcc_drop {pat s : Text} (h : NoOcc pat s) (k : Nat) : NoOcc pat (s.drop k) := by
  intro i
  rw [List.drop_drop]
  exact h _

theorem noOcc_take {pat s : Text} (h : NoOcc pat s) (m : Nat) : NoOcc pat (s.take m) := by
  intro i
  rw [List.drop_take]
  by_cases hp : pfxB pat ((s.drop i).take (m - i)) = true
  · have := pfxB_of_take _ hp
    rw [h i] at this
    exact Bool.noConfusion this
  · exact Bool.of_not_eq_true hp

theorem followOk_drop {s : Text} (h : FollowOk s) (k : Nat) : FollowOk (s.drop k) := by
  intro i hp
  rw [List.drop_drop] at hp ⊢
  have h2 := h _ hp
  rwa [show k + i + 4 = k + (i + 4) from by omega] at h2

theorem followOk_take {s : Text} (h : FollowOk s) (m : Nat) : FollowOk (s.take m) := by
  intro i hp
  rw [List.drop_take] at hp
  have hocc := pfxB_of_take _ hp
  rcases h i hocc with he | ⟨c, u, hu, hc⟩
  · left
    rw [List.drop_take, he]
    simp
  · rw [List.drop_take, hu]
    cases hm : m - (i + 4) with
    | zero => left; simp
    | succ k => right; exact ⟨c, u.take k, by simp, hc⟩

theorem precedeOk_drop {s : Text} (h : PrecedeOk s) (k : Nat) : PrecedeOk (s.drop k) := by
  intro i c u hu hp
  rw [List.drop_drop] at hu
  exact h _ c u hu hp

theorem precedeOk_take {s : Text} (h : PrecedeOk s) (m : Nat) : PrecedeOk (s.take m) := by
  intro i c u hu hp
  rw [List.drop_take] at hu
  rcases hd : s.drop i with _ | ⟨c', u'⟩
  · rw [hd] at hu; simp at hu
  · rw [hd] at hu
    cases hm : m - i with
    | zero => rw [hm] at hu; simp at hu
    | succ k =>
      rw [hm] at hu
      simp only [List.take_succ_cons, List.cons.injEq] at hu
      obtain ⟨hc, hu2⟩ := hu
      rw [← hu2] at hp
      rw [← hc]
      exact h i c' u' hd (pfxB_of_take k hp)

/-- Building block: prepending a character. -/
theorem followOk_cons {c : Char} {v : Text}
    (h0 : pfxB brTxt (c :: v) = true →
      ((c :: v).drop 4 = [] ∨ ∃ d u, (c :: v).drop 4 = d :: u ∧ pyIsSpace d = false))
    (hv : FollowOk v) : FollowOk (c :: v) := by
  intro i hp
  cases i with
  | zero => exact h0 hp
  | succ j =>
    simp only [List.drop_succ_cons] at hp ⊢
    exact hv j hp

/-- Building block: prepending one `<br>`. -/
theorem followOk_br_append {v : Text}
    (hv0 : v = [] ∨ ∃ c u, v = c :: u ∧ pyIsSpace c = false)
    (hv : FollowOk v) : FollowOk (brTxt ++ v) := by
  refine followOk_cons (fun _ => ?_) (followOk_cons (fun hx => ?_) (followOk_cons (fun hx => ?_)
    (followOk_cons (fun hx => ?_) hv)))
  · simpa using hv0
  · obtain ⟨u, hu⟩ := pfxB_br_shape hx; simp at hu
  · obtain ⟨u, hu⟩ := pfxB_br_shape hx; simp at hu
  · obtain ⟨u, hu⟩ := pfxB_br_shape hx; simp at hu

theorem precedeOk_cons {c : Char} {v : Text}
    (h0 : pfxB brTxt v = true → pyIsSpace c = false)
    (hv : PrecedeOk v) : PrecedeOk (c :: v) := by
  intro i d u hu hp
  cases i with
  | zero =>
    simp only [List.drop_zero, List.cons.injEq] at hu
    rcases hu with ⟨rfl, rfl⟩
    exact h0 hp
  | succ j =>
    simp only [List.drop_succ_cons] at hu
    exact hv j d u hu hp

theorem precedeOk_br_append {v : Text} (hv : PrecedeOk v) :
    PrecedeOk (brTxt ++ v) := by
  refine precedeOk_cons (fun hx => ?_) (precedeOk_cons (fun hx => ?_)
    (precedeOk_cons (fun hx => ?_) (precedeOk_cons (fun hx => ?_) hv)))
  · obtain ⟨u, hu⟩ := pfxB_br_shape hx; simp at hu
  · obtain ⟨u, hu⟩ := pfxB_br_shape hx; simp at hu
  · decide
  · obtain ⟨u, hu⟩ := pfxB_br_shape hx
    subst hu; decide

theorem noOcc_cons {pat : Text} {c : Char} {v : Text}
    (h0 : pfxB pat (c :: v) = false) (hv : NoOcc pat v) : NoOcc pat (c :: v) := by
  intro i
  cases i with
  | zero => exact h0
  | succ j => simpa using hv j

theorem noOcc_brbr_br_append {v : Text} (h0 : pfxB brTxt v = false)
    (hv : NoOcc (brTxt ++ brTxt) v) : NoOcc (brTxt ++ brTxt) (brTxt ++ v) := by
  intro i
  match i with
  | 0 =>
    rw [List.drop_zero, pfxB_append_iff]
    rw [show pfxB brTxt (brTxt ++ v) = true from pfxB_iff_exists.mpr ⟨v, rfl⟩,
      show (brTxt ++ v).drop brTxt.length = v from drop_app0 _ _, h0]
    rfl
  | 1 =>
    by_cases hx : pfxB (brTxt ++ brTxt) ((brTxt ++ v).drop 1) = true
    · obtain ⟨u, hu⟩ := pfxB_iff_exists.mp hx; simp [brTxt] at hu
    · exact Bool.of_not_eq_true hx
  | 2 =>
    by_cases hx : pfxB (brTxt ++ brTxt) ((brTxt ++ v).drop 2) = true
    · obtain ⟨u, hu⟩ := pfxB_iff_exists.mp hx; simp [brTxt] at hu
    · exact Bool.of_not_eq_true hx
  | 3 =>
    by_cases hx : pfxB (brTxt ++ brTxt) ((brTxt ++ v).drop 3) = true
    · obtain ⟨u, hu⟩ := pfxB_iff_exists.mp hx; simp [brTxt] at hu
    · exact Bool.of_not_eq_true hx
  | (j + 4) =>
    rw [show j + 4 = brTxt.length + j from by simp [brTxt]; omega, drop_app]
    exact hv j

theorem followOk_nil : FollowOk [] := by
  intro i hp
  simp [pfxB, brTxt] at hp

theorem precedeOk_nil : PrecedeOk [] := by
  intro i c u hu
  simp at hu

theorem noOcc_sfx {pat l' l : Text} (h : l' <:+ l) (hn : NoOcc pat l) : NoOcc pat l' := by
  obtain ⟨w, rfl⟩ := h
  intro i
  have := hn (w.length + i)
  rwa [drop_app] at this

theorem pfxB_nil_iff {p : Text} : pfxB p ([] : Text) = true ↔ p = [] := by
  cases p <;> simp [pfxB]

theorem pfxB_br_cons {c : Char} {x : Text} :
    pfxB brTxt (c :: x) = true ↔ c = '<' ∧ pfxB (['b', 'r', '>'] : Text) x = true := by
  show (decide (('<' : Char) = c) && pfxB (['b', 'r', '>'] : Text) x) = true ↔ _
  constructor
  · intro h
    simp only [Bool.and_eq_true, decide_eq_true_eq] at h
    exact ⟨h.1.symm, h.2⟩
  · rintro ⟨rfl, h2⟩
    simp only [Bool.and_eq_true, decide_eq_true_eq]
    exact ⟨trivial, h2⟩

/-! ### Invariants of the separator-substitution pass -/

theorem subSepF_sep_step (fuel : Nat) (c : Char) (t : Text) {d : Char} {r : Text}
    (hdw : (c :: t).dropWhile pyIsSpace = d :: r) (hd : isSepChar d = true) :
    subSepF (fuel + 1) (c :: t) = brTxt ++ subSepF fuel (r.dropWhile pyIsSpace) := by
  show (match (c :: t).drop ((c :: t).takeWhile pyIsSpace).length with
    | d :: r =>
      if isSepChar d then brTxt ++ subSepF fuel (r.dropWhile pyIsSpace)
      else c :: subSepF fuel t
    | [] => c :: subSepF fuel t) = _
  rw [← dropWhile_eq_drop, hdw]
  simp [hd]

theorem subSepF_copy_step (fuel : Nat) (c : Char) (t : Text) {d : Char} {r : Text}
    (hdw : (c :: t).dropWhile pyIsSpace = d :: r) (hd : isSepChar d = false) :
    subSepF (fuel + 1) (c :: t) = c :: subSepF fuel t := by
  show (match (c :: t).drop ((c :: t).takeWhile pyIsSpace).length with
    | d :: r =>
      if isSepChar d then brTxt ++ subSepF fuel (r.dropWhile pyIsSpace)
      else c :: subSepF fuel t
    | [] => c :: subSepF fuel t) = _
  rw [← dropWhile_eq_drop, hdw]
  simp [hd]

theorem subSepF_empty_step (fuel : Nat) (c : Char) (t : Text)
    (hdw : (c :: t).dropWhile pyIsSpace = []) :
    subSepF (fuel + 1) (c :: t) = c :: subSepF fuel t := by
  show (match (c :: t).drop ((c :: t).takeWhile pyIsSpace).length with
    | d :: r =>
      if isSepChar d then brTxt ++ subSepF fuel (r.dropWhile pyIsSpace)
      else c :: subSepF fuel t
    | [] => c :: subSepF fuel t) = _
  rw [← dropWhile_eq_drop, hdw]

theorem subSepF_mem : ∀ (fuel : Nat) (s : Text) (x : Char),
    x ∈ subSepF fuel s → x ∈ s ∨ x ∈ brTxt := by
  intro fuel
  induction fuel with
  | zero => intro s x hx; exact Or.inl hx
  | succ fuel ih =>
    intro s x hx
    match s with
    | [] =>
      rw [show subSepF (fuel + 1) ([] : Text) = [] from rfl] at hx
      simp at hx
    | c :: t =>
      rcases hdw : (c :: t).dropWhile pyIsSpace with _ | ⟨d, r⟩
      · rw [subSepF_empty_step fuel c t hdw] at hx
        rcases List.mem_cons.mp hx with rfl | hx
        · exact Or.inl (List.mem_cons_self _ _)
        · rcases ih t x hx with h | h
          · exact Or.inl (List.mem_cons_of_mem _ h)
          · exact Or.inr h
      · by_cases hd : isSepChar d
        · rw [subSepF_sep_step fuel c t hdw hd] at hx
          rcases List.mem_append.mp hx with h | h
          · exact Or.inr h
          · rcases ih _ x h with h2 | h2
            · refine Or.inl ?_
              have hr : x ∈ r := (r.dropWhile_suffix pyIsSpace).subset h2
              have : x ∈ (c :: t).dropWhile pyIsSpace := by
                rw [hdw]; exact List.mem_cons_of_mem _ hr
              exact ((c :: t).dropWhile_suffix pyIsSpace).subset this
            · exact Or.inr h2
        · rw [subSepF_copy_step fuel c t hdw (Bool.of_not_eq_true hd)] at hx
          rcases List.mem_cons.mp hx with rfl | hx
          · exact Or.inl (List.mem_cons_self _ _)
          · rcases ih t x hx with h | h
            · exact Or.inl (List.mem_cons_of_mem _ h)
            · exact Or.inr h

theorem subSepF_no_sep : ∀ (fuel : Nat) (s : Text), s.length ≤ fuel →
    ∀ x ∈ subSepF fuel s, isSepChar x = false := by
  intro fuel
  induction fuel with
  | zero =>
    intro s hs x hx
    have hnil : s = [] := List.length_eq_zero.mp (Nat.le_zero.mp hs)
    subst hnil
    rw [show subSepF 0 ([] : Text) = [] from rfl] at hx
    simp at hx
  | succ fuel ih =>
    intro s hs x hx
    match s with
    | [] =>
      rw [show subSepF (fuel + 1) ([] : Text) = [] from rfl] at hx
      simp at hx
    | c :: t =>
      rcases hdw : (c :: t).dropWhile pyIsSpace with _ | ⟨d, r⟩
      · rw [subSepF_empty_step fuel c t hdw] at hx
        rcases List.mem_cons.mp hx with rfl | hx
        · by_cases hc : pyIsSpace x
          · exact space_not_sep hc
          · rw [List.dropWhile_cons_of_neg hc] at hdw
            exact absurd hdw (by simp)
        · exact ih t (by simpa using Nat.le_of_succ_le_succ hs) x hx
      · by_cases hd : isSepChar d
        · rw [subSepF_sep_step fuel c t hdw hd] at hx
          rcases List.mem_append.mp hx with h | h
          · fin_cases h <;> decide
          · refine ih _ ?_ x h
            have h1 : (d :: r).length ≤ (c :: t).length :=
              List.IsSuffix.length_le (by rw [← hdw]; exact (c :: t).dropWhile_suffix pyIsSpace)
            have h2 : (r.dropWhile pyIsSpace).length ≤ r.length :=
              List.IsSuffix.length_le (r.dropWhile_suffix pyIsSpace)
            simp at h1 hs
            omega
        · rw [subSepF_copy_step fuel c t hdw (Bool.of_not_eq_true hd)] at hx
          rcases List.mem_cons.mp hx with rfl | hx
          · by_cases hc : pyIsSpace x
            · exact space_not_sep hc
            · rw [List.dropWhile_cons_of_neg hc] at hdw
              cases hdw
              exact Bool.of_not_eq_true hd
          · exact ih t (by simpa using Nat.le_of_succ_le_succ hs) x hx

theorem subSepF_head (fuel : Nat) (s : Text)
    (hs : s = [] ∨ ∃ c t, s = c :: t ∧ pyIsSpace c = false) :
    subSepF fuel s = [] ∨ ∃ c u, subSepF fuel s = c :: u ∧ pyIsSpace c = false := by
  match fuel, s with
  | 0, s => exact hs
  | fuel + 1, [] => exact Or.inl rfl
  | fuel + 1, c :: t =>
    have hc : pyIsSpace c = false := by
      rcases hs with h | ⟨c', t', he, hc⟩
      · exact absurd h (by simp)
      · injection he with h1 h2
        exact h1.symm ▸ hc
    rcases hdw : (c :: t).dropWhile pyIsSpace with _ | ⟨d, r⟩
    · rw [subSepF_empty_step fuel c t hdw]
      exact Or.inr ⟨c, _, rfl, hc⟩
    · by_cases hd : isSepChar d
      · rw [subSepF_sep_step fuel c t hdw hd]
        exact Or.inr ⟨'<', _, rfl, by decide⟩
      · rw [subSepF_copy_step fuel c t hdw (Bool.of_not_eq_true hd)]
        exact Or.inr ⟨c, _, rfl, hc⟩

theorem subSepF_frag : ∀ (fuel : Nat) (frag s : Text), '<' ∉ frag →
    pfxB frag (subSepF fuel s) = true → pfxB frag s = true := by
  intro fuel
  induction fuel with
  | zero => intro frag s _ h; exact h
  | succ fuel ih =>
    intro frag s hlt h
    match s with
    | [] =>
      have : subSepF (fuel + 1) ([] : Text) = [] := rfl
      rw [this] at h
      rw [pfxB_nil_iff.mp h]
      rfl
    | c :: t =>
      match frag with
      | [] => rfl
      | f0 :: frag' =>
        rcases hdw : (c :: t).dropWhile pyIsSpace with _ | ⟨d, r⟩
        · rw [subSepF_empty_step fuel c t hdw] at h
          simp only [pfxB, Bool.and_eq_true, decide_eq_true_eq] at h ⊢
          exact ⟨h.1, ih frag' t (fun hm => hlt (List.mem_cons_of_mem _ hm)) h.2⟩
        · by_cases hd : isSepChar d
          · rw [subSepF_sep_step fuel c t hdw hd] at h
            simp only [brTxt, List.cons_append, pfxB, Bool.and_eq_true,
              decide_eq_true_eq] at h
            exact absurd (h.1 ▸ List.mem_cons_self f0 frag' : '<' ∈ f0 :: frag')
              (by rw [h.1] at hlt ⊢; exact hlt)
          · rw [subSepF_copy_step fuel c t hdw (Bool.of_not_eq_true hd)] at h
            simp only [pfxB, Bool.and_eq_true, decide_eq_true_eq] at h ⊢
            exact ⟨h.1, ih frag' t (fun hm => hlt (List.mem_cons_of_mem _ hm)) h.2⟩

theorem subSepF_followOk : ∀ (fuel : Nat) (s : Text), s.length ≤ fuel →
    NoOcc brTxt s → FollowOk (subSepF fuel s) := by
  intro fuel
  induction fuel with
  | zero =>
    intro s hs _
    have hnil : s = [] := List.length_eq_zero.mp (Nat.le_zero.mp hs)
    subst hnil
    exact followOk_nil
  | succ fuel ih =>
    intro s hs hocc
    match s with
    | [] => exact followOk_nil
    | c :: t =>
      rcases hdw : (c :: t).dropWhile pyIsSpace with _ | ⟨d, r⟩
      · rw [subSepF_empty_step fuel c t hdw]
        refine followOk_cons (fun hp => ?_) (ih t (by simpa using Nat.le_of_succ_le_succ hs)
          (noOcc_sfx (List.suffix_cons c t) hocc))
        exfalso
        obtain ⟨hcl, hfr⟩ := pfxB_br_cons.mp hp
        have h3 := subSepF_frag fuel ['b', 'r', '>'] t (by decide) hfr
        have h4 : pfxB brTxt ((c :: t).drop 0) = true := by
          rw [List.drop_zero, hcl]
          exact pfxB_br_cons.mpr ⟨rfl, h3⟩
        rw [hocc 0] at h4
        exact Bool.noConfusion h4
      · by_cases hd : isSepChar d
        · rw [subSepF_sep_step fuel c t hdw hd]
          have hsfx1 : (d :: r) <:+ (c :: t) := by
            rw [← hdw]; exact (c :: t).dropWhile_suffix pyIsSpace
          have hsfx : r.dropWhile pyIsSpace <:+ (c :: t) :=
            ((r.dropWhile_suffix pyIsSpace).trans (List.suffix_cons d r)).trans hsfx1
          have hlen : (r.dropWhile pyIsSpace).length ≤ fuel := by
            have h1 := List.IsSuffix.length_le hsfx1
            have h2 := List.IsSuffix.length_le (r.dropWhile_suffix pyIsSpace)
            simp at h1 hs
            omega
          refine followOk_br_append ?_ (ih _ hlen (noOcc_sfx hsfx hocc))
          exact subSepF_head fuel _ (by
            rcases he : r.dropWhile pyIsSpace with _ | ⟨e, u⟩
            · exact Or.inl rfl
            · exact Or.inr ⟨e, u, rfl, dropWhile_head r e u he⟩)
        · rw [subSepF_copy_step fuel c t hdw (Bool.of_not_eq_true hd)]
          refine followOk_cons (fun hp => ?_) (ih t (by simpa using Nat.le_of_succ_le_succ hs)
            (noOcc_sfx (List.suffix_cons c t) hocc))
          exfalso
          obtain ⟨hcl, hfr⟩ := pfxB_br_cons.mp hp
          have h3 := subSepF_frag fuel ['b', 'r', '>'] t (by decide) hfr
          have h4 : pfxB brTxt ((c :: t).drop 0) = true := by
            rw [List.drop_zero, hcl]
            exact pfxB_br_cons.mpr ⟨rfl, h3⟩
          rw [hocc 0] at h4
          exact Bool.noConfusion h4

theorem subSepF_precedeOk : ∀ (fuel : Nat) (s : Text), s.length ≤ fuel →
    NoOcc brTxt s → PrecedeOk (subSepF fuel s) := by
  intro fuel
  induction fuel with
  | zero =>
    intro s hs _
    have hnil : s = [] := List.length_eq_zero.mp (Nat.le_zero.mp hs)
    subst hnil
    exact precedeOk_nil
  | succ fuel ih =>
    intro s hs hocc
    match s with
    | [] => exact precedeOk_nil
    | c :: t =>
      have hPOt : PrecedeOk (subSepF fuel t) :=
        ih t (by simpa using Nat.le_of_succ_le_succ hs) (noOcc_sfx (List.suffix_cons c t) hocc)
      have hkey : (pyIsSpace c = true →
          (t.dropWhile pyIsSpace = []
            ∨ ∃ d r, t.dropWhile pyIsSpace = d :: r ∧ isSepChar d = false)) →
          pfxB brTxt (subSepF fuel t) = true → pyIsSpace c = false := by
        intro hshape hp
        by_cases hc : pyIsSpace c = false
        · exact hc
        · exfalso
          have hcs : pyIsSpace c = true := Bool.of_not_eq_false hc
          have hbrt : pfxB brTxt t = true := by
            match hft : fuel, t, hshape hcs, hp with
            | 0, t, _, hp => exact hp
            | g + 1, [], _, hp =>
              rw [show subSepF (g + 1) ([] : Text) = [] from rfl] at hp
              exact absurd hp (by decide)
            | g + 1, c2 :: t2, hsh, hp =>
              rcases hdw2 : (c2 :: t2).dropWhile pyIsSpace with _ | ⟨d2, r2⟩
              · rw [subSepF_empty_step g c2 t2 hdw2] at hp
                obtain ⟨hcl, hfr⟩ := pfxB_br_cons.mp hp
                rw [hcl]
                exact pfxB_br_cons.mpr ⟨rfl, subSepF_frag g ['b', 'r', '>'] t2 (by decide) hfr⟩
              · by_cases hd2 : isSepChar d2
                · exfalso
                  rcases hsh with hsh | ⟨d, r, hdr, hdns⟩
                  · rw [hdw2] at hsh; exact List.noConfusion hsh
                  · rw [hdw2] at hdr
                    injection hdr with h1 h2
                    rw [← h1] at hdns
                    rw [hd2] at hdns
                    exact Bool.noConfusion hdns
                · rw [subSepF_copy_step g c2 t2 hdw2 (Bool.of_not_eq_true hd2)] at hp
                  obtain ⟨hcl, hfr⟩ := pfxB_br_cons.mp hp
                  rw [hcl]
                  exact pfxB_br_cons.mpr ⟨rfl, subSepF_frag g ['b', 'r', '>'] t2 (by decide) hfr⟩
          have h4 : pfxB brTxt ((c :: t).drop 1) = true := by simpa using hbrt
          rw [hocc 1] at h4
          exact Bool.noConfusion h4
      rcases hdw : (c :: t).dropWhile pyIsSpace with _ | ⟨d, r⟩
      · rw [subSepF_empty_step fuel c t hdw]
        refine precedeOk_cons (hkey (fun hcs => ?_)) hPOt
        rw [List.dropWhile_cons_of_pos hcs] at hdw
        exact Or.inl hdw
      · by_cases hd : isSepChar d
        · rw [subSepF_sep_step fuel c t hdw hd]
          have hsfx1 : (d :: r) <:+ (c :: t) := by
            rw [← hdw]; exact (c :: t).dropWhile_suffix pyIsSpace
          have hsfx : r.dropWhile pyIsSpace <:+ (c :: t) :=
            ((r.dropWhile_suffix pyIsSpace).trans (List.suffix_cons d r)).trans hsfx1
          have hlen : (r.dropWhile pyIsSpace).length ≤ fuel := by
            have h1 := List.IsSuffix.length_le hsfx1
            have h2 := List.IsSuffix.length_le (r.dropWhile_suffix pyIsSpace)
            simp at h1 hs
            omega
          exact precedeOk_br_append (ih _ hlen (noOcc_sfx hsfx hocc))
        · rw [subSepF_copy_step fuel c t hdw (Bool.of_not_eq_true hd)]
          refine precedeOk_cons (hkey (fun hcs => ?_)) hPOt
          rw [List.dropWhile_cons_of_pos hcs] at hdw
          exact Or.inr ⟨d, r, hdw, Bool.of_not_eq_true hd⟩

/-! ### Invariants of the `<br>`-run collapsing pass -/

theorem pfxB_br_cons_ne {c : Char} {x : Text} (h : c ≠ '<') :
    pfxB brTxt (c :: x) = false := by
  by_cases hp : pfxB brTxt (c :: x) = true
  · exact absurd (pfxB_br_cons.mp hp).1 h
  · exact Bool.of_not_eq_true hp

theorem noOcc_brbr_nil : NoOcc (brTxt ++ brTxt) [] := by
  intro i
  rw [List.drop_nil]
  decide

theorem parseBrRunF_notbr (fuel : Nat) (s : Text) (h : pfxB brTxt s = false) :
    parseBrRunF fuel s = (0, s) := by
  cases fuel with
  | zero => rfl
  | succ fuel => simp [parseBrRunF, h]

theorem parseBrRun_notbr (s : Text) (h : pfxB brTxt s = false) :
    parseBrRun s = (0, s) := parseBrRunF_notbr _ s h

theorem parseBrRunF_step (fuel : Nat) (s : Text) (h : pfxB brTxt s = true) :
    parseBrRunF (fuel + 1) s
      = ((parseBrRunF fuel ((s.drop 4).dropWhile pyIsSpace)).1 + 1,
         (parseBrRunF fuel ((s.drop 4).dropWhile pyIsSpace)).2) := by
  simp [parseBrRunF, h]

/-- Under `FollowOk`, a `(?:<br>\s*)*` run is a contiguous block of
`<br>`s: the parser returns the number of leading `<br>`s, the remainder
starts right after them and carries no further `<br>` prefix, and every
block position in between carries one. -/
theorem parseBrRunF_char : ∀ (fuel : Nat) (s : Text), s.length ≤ fuel → FollowOk s →
    (parseBrRunF fuel s).2 = s.drop (4 * (parseBrRunF fuel s).1)
    ∧ pfxB brTxt (s.drop (4 * (parseBrRunF fuel s).1)) = false
    ∧ ∀ j < (parseBrRunF fuel s).1, pfxB brTxt (s.drop (4 * j)) = true := by
  intro fuel
  induction fuel with
  | zero =>
    intro s hs _
    have hnil : s = [] := List.length_eq_zero.mp (Nat.le_zero.mp hs)
    subst hnil
    refine ⟨rfl, by decide, ?_⟩
    intro j hj
    simp [parseBrRunF] at hj
  | succ fuel ih =>
    intro s hs hFO
    by_cases hbr : pfxB brTxt s = true
    · have hsh : (s.drop 4).dropWhile pyIsSpace = s.drop 4 :=
        dropWhile_nospace_id (by simpa using hFO 0 (by simpa using hbr))
      rw [parseBrRunF_step fuel s hbr, hsh]
      have hlen : (s.drop 4).length ≤ fuel := by
        have := pfxB_length hbr
        simp [brTxt] at this
        simp
        omega
      obtain ⟨ih1, ih2, ih3⟩ := ih (s.drop 4) hlen (followOk_drop hFO 4)
      refine ⟨?_, ?_, ?_⟩
      · rw [ih1, List.drop_drop]
        congr 1
        ring
      · rw [show 4 * ((parseBrRunF fuel (s.drop 4)).1 + 1)
            = 4 + 4 * (parseBrRunF fuel (s.drop 4)).1 from by ring, ← List.drop_drop]
        exact ih2
      · intro j hj
        cases j with
        | zero => simpa using hbr
        | succ j =>
          rw [show 4 * (j + 1) = 4 + 4 * j from by ring, ← List.drop_drop]
          exact ih3 j (by omega)
    · rw [parseBrRunF_notbr _ s (Bool.of_not_eq_true hbr)]
      refine ⟨by simp, by simpa using Bool.of_not_eq_true hbr, ?_⟩
      intro j hj
      simp at hj

theorem parseBrRun_char (s : Text) (hFO : FollowOk s) :
    (parseBrRun s).2 = s.drop (4 * (parseBrRun s).1)
    ∧ pfxB brTxt (s.drop (4 * (parseBrRun s).1)) = false
    ∧ ∀ j < (parseBrRun s).1, pfxB brTxt (s.drop (4 * j)) = true :=
  parseBrRunF_char s.length s (Nat.le_refl _) hFO

theorem collapseBrF_run_step (fuel : Nat) (c : Char) (t : Text)
    (h : 2 ≤ (parseBrRun (c :: t)).1) :
    collapseBrF (fuel + 1) (c :: t)
      = brTxt ++ collapseBrF fuel (parseBrRun (c :: t)).2 := by
  simp [collapseBrF, h]

theorem collapseBrF_copy_step (fuel : Nat) (c : Char) (t : Text)
    (h : ¬ 2 ≤ (parseBrRun (c :: t)).1) :
    collapseBrF (fuel + 1) (c :: t) = c :: collapseBrF fuel t := by
  simp [collapseBrF, h]

theorem collapseBrF_frag : ∀ (fuel : Nat) (frag s : Text), '<' ∉ frag →
    pfxB frag (collapseBrF fuel s) = true → pfxB frag s = true := by
  intro fuel
  induction fuel with
  | zero => intro frag s _ h; exact h
  | succ fuel ih =>
    intro frag s hlt h
    match s with
    | [] =>
      rw [show collapseBrF (fuel + 1) ([] : Text) = [] from rfl] at h
      rw [pfxB_nil_iff.mp h]
      rfl
    | c :: t =>
      match frag with
      | [] => rfl
      | f0 :: frag' =>
        by_cases hk : 2 ≤ (parseBrRun (c :: t)).1
        · rw [collapseBrF_run_step fuel c t hk] at h
          simp only [brTxt, List.cons_append, pfxB, Bool.and_eq_true,
            decide_eq_true_eq] at h
          exact absurd (h.1 ▸ List.mem_cons_self f0 frag' : '<' ∈ f0 :: frag')
            (by rw [h.1] at hlt ⊢; exact hlt)
        · rw [collapseBrF_copy_step fuel c t hk] at h
          simp only [pfxB, Bool.and_eq_true, decide_eq_true_eq] at h ⊢
          exact ⟨h.1, ih frag' t (fun hm => hlt (List.mem_cons_of_mem _ hm)) h.2⟩

theorem collapseBrF_notbr : ∀ (fuel : Nat) (s : Text), pfxB brTxt s = false →
    pfxB brTxt (collapseBrF fuel s) = false := by
  intro fuel s h
  match fuel, s with
  | 0, s => exact h
  | fuel + 1, [] =>
    rw [show collapseBrF (fuel + 1) ([] : Text) = [] from rfl]
    decide
  | fuel + 1, c :: t =>
    have hk : ¬ 2 ≤ (parseBrRun (c :: t)).1 := by
      rw [parseBrRun_notbr _ h]
      omega
    rw [collapseBrF_copy_step fuel c t hk]
    by_cases hp : pfxB brTxt (c :: collapseBrF fuel t) = true
    · exfalso
      obtain ⟨hcl, hfr⟩ := pfxB_br_cons.mp hp
      have h3 := collapseBrF_frag fuel ['b', 'r', '>'] t (by decide) hfr
      have h4 : pfxB brTxt (c :: t) = true := by
        rw [hcl]; exact pfxB_br_cons.mpr ⟨rfl, h3⟩
      rw [h] at h4
      exact Bool.noConfusion h4
    · exact Bool.of_not_eq_true hp

theorem collapse_walk3 (g : Nat) (u : Text) :
    collapseBrF (g + 3) ('b' :: 'r' :: '>' :: u) = 'b' :: 'r' :: '>' :: collapseBrF g u := by
  have h1 : ¬ 2 ≤ (parseBrRun ('b' :: 'r' :: '>' :: u)).1 := by
    rw [parseBrRun_notbr _ (pfxB_br_cons_ne (by decide))]
    omega
  have h2 : ¬ 2 ≤ (parseBrRun ('r' :: '>' :: u)).1 := by
    rw [parseBrRun_notbr _ (pfxB_br_cons_ne (by decide))]
    omega
  have h3 : ¬ 2 ≤ (parseBrRun ('>' :: u)).1 := by
    rw [parseBrRun_notbr _ (pfxB_br_cons_ne (by decide))]
    omega
  rw [show g + 3 = g + 2 + 1 from rfl, collapseBrF_copy_step _ _ _ h1,
    show g + 2 = g + 1 + 1 from rfl, collapseBrF_copy_step _ _ _ h2,
    collapseBrF_copy_step _ _ _ h3]

theorem head?_some_shape {l : Text} {d : Char} (h : l.head? = some d) :
    ∃ u, l = d :: u := by
  cases l with
  | nil => simp at h
  | cons a u =>
    refine ⟨u, ?_⟩
    simp only [List.head?_cons, Option.some.injEq] at h
    rw [h]

theorem collapse_master : ∀ (fuel : Nat) (s : Text), s.length ≤ fuel → FollowOk s →
    FollowOk (collapseBrF fuel s)
    ∧ NoOcc (brTxt ++ brTxt) (collapseBrF fuel s)
    ∧ (collapseBrF fuel s).head? = s.head?
    ∧ (PrecedeOk s → PrecedeOk (collapseBrF fuel s))
    ∧ (∀ x ∈ collapseBrF fuel s, x ∈ s ∨ x ∈ brTxt) := by
  intro fuel
  induction fuel using Nat.strong_induction_on with
  | _ fuel ih =>
    intro s hs hFO
    cases fuel with
    | zero =>
      have hnil : s = [] := List.length_eq_zero.mp (Nat.le_zero.mp hs)
      subst hnil
      refine ⟨followOk_nil, noOcc_brbr_nil, rfl, fun _ => precedeOk_nil, ?_⟩
      intro x hx
      rw [show collapseBrF 0 ([] : Text) = [] from rfl] at hx
      simp at hx
    | succ fl =>
      cases s with
      | nil =>
        rw [show collapseBrF (fl + 1) ([] : Text) = [] from rfl]
        exact ⟨followOk_nil, noOcc_brbr_nil, rfl, fun _ => precedeOk_nil, by simp⟩
      | cons c t =>
        by_cases hk : 2 ≤ (parseBrRun (c :: t)).1
        · obtain ⟨hr2, hnbr, hocc⟩ := parseBrRun_char (c :: t) hFO
          rw [collapseBrF_run_step fl c t hk, hr2]
          have hlen2 : ((c :: t).drop (4 * (parseBrRun (c :: t)).1)).length ≤ fl := by
            rw [List.length_drop]
            simp only [List.length_cons] at hs ⊢
            omega
          have hFOrest : FollowOk ((c :: t).drop (4 * (parseBrRun (c :: t)).1)) :=
            followOk_drop hFO _
          obtain ⟨ihFO, ihND, ihHD, ihPO, ihMem⟩ :=
            ih fl (Nat.lt_succ_self fl) _ hlen2 hFOrest
          have hcond : (c :: t).drop (4 * (parseBrRun (c :: t)).1) = [] ∨
              ∃ d u, (c :: t).drop (4 * (parseBrRun (c :: t)).1) = d :: u
                ∧ pyIsSpace d = false := by
            have hj := hocc ((parseBrRun (c :: t)).1 - 1) (by omega)
            have h2 := hFO (4 * ((parseBrRun (c :: t)).1 - 1)) hj
            rwa [show 4 * ((parseBrRun (c :: t)).1 - 1) + 4
              = 4 * (parseBrRun (c :: t)).1 from by omega] at h2
          have hcond2 : collapseBrF fl ((c :: t).drop (4 * (parseBrRun (c :: t)).1)) = [] ∨
              ∃ d u, collapseBrF fl ((c :: t).drop (4 * (parseBrRun (c :: t)).1)) = d :: u
                ∧ pyIsSpace d = false := by
            rcases hcond with he | ⟨d, u, he, hd⟩
            · left
              rw [he]
              cases fl <;> rfl
            · right
              have hh : (collapseBrF fl ((c :: t).drop (4 * (parseBrRun (c :: t)).1))).head?
                  = some d := by rw [ihHD, he]; rfl
              obtain ⟨u', hu'⟩ := head?_some_shape hh
              exact ⟨d, u', hu', hd⟩
          refine ⟨followOk_br_append hcond2 ihFO,
            noOcc_brbr_br_append (collapseBrF_notbr fl _ hnbr) ihND, ?_,
            fun hPO => precedeOk_br_append (ihPO (precedeOk_drop hPO _)), ?_⟩
          · have h0 := hocc 0 (by omega)
            rw [show 4 * 0 = 0 from rfl, List.drop_zero] at h0
            obtain ⟨u, hu⟩ := pfxB_br_shape h0
            rw [hu]
            rfl
          · intro x hx
            rcases List.mem_append.mp hx with hx | hx
            · exact Or.inr hx
            · rcases ihMem x hx with hx2 | hx2
              · exact Or.inl ((List.drop_suffix _ _).subset hx2)
              · exact Or.inr hx2
        · rw [collapseBrF_copy_step fl c t hk]
          have hlent : t.length ≤ fl := by
            simp only [List.length_cons] at hs
            omega
          have hFOt : FollowOk t := by
            have h2 := followOk_drop hFO 1
            simpa using h2
          obtain ⟨ihFO, ihND, ihHD, ihPO, ihMem⟩ := ih fl (Nat.lt_succ_self fl) t hlent hFOt
          have hshape : pfxB brTxt (c :: collapseBrF fl t) = true →
              c = '<' ∧ ∃ u, t = 'b' :: 'r' :: '>' :: u := by
            intro hp
            obtain ⟨hcl, hfr⟩ := pfxB_br_cons.mp hp
            have h3 := collapseBrF_frag fl ['b', 'r', '>'] t (by decide) hfr
            obtain ⟨u, hu⟩ := pfxB_iff_exists.mp h3
            exact ⟨hcl, u, by simpa using hu⟩
          refine ⟨?_, ?_, rfl, ?_, ?_⟩
          · refine followOk_cons (fun hp => ?_) ihFO
            obtain ⟨rfl, u, rfl⟩ := hshape hp
            obtain ⟨g, rfl⟩ : ∃ g, fl = g + 3 :=
              ⟨fl - 3, by simp only [List.length_cons] at hlent; omega⟩
            rw [collapse_walk3 g u]
            show collapseBrF g u = [] ∨ ∃ d u', collapseBrF g u = d :: u' ∧ pyIsSpace d = false
            have hFOu : FollowOk u := by
              have h2 := followOk_drop hFO 4
              simpa using h2
            have hlenu : u.length ≤ g := by
              simp only [List.length_cons] at hlent
              omega
            obtain ⟨_, _, uHD, _, _⟩ := ih g (by omega) u hlenu hFOu
            have hcnd := hFO 0 (by
              rw [List.drop_zero]
              exact pfxB_iff_exists.mpr ⟨u, rfl⟩)
            rw [show (('<' :: 'b' :: 'r' :: '>' :: u : Text)).drop (0 + 4) = u from rfl] at hcnd
            rcases hcnd with he | ⟨d, u2, he, hd⟩
            · left
              rw [he]
              cases g <;> rfl
            · right
              have hh : (collapseBrF g u).head? = some d := by rw [uHD, he]; rfl
              obtain ⟨u', hu'⟩ := head?_some_shape hh
              exact ⟨d, u', hu', hd⟩
          · refine noOcc_cons ?_ ihND
            by_cases hp : pfxB (brTxt ++ brTxt) (c :: collapseBrF fl t) = true
            · exfalso
              rw [pfxB_append_iff] at hp
              simp only [Bool.and_eq_true] at hp
              obtain ⟨hp1, hp2⟩ := hp
              obtain ⟨rfl, u, rfl⟩ := hshape hp1
              have hbrs : pfxB brTxt ('<' :: 'b' :: 'r' :: '>' :: u) = true :=
                pfxB_iff_exists.mpr ⟨u, rfl⟩
              obtain ⟨hr2, hnbr, hocc⟩ := parseBrRun_char ('<' :: 'b' :: 'r' :: '>' :: u) hFO
              have hk1 : (parseBrRun ('<' :: 'b' :: 'r' :: '>' :: u)).1 = 1 := by
                by_cases h0 : (parseBrRun ('<' :: 'b' :: 'r' :: '>' :: u)).1 = 0
                · rw [h0, show 4 * 0 = 0 from rfl, List.drop_zero] at hnbr
                  rw [hbrs] at hnbr
                  exact Bool.noConfusion hnbr
                · omega
              rw [hk1, show ('<' :: 'b' :: 'r' :: '>' :: u : Text).drop (4 * 1) = u from rfl]
                at hnbr
              obtain ⟨g, rfl⟩ : ∃ g, fl = g + 3 :=
                ⟨fl - 3, by simp only [List.length_cons] at hlent; omega⟩
              rw [show ('<' :: collapseBrF (g + 3) ('b' :: 'r' :: '>' :: u) : Text).drop
                    brTxt.length
                  = (collapseBrF (g + 3) ('b' :: 'r' :: '>' :: u)).drop 3 from rfl,
                collapse_walk3 g u,
                show ('b' :: 'r' :: '>' :: collapseBrF g u : Text).drop 3
                  = collapseBrF g u from rfl] at hp2
              rw [collapseBrF_notbr g u hnbr] at hp2
              exact Bool.noConfusion hp2
            · exact Bool.of_not_eq_true hp
          · intro hPO
            refine precedeOk_cons (fun hp => ?_)
              (ihPO (by have h2 := precedeOk_drop hPO 1; simpa using h2))
            have hbt : pfxB brTxt t = true := by
              by_cases hq : pfxB brTxt t = true
              · exact hq
              · exfalso
                rw [collapseBrF_notbr fl t (Bool.of_not_eq_true hq)] at hp
                exact Bool.noConfusion hp
            exact hPO 0 c t (by rw [List.drop_zero]) hbt
          · intro x hx
            rcases List.mem_cons.mp hx with rfl | hx
            · exact Or.inl (List.mem_cons_self _ _)
            · rcases ihMem x hx with h | h
              · exact Or.inl (List.mem_cons_of_mem _ h)
              · exact Or.inr h

theorem collapse_id : ∀ (fuel : Nat) (s : Text), s.length ≤ fuel → FollowOk s →
    NoOcc (brTxt ++ brTxt) s → collapseBrF fuel s = s := by
  intro fuel
  induction fuel with
  | zero =>
    intro s hs _ _
    have hnil : s = [] := List.length_eq_zero.mp (Nat.le_zero.mp hs)
    subst hnil
    rfl
  | succ fl ih =>
    intro s hs hFO hND
    cases s with
    | nil => rfl
    | cons c t =>
      by_cases hk : 2 ≤ (parseBrRun (c :: t)).1
      · exfalso
        obtain ⟨hr2, hnbr, hocc⟩ := parseBrRun_char (c :: t) hFO
        have h0 := hocc 0 (by omega)
        have h1 := hocc 1 (by omega)
        rw [show 4 * 0 = 0 from rfl, List.drop_zero] at h0
        have hbb : pfxB (brTxt ++ brTxt) ((c :: t).drop 0) = true := by
          rw [List.drop_zero, pfxB_append_iff]
          simp only [Bool.and_eq_true]
          refine ⟨h0, ?_⟩
          rw [show (brTxt : Text).length = 4 from rfl]
          rwa [show 4 * 1 = 4 from rfl] at h1
        rw [hND 0] at hbb
        exact Bool.noConfusion hbb
      · rw [collapseBrF_copy_step fl c t hk]
        rw [ih t (by simp only [List.length_cons] at hs; omega)
          (by have h2 := followOk_drop hFO 1; simpa using h2)
          (by have h2 := noOcc_drop hND 1; simpa using h2)]

/-! ### The strip stages -/

theorem pfx_transfer {p l' l : Text} (h : l' <+: l) (hp : pfxB p l' = true) :
    pfxB p l = true := by
  obtain ⟨w, rfl⟩ := h
  obtain ⟨u, rfl⟩ := pfxB_iff_exists.mp hp
  exact pfxB_iff_exists.mpr ⟨u ++ w, by simp⟩

theorem pfx_head {l' l : Text} (h : l' <+: l) (hne : l' ≠ []) : l'.head? = l.head? := by
  obtain ⟨w, rfl⟩ := h
  cases l' with
  | nil => exact absurd rfl hne
  | cons a u => rfl

theorem sfx_getLast {l' l : Text} (h : l' <:+ l) (hne : l' ≠ []) :
    l'.getLast? = l.getLast? := by
  obtain ⟨w, rfl⟩ := h
  rw [List.getLast?_append_of_ne_nil _ hne]

theorem followOk_sfx {l' l : Text} (h : l' <:+ l) (hf : FollowOk l) : FollowOk l' := by
  obtain ⟨w, rfl⟩ := h
  have h2 := followOk_drop hf w.length
  rwa [drop_app0] at h2

theorem followOk_pfx {l' l : Text} (h : l' <+: l) (hf : FollowOk l) : FollowOk l' := by
  obtain ⟨w, rfl⟩ := h
  have h2 := followOk_take hf l'.length
  rwa [List.take_left] at h2

theorem noOcc_pfx {p l' l : Text} (h : l' <+: l) (hf : NoOcc p l) : NoOcc p l' := by
  obtain ⟨w, rfl⟩ := h
  have h2 := noOcc_take hf l'.length
  rwa [List.take_left] at h2

theorem precedeOk_sfx {l' l : Text} (h : l' <:+ l) (hf : PrecedeOk l) : PrecedeOk l' := by
  obtain ⟨w, rfl⟩ := h
  have h2 := precedeOk_drop hf w.length
  rwa [drop_app0] at h2

theorem precedeOk_pfx {l' l : Text} (h : l' <+: l) (hf : PrecedeOk l) : PrecedeOk l' := by
  obtain ⟨w, rfl⟩ := h
  have h2 := precedeOk_take hf l'.length
  rwa [List.take_left] at h2

theorem rev_drop_rev (s : Text) (n : Nat) :
    (s.reverse.drop n).reverse = s.take (s.length - n) := by
  rw [List.reverse_drop]
  simp

theorem rstrip_eq_take (s : Text) :
    rstrip s = s.take (s.length - (s.reverse.takeWhile pyIsSpace).length) := by
  rw [rstrip, dropWhile_eq_drop, rev_drop_rev]

theorem rstrip_pfx (s : Text) : rstrip s <+: s := by
  rw [rstrip_eq_take]
  exact List.take_prefix _ s

theorem pyStrip_subset (s : Text) : ∀ x ∈ pyStrip s, x ∈ s := by
  intro x hx
  have h1 : x ∈ lstrip s := (rstrip_pfx (lstrip s)).subset hx
  exact ((s.dropWhile_suffix pyIsSpace).subset h1)

theorem pyStrip_head (s : Text) :
    pyStrip s = [] ∨ ∃ c u, pyStrip s = c :: u ∧ pyIsSpace c = false := by
  rcases hp : pyStrip s with _ | ⟨c, u⟩
  · exact Or.inl rfl
  · refine Or.inr ⟨c, u, rfl, ?_⟩
    have hne : pyStrip s ≠ [] := by rw [hp]; simp
    have hh : (pyStrip s).head? = (lstrip s).head? := pfx_head (rstrip_pfx _) hne
    rcases hl : lstrip s with _ | ⟨d, v⟩
    · rw [hl] at hh; rw [hp] at hh; simp at hh
    · have hd := dropWhile_head s d v hl
      rw [hl, hp] at hh
      simp only [List.head?_cons, Option.some.injEq] at hh
      rwa [hh]

theorem pyStrip_last (s : Text) :
    pyStrip s = [] ∨ ∃ c, (pyStrip s).getLast? = some c ∧ pyIsSpace c = false := by
  rcases hp : (pyStrip s).getLast? with _ | c
  · left
    cases hq : pyStrip s with
    | nil => rfl
    | cons a u =>
      rw [hq, List.getLast?_eq_head?_reverse] at hp
      simp at hp
  · right
    refine ⟨c, rfl, ?_⟩
    have h1 : (pyStrip s).reverse.head? = some c := by
      rw [← List.getLast?_eq_head?_reverse, hp]
    have h2 : (pyStrip s).reverse = (lstrip s).reverse.dropWhile pyIsSpace := by
      show (rstrip (lstrip s)).reverse = _
      rw [rstrip, List.reverse_reverse]
    rw [h2] at h1
    obtain ⟨u, hu⟩ := head?_some_shape h1
    exact dropWhile_head _ c u hu

theorem pyStrip_id (s : Text)
    (hh : s = [] ∨ ∃ c u, s = c :: u ∧ pyIsSpace c = false)
    (hl : s = [] ∨ ∃ c, s.getLast? = some c ∧ pyIsSpace c = false) :
    pyStrip s = s := by
  have h1 : lstrip s = s := dropWhile_nospace_id hh
  rw [pyStrip, h1, rstrip]
  rcases hl with rfl | ⟨c, hc, hcs⟩
  · rfl
  · have h2 : s.reverse.dropWhile pyIsSpace = s.reverse := by
      refine dropWhile_nospace_id ?_
      rcases hr : s.reverse with _ | ⟨d, v⟩
      · exact Or.inl rfl
      · refine Or.inr ⟨d, v, rfl, ?_⟩
        rw [List.getLast?_eq_head?_reverse, hr] at hc
        simp only [List.head?_cons, Option.some.injEq] at hc
        rwa [hc]
    rw [h2, List.reverse_reverse]

theorem pyStrip_eq_drop_take (s : Text) :
    pyStrip s = (s.drop (s.takeWhile pyIsSpace).length).take
      ((lstrip s).length - ((lstrip s).reverse.takeWhile pyIsSpace).length) := by
  rw [pyStrip, rstrip_eq_take, lstrip, dropWhile_eq_drop]

theorem followOk_pyStrip {s : Text} (h : FollowOk s) : FollowOk (pyStrip s) := by
  rw [pyStrip, rstrip_eq_take]
  refine followOk_pfx (List.take_prefix _ _) ?_
  rw [lstrip, dropWhile_eq_drop]
  exact followOk_drop h _

theorem noOcc_pyStrip {p s : Text} (h : NoOcc p s) : NoOcc p (pyStrip s) := by
  rw [pyStrip, rstrip_eq_take]
  refine noOcc_pfx (List.take_prefix _ _) ?_
  rw [lstrip, dropWhile_eq_drop]
  exact noOcc_drop h _

theorem precedeOk_pyStrip {s : Text} (h : PrecedeOk s) : PrecedeOk (pyStrip s) := by
  rw [pyStrip, rstrip_eq_take]
  refine precedeOk_pfx (List.take_prefix _ _) ?_
  rw [lstrip, dropWhile_eq_drop]
  exact precedeOk_drop h _

theorem stripLeadingBrF_sfx : ∀ (fuel : Nat) (s : Text), stripLeadingBrF fuel s <:+ s := by
  intro fuel
  induction fuel with
  | zero => intro s; exact List.suffix_refl s
  | succ fl ih =>
    intro s
    by_cases hbr : pfxB brTxt s = true
    · rw [show stripLeadingBrF (fl + 1) s
          = stripLeadingBrF fl (s.drop 4) from by simp [stripLeadingBrF, hbr]]
      exact (ih (s.drop 4)).trans (List.drop_suffix 4 s)
    · rw [show stripLeadingBrF (fl + 1) s = s from by
        simp [stripLeadingBrF, Bool.of_not_eq_true hbr]]

theorem stripLeadingBrF_nopfx : ∀ (fuel : Nat) (s : Text), s.length ≤ fuel →
    pfxB brTxt (stripLeadingBrF fuel s) = false := by
  intro fuel
  induction fuel with
  | zero =>
    intro s hs
    have hnil : s = [] := List.length_eq_zero.mp (Nat.le_zero.mp hs)
    subst hnil
    decide
  | succ fl ih =>
    intro s hs
    by_cases hbr : pfxB brTxt s = true
    · rw [show stripLeadingBrF (fl + 1) s
          = stripLeadingBrF fl (s.drop 4) from by simp [stripLeadingBrF, hbr]]
      refine ih (s.drop 4) ?_
      have h4 := pfxB_length hbr
      simp only [brTxt, List.length_cons, List.length_nil] at h4
      rw [List.length_drop]
      omega
    · rw [show stripLeadingBrF (fl + 1) s = s from by
        simp [stripLeadingBrF, Bool.of_not_eq_true hbr]]
      exact Bool.of_not_eq_true hbr

theorem stripLeadingBrF_head : ∀ (fuel : Nat) (s : Text), FollowOk s →
    (s = [] ∨ ∃ c u, s = c :: u ∧ pyIsSpace c = false) →
    (stripLeadingBrF fuel s = []
      ∨ ∃ c u, stripLeadingBrF fuel s = c :: u ∧ pyIsSpace c = false) := by
  intro fuel
  induction fuel with
  | zero => intro s _ hh; exact hh
  | succ fl ih =>
    intro s hFO hh
    by_cases hbr : pfxB brTxt s = true
    · rw [show stripLeadingBrF (fl + 1) s
          = stripLeadingBrF fl (s.drop 4) from by simp [stripLeadingBrF, hbr]]
      refine ih (s.drop 4) (followOk_drop hFO 4) ?_
      have h2 := hFO 0 (by simpa using hbr)
      simpa using h2
    · rw [show stripLeadingBrF (fl + 1) s = s from by
        simp [stripLeadingBrF, Bool.of_not_eq_true hbr]]
      exact hh

theorem stripLeadingBr_id (s : Text) (h : pfxB brTxt s = false) :
    stripLeadingBr s = s := by
  rw [stripLeadingBr]
  cases hl : s.length with
  | zero => rfl
  | succ n => simp [stripLeadingBrF, h]

theorem sfxB_br_decomp {s : Text} (h : sfxB brTxt s = true) :
    s.take (s.length - 4) ++ brTxt = s := by
  obtain ⟨u, hu⟩ := pfxB_iff_exists.mp h
  have hs : s = u.reverse ++ brTxt := by
    have := congrArg List.reverse hu
    rw [List.reverse_reverse, List.reverse_append] at this
    simpa [brTxt] using this
  rw [hs]
  have hlen : (u.reverse ++ brTxt).length - 4 = u.reverse.length := by
    simp [brTxt]
  rw [hlen, List.take_left]

theorem stripTrailingBrF_pfx : ∀ (fuel : Nat) (s : Text), stripTrailingBrF fuel s <+: s := by
  intro fuel
  induction fuel with
  | zero => intro s; exact List.prefix_refl s
  | succ fl ih =>
    intro s
    by_cases hbr : sfxB brTxt s = true
    · rw [show stripTrailingBrF (fl + 1) s
          = stripTrailingBrF fl (s.take (s.length - 4)) from by simp [stripTrailingBrF, hbr]]
      exact (ih _).trans (List.take_prefix _ s)
    · rw [show stripTrailingBrF (fl + 1) s = s from by
        simp [stripTrailingBrF, Bool.of_not_eq_true hbr]]

theorem sfxB_length {p s : Text} (h : sfxB p s = true) : p.length ≤ s.length := by
  have h2 := pfxB_length h
  simpa using h2

theorem stripTrailingBrF_nosfx : ∀ (fuel : Nat) (s : Text), s.length ≤ fuel →
    sfxB brTxt (stripTrailingBrF fuel s) = false := by
  intro fuel
  induction fuel with
  | zero =>
    intro s hs
    have hnil : s = [] := List.length_eq_zero.mp (Nat.le_zero.mp hs)
    subst hnil
    decide
  | succ fl ih =>
    intro s hs
    by_cases hbr : sfxB brTxt s = true
    · rw [show stripTrailingBrF (fl + 1) s
          = stripTrailingBrF fl (s.take (s.length - 4)) from by simp [stripTrailingBrF, hbr]]
      refine ih _ ?_
      have h4 : (4 : Nat) ≤ s.length := by simpa [brTxt] using sfxB_length hbr
      rw [List.length_take]
      omega
    · rw [show stripTrailingBrF (fl + 1) s = s from by
        simp [stripTrailingBrF, Bool.of_not_eq_true hbr]]
      exact Bool.of_not_eq_true hbr

theorem stripTrailingBrF_last : ∀ (fuel : Nat) (s : Text), s.length ≤ fuel →
    PrecedeOk s →
    (s = [] ∨ ∃ c, s.getLast? = some c ∧ pyIsSpace c = false) →
    (stripTrailingBrF fuel s = []
      ∨ ∃ c, (stripTrailingBrF fuel s).getLast? = some c ∧ pyIsSpace c = false) := by
  intro fuel
  induction fuel with
  | zero => intro s _ _ hl; exact hl
  | succ fl ih =>
    intro s hs hPO hl
    by_cases hbr : sfxB brTxt s = true
    · rw [show stripTrailingBrF (fl + 1) s
          = stripTrailingBrF fl (s.take (s.length - 4)) from by simp [stripTrailingBrF, hbr]]
      have hdec := sfxB_br_decomp hbr
      have h4 : (4 : Nat) ≤ s.length := by simpa [brTxt] using sfxB_length hbr
      refine ih _ (by rw [List.length_take]; omega)
        (precedeOk_pfx (List.take_prefix _ _) hPO) ?_
      rcases List.eq_nil_or_concat (s.take (s.length - 4)) with he | ⟨w', c, he⟩
      · exact Or.inl he
      · rw [List.concat_eq_append] at he
        refine Or.inr ⟨c, ?_, ?_⟩
        · rw [he, List.getLast?_append_of_ne_nil _ (by simp)]
          rfl
        · refine hPO w'.length c brTxt ?_ (pfxB_iff_exists.mpr ⟨[], by simp⟩)
          rw [← hdec, he, List.append_assoc, drop_app0]
          rfl
    · rw [show stripTrailingBrF (fl + 1) s = s from by
        simp [stripTrailingBrF, Bool.of_not_eq_true hbr]]
      exact hl

theorem stripTrailingBr_id (s : Text) (h : sfxB brTxt s = false) :
    stripTrailingBr s = s := by
  rw [stripTrailingBr]
  cases hl : s.length with
  | zero => rfl
  | succ n => simp [stripTrailingBrF, h]

theorem subSepF_id : ∀ (fuel : Nat) (s : Text),
    (∀ x ∈ s, isSepChar x = false) → subSepF fuel s = s := by
  intro fuel
  induction fuel with
  | zero => intro s _; rfl
  | succ fl ih =>
    intro s hns
    match s with
    | [] => rfl
    | c :: t =>
      rcases hdw : (c :: t).dropWhile pyIsSpace with _ | ⟨d, r⟩
      · rw [subSepF_empty_step fl c t hdw, ih t (fun x hx => hns x (List.mem_cons_of_mem _ hx))]
      · have hd : isSepChar d = false := by
          refine hns d ?_
          have : d ∈ (c :: t).dropWhile pyIsSpace := by rw [hdw]; simp
          exact ((c :: t).dropWhile_suffix pyIsSpace).subset this
        rw [subSepF_copy_step fl c t hdw hd,
          ih t (fun x hx => hns x (List.mem_cons_of_mem _ hx))]

theorem clean_chars (t : Text) : ∀ x ∈ clean t,
    (x ≠ Char.ofNat 0xfeff ∧ x ≠ Char.ofNat 0x200b) := by
  intro x hx
  have h1 := pyStrip_subset _ x hx
  have h2 := List.of_mem_filter h1
  simpa using h2

theorem clean_clean (t : Text) : clean (clean t) = clean t := by
  rw [show clean (clean t)
      = pyStrip ((clean t).filter (fun c => c ≠ Char.ofNat 0xfeff && c ≠ Char.ofNat 0x200b))
    from rfl]
  rw [List.filter_eq_self.mpr (by
    intro a ha
    have := clean_chars t a ha
    simp [this.1, this.2])]
  exact pyStrip_id _ (pyStrip_head _) (pyStrip_last _)

/-! ### Wrapper corollaries at the canonical fuel -/

theorem subSep_followOk {s : Text} (h : NoOcc brTxt s) : FollowOk (subSep s) :=
  subSepF_followOk s.length s (Nat.le_refl _) h

theorem subSep_precedeOk {s : Text} (h : NoOcc brTxt s) : PrecedeOk (subSep s) :=
  subSepF_precedeOk s.length s (Nat.le_refl _) h

theorem subSep_mem (s : Text) : ∀ x ∈ subSep s, x ∈ s ∨ x ∈ brTxt :=
  subSepF_mem s.length s

theorem subSep_no_sep (s : Text) : ∀ x ∈ subSep s, isSepChar x = false :=
  subSepF_no_sep s.length s (Nat.le_refl _)

theorem subSep_id (s : Text) (h : ∀ x ∈ s, isSepChar x = false) : subSep s = s :=
  subSepF_id s.length s h

theorem collapseBr_master (s : Text) (hFO : FollowOk s) :
    FollowOk (collapseBr s)
    ∧ NoOcc (brTxt ++ brTxt) (collapseBr s)
    ∧ (collapseBr s).head? = s.head?
    ∧ (PrecedeOk s → PrecedeOk (collapseBr s))
    ∧ (∀ x ∈ collapseBr s, x ∈ s ∨ x ∈ brTxt) :=
  collapse_master s.length s (Nat.le_refl _) hFO

theorem collapseBr_id (s : Text) (hFO : FollowOk s)
    (hND : NoOcc (brTxt ++ brTxt) s) : collapseBr s = s :=
  collapse_id s.length s (Nat.le_refl _) hFO hND

theorem stripLeadingBr_sfx (s : Text) : stripLeadingBr s <:+ s :=
  stripLeadingBrF_sfx s.length s

theorem stripLeadingBr_nopfx (s : Text) : pfxB brTxt (stripLeadingBr s) = false :=
  stripLeadingBrF_nopfx s.length s (Nat.le_refl _)

theorem stripLeadingBr_head (s : Text) (hFO : FollowOk s)
    (hh : s = [] ∨ ∃ c u, s = c :: u ∧ pyIsSpace c = false) :
    stripLeadingBr s = [] ∨ ∃ c u, stripLeadingBr s = c :: u ∧ pyIsSpace c = false :=
  stripLeadingBrF_head s.length s hFO hh

theorem stripTrailingBr_pfx (s : Text) : stripTrailingBr s <+: s :=
  stripTrailingBrF_pfx s.length s

theorem stripTrailingBr_nosfx (s : Text) : sfxB brTxt (stripTrailingBr s) = false :=
  stripTrailingBrF_nosfx s.length s (Nat.le_refl _)

theorem stripTrailingBr_last (s : Text) (hPO : PrecedeOk s)
    (hl : s = [] ∨ ∃ c, s.getLast? = some c ∧ pyIsSpace c = false) :
    stripTrailingBr s = []
      ∨ ∃ c, (stripTrailingBr s).getLast? = some c ∧ pyIsSpace c = false :=
  stripTrailingBrF_last s.length s (Nat.le_refl _) hPO hl

/-! ### The deck-build pipeline of builder.py `build_anki_deck`

Rows are modelled as association lists of cleaned column name to cleaned
cell value (the output of `_read_rows`).  File-system facts, the audio
backend and the clock are supplied by a `BuildEnv` oracle; the model/deck
identifiers, CSS and card-template markup constants of the source do not
influence any claim and are elided. -/

abbrev Row := List (Text × Text)

/-- Python `dict.get(k, d)`. -/
def rowGet (r : Row) (k : Text) (d : Text) : Text := (r.lookup k).getD d

def kHanzi : Text := "Hanzi".data
def kPinyin : Text := "Pinyin".data
def kIndo : Text := "Indo".data
def kLiteral : Text := "Literal".data
def kGrammar : Text := "Grammar".data
def kAudio : Text := "Audio".data
def kEnableRM : Text := "Enable_RM".data
def kEnableLT : Text := "Enable_LT".data
def kEnableMP : Text := "Enable_MP".data
def kTags : Text := "Tags".data
def kUID : Text := "UID".data

/-- builder.py `DEFAULT_COLUMNS`: the eleven canonical names, each mapped
to itself. -/
def DEFAULT_COLUMNS : List (Text × Text) :=
  [kHanzi, kPinyin, kIndo, kLiteral, kGrammar, kAudio,
   kEnableRM, kEnableLT, kEnableMP, kTags, kUID].map (fun k => (k, k))

/-- builder.py `_validate_columns`: start from the defaults and overlay
every override with a non-empty value. -/
def validateColumns (overrides : List (Text × Text)) (k : Text) : Text :=
  match (overrides.filter (fun p => p.2 ≠ [])).lookup k with
  | some v => v
  | none => (DEFAULT_COLUMNS.lookup k).getD k

def natTxt (n : Nat) : Text := (toString n).data

/-- `f"{n:0wd}"`: decimal, zero-padded to width `w`. -/
def padZeros (w : Nat) (n : Nat) : Text :=
  List.replicate (w - (natTxt n).length) '0' ++ natTxt n

def lowerTxt (s : Text) : Text := s.map Char.toLower

/-- Python `str.replace(a, b)` for single characters. -/
def replaceChar (a b : Char) (s : Text) : Text :=
  s.map (fun c => if c = a then b else c)

/-- `pathlib.PurePath.name`: the component after the last `/`. -/
def lastComponent (p : Text) : Text :=
  (p.reverse.takeWhile (fun c => c ≠ '/')).reverse

/-- `pathlib.PurePath.stem`: the final component without its suffix; the
suffix is the part from the last dot, provided that dot is neither the
first nor past-the-last character of the name. -/
def pathStem (p : Text) : Text :=
  let name := lastComponent p
  let ext := name.reverse.takeWhile (fun c => c ≠ '.')
  if ext.length = name.length then name
  else
    let i := name.length - ext.length - 1
    if 0 < i ∧ i < name.length - 1 then name.take i else name

/-- Python `str.split()` (whitespace split, empties dropped). -/
def splitWsF : Nat → Text → List Text
  | 0, _ => []
  | fuel + 1, s =>
    match s.dropWhile pyIsSpace with
    | [] => []
    | c :: t =>
      let w := (c :: t).takeWhile (fun x => !pyIsSpace x)
      w :: splitWsF fuel ((c :: t).drop w.length)

def splitWs (s : Text) : List Text := splitWsF s.length s

/-- `" ".join(ts)`. -/
def joinSpace (ts : List Text) : Text := List.intercalate [' '] ts

structure DeckBuildConfig where
  csvPath : Text
  speakerWav : Text
  regenerateAudioIfExists : Bool
  columns : List (Text × Text)
  useLiteralLinebreaks : Bool
  audioFormat : Text
  devicePreference : List Text

/-- `base_name = config.csv_path.stem.replace(" ", "_")`. -/
def baseName (cfg : DeckBuildConfig) : Text :=
  replaceChar ' ' '_' (pathStem cfg.csvPath)

/-- External state consulted by one build: file existence, the parsed CSV
rows, whether audio synthesis/rendering raises for a given row (and with
which message), device availability and the timestamp. -/
structure BuildEnv where
  speakerExists : Bool
  csvExists : Bool
  csvRows : List Row
  audioExists : Text → Bool
  renderFails : Nat → Option Text
  timestampTag : Text

inductive Event where
  | notify (stage : Text) (current total : Nat) (message : Option Text)
  | ttsCreate
  | synth (idx : Nat)
  | packageWrite
deriving Repr, DecidableEq

structure Note where
  fields : List Text
  tags : List Text
deriving Repr, DecidableEq

structure DeckBuildError where
  message : Text
  rowErrors : List Text
deriving Repr, DecidableEq

structure DeckBuildResult where
  apkgPath : Text
  mediaFiles : List Text
  rowsProcessed : Nat
  rowErrors : List Text
deriving Repr, DecidableEq

/-- Audio-file naming for one row: the `Audio` column if given (its
extension rewritten to the configured format when needed), otherwise
`f"{base_name.lower()}_{idx:03d}.{format}"`. -/
def audioNameFor (cfg : DeckBuildConfig) (row : Row) (idx : Nat) : Text :=
  let cols := validateColumns cfg.columns
  let an := rowGet row (cols kAudio) []
  if an = [] then
    lowerTxt (baseName cfg) ++ ['_'] ++ padZeros 3 idx ++ ['.'] ++ cfg.audioFormat
  else if ¬ sfxB ('.' :: cfg.audioFormat) (lowerTxt an) then
    pathStem an ++ ['.'] ++ cfg.audioFormat
  else an

def skipWarn (idx : Nat) : Text :=
  ("Baris ".data) ++ natTxt idx ++ (": kolom Hanzi kosong, dilewati.".data)

def failWarn (idx : Nat) (msg : Text) : Text :=
  ("Baris ".data) ++ natTxt idx ++ (": ".data) ++ msg

/-- Result of the body of the per-row `try`/`except` block of
builder.py `build_anki_deck`: at most one note, at most one warning, the
media files appended, and whether audio synthesis/rendering was invoked. -/
structure RowOutcome where
  note : Option Note
  warn : Option Text
  media : List Text
  synthInvoked : Bool
deriving Repr, DecidableEq

/-- One row of the loop body of builder.py `build_anki_deck` (lines
311–378): skip on empty Hanzi; otherwise derive the audio name, invoke
synthesis unless the file exists and regeneration is off (an exception
there is caught and logged as a row-scoped warning), and build the note. -/
def rowOutcome (cfg : DeckBuildConfig) (env : BuildEnv) (idx : Nat) (row : Row) :
    RowOutcome :=
  let cols := validateColumns cfg.columns
  let hanzi := rowGet row (cols kHanzi) []
  if hanzi = [] then
    { note := none, warn := some (skipWarn idx), media := [], synthInvoked := false }
  else
    let pinyin := rowGet row (cols kPinyin) []
    let indo := rowGet row (cols kIndo) []
    let literal := rowGet row (cols kLiteral) []
    let grammar := rowGet row (cols kGrammar) []
    let enableRm := let v := rowGet row (cols kEnableRM) ['1']; if v = [] then ['1'] else v
    let enableLt := let v := rowGet row (cols kEnableLT) ['1']; if v = [] then ['1'] else v
    let enableMp := let v := rowGet row (cols kEnableMP) ['1']; if v = [] then ['1'] else v
    let tags := rowGet row (cols kTags) []
    let uid := let u := rowGet row (cols kUID) []
               if u = [] then baseName cfg ++ ['-'] ++ padZeros 4 idx else u
    let literalBr := literal_to_br literal cfg.useLiteralLinebreaks
    let audioName := audioNameFor cfg row idx
    let tagList := splitWs tags ++ [env.timestampTag]
    let note : Note :=
      { fields := [hanzi, pinyin, indo, literal, literalBr, grammar, audioName,
                   ("[sound:".data) ++ audioName ++ [']'],
                   enableRm, enableLt, enableMp, joinSpace tagList, uid]
        tags := tagList }
    if cfg.regenerateAudioIfExists || !env.audioExists audioName then
      match env.renderFails idx with
      | some msg =>
        { note := none, warn := some (failWarn idx msg), media := [], synthInvoked := true }
      | none =>
        { note := some note, warn := none, media := [audioName], synthInvoked := true }
    else
      { note := some note, warn := none, media := [audioName], synthInvoked := false }

structure LoopState where
  notes : List Note
  media : List Text
  rowErrors : List Text
  events : List Event
  ttsCreated : Bool
deriving Repr, DecidableEq

def kRowStage : Text := "row".data

/-- State threading for one row: append the row's outcome, emit the
lazy-creation and synthesis events when synthesis ran, and always emit the
per-row progress notification (the `finally` block). -/
def processRow (cfg : DeckBuildConfig) (env : BuildEnv) (total : Nat)
    (st : LoopState) (idx : Nat) (row : Row) : LoopState :=
  let o := rowOutcome cfg env idx row
  { notes := st.notes ++ o.note.toList
    media := st.media ++ o.media
    rowErrors := st.rowErrors ++ o.warn.toList
    events := st.events
      ++ (if o.synthInvoked && !st.ttsCreated then [Event.ttsCreate] else [])
      ++ (if o.synthInvoked then [Event.synth idx] else [])
      ++ [Event.notify kRowStage idx total none]
    ttsCreated := st.ttsCreated || o.synthInvoked }

def enumIdx : Nat → List α → List (Nat × α)
  | _, [] => []
  | i, a :: l => (i, a) :: enumIdx (i + 1) l

def runRowsAux (cfg : DeckBuildConfig) (env : BuildEnv) (total : Nat) :
    LoopState → Nat → List Row → LoopState
  | st, _, [] => st
  | st, idx, row :: rest => runRowsAux cfg env total (processRow cfg env total st idx row) (idx + 1) rest

def initLoopState : LoopState :=
  { notes := [], media := [], rowErrors := [], events := [], ttsCreated := false }

/-- The whole `for idx, row in enumerate(rows, start=1)` loop. -/
def runRows (cfg : DeckBuildConfig) (env : BuildEnv) : LoopState :=
  runRowsAux cfg env env.csvRows.length initLoopState 1 env.csvRows

def speakerMissingMsg (cfg : DeckBuildConfig) : Text :=
  ("Speaker WAV tidak ditemukan: ".data) ++ cfg.speakerWav

def csvMissingMsg (cfg : DeckBuildConfig) : Text :=
  ("CSV tidak ditemukan: ".data) ++ cfg.csvPath

def csvEmptyMsg : Text := "CSV kosong atau tidak memiliki baris data.".data

def noCardsMsg : Text := "Tidak ada kartu yang berhasil dibangun.".data

/-- builder.py `build_anki_deck`: speaker check, CSV reading, the row
loop, the no-cards check, package serialisation and the progress
notifications, returning the result (or error) together with the trace of
emitted events. -/
def buildAnkiDeck (cfg : DeckBuildConfig) (env : BuildEnv) :
    Except DeckBuildError DeckBuildResult × List Event :=
  if !env.speakerExists then
    (.error { message := speakerMissingMsg cfg, rowErrors := [] }, [])
  else if !env.csvExists then
    (.error { message := csvMissingMsg cfg, rowErrors := [] }, [])
  else if env.csvRows = [] then
    (.error { message := csvEmptyMsg, rowErrors := [] }, [])
  else
    let total := env.csvRows.length
    let ev0 := [Event.notify ("init".data) 0 total (some ("Menyiapkan deck & model…".data)),
                Event.notify ("rows".data) 0 total (some ("Memproses baris CSV…".data))]
    let st := runRowsAux cfg env total initLoopState 1 env.csvRows
    if st.notes = [] then
      (.error { message := noCardsMsg, rowErrors := st.rowErrors }, ev0 ++ st.events)
    else
      let apkgName := baseName cfg ++ ['_'] ++ env.timestampTag ++ (".apkg".data)
      (.ok { apkgPath := apkgName, mediaFiles := st.media,
             rowsProcessed := st.notes.length, rowErrors := st.rowErrors },
       ev0 ++ st.events
         ++ [Event.packageWrite,
             Event.notify ("complete".data) 0 0 (some ("Deck selesai dibangun.".data))])

/-! ### Characterisation of the row loop -/

theorem runRowsAux_notes (cfg : DeckBuildConfig) (env : BuildEnv) (total : Nat)
    (rows : List Row) : ∀ (st : LoopState) (idx : Nat),
    (runRowsAux cfg env total st idx rows).notes
      = st.notes ++ (enumIdx idx rows).filterMap (fun p => (rowOutcome cfg env p.1 p.2).note) := by
  induction rows with
  | nil => intro st idx; simp [runRowsAux, enumIdx]
  | cons row rest ih =>
    intro st idx
    show (runRowsAux cfg env total (processRow cfg env total st idx row) (idx + 1) rest).notes = _
    rw [ih]
    simp only [processRow, enumIdx, List.filterMap_cons]
    cases h : (rowOutcome cfg env idx row).note <;> simp [h]

theorem runRowsAux_rowErrors (cfg : DeckBuildConfig) (env : BuildEnv) (total : Nat)
    (rows : List Row) : ∀ (st : LoopState) (idx : Nat),
    (runRowsAux cfg env total st idx rows).rowErrors
      = st.rowErrors ++ (enumIdx idx rows).filterMap (fun p => (rowOutcome cfg env p.1 p.2).warn) := by
  induction rows with
  | nil => intro st idx; simp [runRowsAux, enumIdx]
  | cons row rest ih =>
    intro st idx
    show (runRowsAux cfg env total (processRow cfg env total st idx row) (idx + 1) rest).rowErrors = _
    rw [ih]
    simp only [processRow, enumIdx, List.filterMap_cons]
    cases h : (rowOutcome cfg env idx row).warn <;> simp [h]

theorem runRowsAux_media (cfg : DeckBuildConfig) (env : BuildEnv) (total : Nat)
    (rows : List Row) : ∀ (st : LoopState) (idx : Nat),
    (runRowsAux cfg env total st idx rows).media
      = st.media ++ (enumIdx idx rows).flatMap (fun p => (rowOutcome cfg env p.1 p.2).media) := by
  induction rows with
  | nil => intro st idx; simp [runRowsAux, enumIdx]
  | cons row rest ih =>
    intro st idx
    show (runRowsAux cfg env total (processRow cfg env total st idx row) (idx + 1) rest).media = _
    rw [ih]
    simp [processRow, enumIdx]

def isSynthEv : Event → Bool
  | .synth _ => true
  | _ => false

theorem runRowsAux_synth_events (cfg : DeckBuildConfig) (env : BuildEnv) (total : Nat)
    (rows : List Row) : ∀ (st : LoopState) (idx : Nat),
    ((runRowsAux cfg env total st idx rows).events.filter isSynthEv)
      = st.events.filter isSynthEv
        ++ (enumIdx idx rows).flatMap (fun p =>
            if (rowOutcome cfg env p.1 p.2).synthInvoked then [Event.synth p.1] else []) := by
  induction rows with
  | nil => intro st idx; simp [runRowsAux, enumIdx]
  | cons row rest ih =>
    intro st idx
    show ((runRowsAux cfg env total (processRow cfg env total st idx row) (idx + 1) rest).events.filter isSynthEv) = _
    rw [ih]
    simp only [processRow, enumIdx, List.flatMap_cons, List.filter_append]
    by_cases hs : (rowOutcome cfg env idx row).synthInvoked
      <;> by_cases ht : st.ttsCreated
      <;> simp [hs, ht, isSynthEv, List.append_assoc]

theorem runRowsAux_no_packageWrite (cfg : DeckBuildConfig) (env : BuildEnv) (total : Nat)
    (rows : List Row) : ∀ (st : LoopState) (idx : Nat),
    Event.packageWrite ∉ st.events →
    Event.packageWrite ∉ (runRowsAux cfg env total st idx rows).events := by
  induction rows with
  | nil => intro st idx h; exact h
  | cons row rest ih =>
    intro st idx h
    show Event.packageWrite ∉ (runRowsAux cfg env total (processRow cfg env total st idx row) (idx + 1) rest).events
    refine ih _ _ ?_
    intro hm
    simp only [processRow, List.mem_append] at hm
    rcases hm with ((hm | hm) | hm) | hm
    · exact h hm
    · split at hm <;> simp at hm
    · split at hm <;> simp at hm
    · simp at hm

theorem enumIdx_fst_lb : ∀ (l : List α) (k : Nat) (p : Nat × α), p ∈ enumIdx k l → k ≤ p.1 := by
  intro l
  induction l with
  | nil => intro k p h; simp [enumIdx] at h
  | cons a t ih =>
    intro k p h
    rcases List.mem_cons.mp h with h | h
    · subst h; exact Nat.le_refl _
    · exact Nat.le_of_succ_le (ih (k + 1) p h)

theorem enumIdx_mem_unique : ∀ (l : List α) (k i : Nat) (r1 r2 : α),
    (i, r1) ∈ enumIdx k l → (i, r2) ∈ enumIdx k l → r1 = r2 := by
  intro l
  induction l with
  | nil => intro k i r1 r2 h; simp [enumIdx] at h
  | cons a t ih =>
    intro k i r1 r2 h1 h2
    rcases List.mem_cons.mp h1 with h1 | h1 <;> rcases List.mem_cons.mp h2 with h2 | h2
    · cases h1; cases h2; rfl
    · cases h1
      have := enumIdx_fst_lb t (k + 1) _ h2
      omega
    · cases h2
      have := enumIdx_fst_lb t (k + 1) _ h1
      omega
    · exact ih (k + 1) i r1 r2 h1 h2

/-! ### The card-template renderer of anki_preview.py

`render_template` resolves conditional sections (`_render_sections` /
`_extract_section`), splices the front side, substitutes field
placeholders (`FIELD_RE.sub` with `_replace_field`) and resolves sound
references (`_replace_sound_refs`).  Regex scanning is embedded as
explicit left-to-right scans with the match shapes of the concrete
patterns; loops carry explicit fuel. -/

def lbrace : Char := '{'
def rbrace : Char := '}'

/-- `f"{{{{#{field}}}}}"` — the positive section opener `{{#field}}`. -/
def openHashOf (f : Text) : Text := lbrace :: lbrace :: '#' :: (f ++ [rbrace, rbrace])

/-- `{{^field}}`. -/
def openCaretOf (f : Text) : Text := lbrace :: lbrace :: '^' :: (f ++ [rbrace, rbrace])

/-- `{{/field}}`. -/
def closeTagOf (f : Text) : Text := lbrace :: lbrace :: '/' :: (f ++ [rbrace, rbrace])

/-- Python `text.find(pat, i)` scan (absolute index, `none` for `-1`). -/
def findAux (pat : Text) : Text → Nat → Option Nat
  | [], i => if pat = [] then some i else none
  | c :: t, i => if pfxB pat (c :: t) then some i else findAux pat t (i + 1)

def findFrom (pat s : Text) (start : Nat) : Option Nat := findAux pat (s.drop start) start

/-- `min(candidates) if candidates else -1` over the two open-marker
positions. -/
def minOpt : Option Nat → Option Nat → Option Nat
  | none, b => b
  | some a, none => some a
  | some a, some b => some (min a b)

def openBefore : Option Nat → Nat → Bool
  | some o, nc => o < nc
  | none, _ => false

/-- Python `text[i:j]`. -/
def slice (s : Text) (i j : Nat) : Text := (s.take j).drop i

/-- The `while depth > 0` loop of `_extract_section`: find the next close
marker (fail with `-1` when absent), bump the depth at every earlier open
marker, and return the end index and inner text when the depth returns to
zero.  Outer `none` is fuel exhaustion; inner `none` is the `-1, ""`
result. -/
def extractLoop (text closeTag openHash openCaret : Text) (start : Nat) :
    Nat → Nat → Nat → Option (Option (Nat × Text))
  | 0, _, _ => none
  | fuel + 1, depth, idx =>
    match findFrom closeTag text idx with
    | none => some none
    | some nextClose =>
      let nextHash := findFrom openHash text idx
      let nextCaret := findFrom openCaret text idx
      let nextOpen := minOpt nextHash nextCaret
      if openBefore nextOpen nextClose then
        let o := nextOpen.getD 0
        let idx2 := if nextHash = nextOpen then o + openHash.length else o + openCaret.length
        extractLoop text closeTag openHash openCaret start fuel (depth + 1) idx2
      else
        if depth = 1 then
          some (some (nextClose + closeTag.length, slice text start nextClose))
        else
          extractLoop text closeTag openHash openCaret start fuel (depth - 1)
            (nextClose + closeTag.length)

/-- anki_preview.py `_extract_section`. -/
def extract_section (text : Text) (f : Text) (start : Nat) : Option (Nat × Text) :=
  (extractLoop text (closeTagOf f) (openHashOf f) (openCaretOf f) start
    (text.length + 1) 1 start).getD none

/-- `[^{}]`. -/
def isTagChar (c : Char) : Bool := c ≠ lbrace && c ≠ rbrace

/-- A match of `SECTION_RE = {{([#^])([^{}]+)}}` at the head of the text:
returns the tag type, the raw field group and the match length. -/
def sectionMatchAt? : Text → Option (Char × Text × Nat)
  | c1 :: c2 :: ty :: rest =>
    if c1 = lbrace ∧ c2 = lbrace ∧ (ty = '#' ∨ ty = '^') then
      let run := rest.takeWhile isTagChar
      if run ≠ [] ∧ pfxB [rbrace, rbrace] (rest.drop run.length) = true then
        some (ty, run, run.length + 5)
      else none
    else none
  | _ => none

/-- `SECTION_RE.search`: the leftmost match, as
(match start, tag type, raw field, match end). -/
def sectionSearchAux : Text → Nat → Option (Nat × Char × Text × Nat)
  | [], _ => none
  | c :: t, i =>
    match sectionMatchAt? (c :: t) with
    | some (ty, run, mlen) => some (i, ty, run, i + mlen)
    | none => sectionSearchAux t (i + 1)

abbrev Fields := List (Text × Text)

/-- `fields.get(name, "")`. -/
def getField (fields : Fields) (k : Text) : Text := (fields.lookup k).getD []

/-- The `while True` loop of `_render_sections`: search for a section
opener, extract its section (stopping silently on an unterminated one),
and splice in the inner markup or the empty string according to the
truthiness of the stripped field value. -/
def renderLoop (fields : Fields) : Nat → Text → Option Text
  | 0, _ => none
  | fuel + 1, text =>
    match sectionSearchAux text 0 with
    | none => some text
    | some (mstart, ty, raw, mend) =>
      let fieldName := pyStrip raw
      match extract_section text fieldName mend with
      | none => some text
      | some (e, inner) =>
        let value := getField fields fieldName
        let truthy : Bool := !(pyStrip value).isEmpty
        let keep := if ty = '#' then truthy else !truthy
        let repl := if keep then inner else []
        renderLoop fields fuel (text.take mstart ++ repl ++ text.drop e)

/-- anki_preview.py `_render_sections`. -/
def render_sections (template : Text) (fields : Fields) : Text :=
  (renderLoop fields (template.length + 1) template).getD template

/-- `html.escape` with its default `quote=True`. -/
def escapeChar (c : Char) : Text :=
  if c = '&' then "&amp;".data
  else if c = '<' then "&lt;".data
  else if c = '>' then "&gt;".data
  else if c = '"' then "&quot;".data
  else if c = '\'' then "&#x27;".data
  else [c]

def htmlEscape (s : Text) : Text := s.flatMap escapeChar

def isDigitCh (c : Char) : Bool := '0' ≤ c && c ≤ '9'

/-- A match of `CLOZE_RE = {{c\d+::(.*?)(?:::(.*?))?}}` (DOTALL) at the
head of the text: the lazy first group runs to the earlier of the first
`::` and the first `}}`; an optional lazy hint group is discarded. -/
def clozeMatchAt? : Text → Option (Text × Nat)
  | c1 :: c2 :: c3 :: rest =>
    if c1 = lbrace ∧ c2 = lbrace ∧ c3 = 'c' then
      let ds := rest.takeWhile isDigitCh
      if ds ≠ [] ∧ pfxB [':', ':'] (rest.drop ds.length) = true then
        let rest2 := rest.drop (ds.length + 2)
        match findAux [rbrace, rbrace] rest2 0 with
        | none => none
        | some j2 =>
          let g1len := match findAux [':', ':'] rest2 0 with
            | some j1 => if j1 < j2 then j1 else j2
            | none => j2
          some (rest2.take g1len, 3 + ds.length + 2 + j2 + 2)
      else none
    else none
  | _ => none

def clozeSpan (g : Text) : Text := ("<span class='cloze'>".data) ++ g ++ ("</span>".data)

/-- anki_preview.py `_apply_cloze` (`CLOZE_RE.sub`). -/
def applyClozeF : Nat → Text → Text
  | 0, s => s
  | _ + 1, [] => []
  | fuel + 1, c :: t =>
    match clozeMatchAt? (c :: t) with
    | some (g1, mlen) => clozeSpan g1 ++ applyClozeF fuel ((c :: t).drop mlen)
    | none => c :: applyClozeF fuel t

def applyCloze (s : Text) : Text := applyClozeF s.length s

/-- Python `expr.split(":", 1)`. -/
def splitColon1 (s : Text) : Text × Text :=
  (s.takeWhile (fun c => c ≠ ':'), (s.dropWhile (fun c => c ≠ ':')).drop 1)

def typeSpan (v : Text) : Text :=
  ("<span class=\"typeAnswer\">".data) ++ v ++ ("</span>".data)

/-- anki_preview.py `_replace_field`. -/
def replace_field (fields : Fields) (group : Text) : Text :=
  let expr := pyStrip group
  if expr = [] then []
  else if expr.contains ':' then
    let pr := lowerTxt (pyStrip (splitColon1 expr).1)
    let fieldName := pyStrip (splitColon1 expr).2
    let value := getField fields fieldName
    if pr = "text".data then htmlEscape value
    else if pr = "type".data then typeSpan value
    else if pr = "cloze".data then applyCloze value
    else value
  else if expr = "FrontSide".data then []
  else getField fields expr

/-- A match of `FIELD_RE = {{([^{}]+)}}` at the head of the text. -/
def fieldMatchAt? : Text → Option (Text × Nat)
  | c1 :: c2 :: rest =>
    if c1 = lbrace ∧ c2 = lbrace then
      let run := rest.takeWhile isTagChar
      if run ≠ [] ∧ pfxB [rbrace, rbrace] (rest.drop run.length) = true then
        some (run, run.length + 4)
      else none
    else none
  | _ => none

/-- `FIELD_RE.sub(lambda m: _replace_field(m, fields), rendered)`. -/
def fieldSubF (fields : Fields) : Nat → Text → Text
  | 0, s => s
  | _ + 1, [] => []
  | fuel + 1, c :: t =>
    match fieldMatchAt? (c :: t) with
    | some (run, mlen) => replace_field fields run ++ fieldSubF fields fuel ((c :: t).drop mlen)
    | none => c :: fieldSubF fields fuel t

def fieldSub (fields : Fields) (s : Text) : Text := fieldSubF fields s.length s

def fsTag : Text := lbrace :: lbrace :: ("FrontSide".data ++ [rbrace, rbrace])

/-- Python `str.replace(pat, repl)` for a non-empty pattern. -/
def replaceAllF (pat repl : Text) : Nat → Text → Text
  | 0, s => s
  | _ + 1, [] => []
  | fuel + 1, c :: t =>
    if pfxB pat (c :: t) then repl ++ replaceAllF pat repl fuel ((c :: t).drop pat.length)
    else c :: replaceAllF pat repl fuel t

def replaceAll (pat repl s : Text) : Text := replaceAllF pat repl s.length s

abbrev Bytes := List Nat
abbrev Media := List (Text × Bytes)

def b64Table : Text :=
  "ABCDEFGHIJKLMNOPQRSTUVWXYZabcdefghijklmnopqrstuvwxyz0123456789+/".data

def b64Char (n : Nat) : Char := b64Table.getD n 'A'

/-- `base64.b64encode` on byte values. -/
def base64Of : Bytes → Text
  | [] => []
  | [b0] => [b64Char (b0 / 4), b64Char (b0 % 4 * 16), '=', '=']
  | [b0, b1] => [b64Char (b0 / 4), b64Char (b0 % 4 * 16 + b1 / 16), b64Char (b1 % 16 * 4), '=']
  | b0 :: b1 :: b2 :: rest =>
    b64Char (b0 / 4) :: b64Char (b0 % 4 * 16 + b1 / 16)
      :: b64Char (b1 % 16 * 4 + b2 / 64) :: b64Char (b2 % 64) :: base64Of rest

/-- Modelled from `mimetypes.guess_type` combined with the source's
`mime or "application/octet-stream"` fallback, restricted to the audio
extensions this tool handles. -/
def guessMime (filename : Text) : Text :=
  let ext := lowerTxt ((filename.reverse.takeWhile (fun c => c ≠ '.')).reverse)
  if ext = "mp3".data then "audio/mpeg".data
  else if ext = "wav".data then "audio/x-wav".data
  else if ext = "ogg".data then "audio/ogg".data
  else "application/octet-stream".data

def missingMediaSpan (filename : Text) : Text :=
  ("<span class=\"missing-media\">[sound:".data) ++ htmlEscape filename ++ ("]</span>".data)

def audioElem (mime : Text) (data : Bytes) : Text :=
  ("<audio controls preload='metadata' style=\"width:100%; margin-top:0.5rem;\"><source src='data:".data)
    ++ mime ++ (";base64,".data) ++ base64Of data
    ++ ("'>Your browser does not support audio playback.</audio>".data)

/-- A match of `SOUND_RE = \[sound:([^\]]+)\]` at the head of the text. -/
def soundMatchAt? (s : Text) : Option (Text × Nat) :=
  if pfxB ("[sound:".data) s then
    let rest := s.drop 7
    let run := rest.takeWhile (fun c => c ≠ ']')
    if run ≠ [] ∧ pfxB [']'] (rest.drop run.length) = true then
      some (run, 7 + run.length + 1)
    else none
  else none

/-- anki_preview.py `_replace_sound_refs` (`SOUND_RE.sub`): a present,
non-empty blob becomes an inline audio element; a missing or empty blob
becomes the flagged missing-media span. -/
def soundSubF (media : Media) : Nat → Text → Text
  | 0, s => s
  | _ + 1, [] => []
  | fuel + 1, c :: t =>
    match soundMatchAt? (c :: t) with
    | some (filename, mlen) =>
      (match media.lookup filename with
       | none => missingMediaSpan filename
       | some [] => missingMediaSpan filename
       | some (b :: bs) => audioElem (guessMime filename) (b :: bs))
        ++ soundSubF media fuel ((c :: t).drop mlen)
    | none => c :: soundSubF media fuel t

def soundSub (media : Media) (s : Text) : Text := soundSubF media s.length s

/-- anki_preview.py `render_template` (with `media_map` and `front_side`
as explicit arguments; `none` models the Python defaults). -/
def render_template (template : Text) (fields : Fields) (media : Media)
    (front_side : Option Text) : Text :=
  let r1 := render_sections template fields
  let r2 := if (findAux fsTag r1 0).isSome
    then replaceAll fsTag (front_side.getD []) r1 else r1
  let r3 := fieldSub fields r2
  soundSub media r3

/-! ## Claim theorems: C7, C2, C5 counterexample -/

/-- C7: when an ambient track is supplied and exists, `_render_audio`
repeats it until its length reaches the voice clip's length and truncates
to exactly that length, so for every positive ambient length and every
voice length the overlaid ambient segment's length equals the voice
segment's length. -/
theorem c7_ambient_matches_voice_length (voiceLen ambientLen : Nat)
    (h : 0 < ambientLen) : ambientOverlayLen voiceLen ambientLen = voiceLen := by
  unfold ambientOverlayLen
  by_cases hlt : ambientLen < voiceLen
  · simp only [hlt, if_true]
    have h1 := Nat.div_add_mod voiceLen ambientLen
    have h2 := Nat.mod_lt voiceLen h
    have h3 : ambientLen * (voiceLen / ambientLen + 1)
        = ambientLen * (voiceLen / ambientLen) + ambientLen := Nat.mul_succ ..
    omega
  · simp only [hlt, if_false]
    omega

theorem c7_ambient_matches_voice_length_witness :
    0 < 70 ∧ ambientOverlayLen 1234 70 = 1234 :=
  ⟨by decide, c7_ambient_matches_voice_length 1234 70 (by decide)⟩

/-- C2 counterexample: in builder.py `ensure_tts`, when every device of
the preference order fails, no error of any kind is raised — the builder
silently proceeds with a created engine on no device (the function has no
failure path at all), contradicting the claim that exhausting the
candidates is reported as a fatal configuration error. -/
theorem c2_counterexample :
    ensureTts (fun _ => false) ["cuda".data, "cpu".data]
      = { created := true, device := none } := by decide

/-- C2 (amended): devices are tried in the configured order with failures
silently skipped.  In the UI deck builder (deck_builder.py), if every
candidate fails and the final `cpu` retry also fails, initialisation
reports a fatal error to the caller; in the core builder (builder.py),
`ensure_tts` instead silently returns the engine with no device selected. -/
theorem c2_device_fallback (ok : Text → Bool) (prefs : List Text)
    (h1 : ∀ d ∈ prefs, ok d = false) (h2 : ok "cpu".data = false) :
    initTtsDevice ok prefs = .error "TTS tidak dapat dijalankan di CPU.".data
    ∧ ensureTts ok prefs = { created := true, device := none } := by
  constructor
  · unfold initTtsDevice selectTtsDevice
    match prefs with
    | [] => simp [h2]
    | d :: rest =>
      have hfind : (d :: rest).find? ok = none :=
        List.find?_eq_none.mpr (by intro x hx; simp [h1 x hx])
      simp [hfind, h2]
  · unfold ensureTts
    have : ∀ l : List Text, (∀ d ∈ l, ok d = false) → ensureTtsDeviceLoop ok l = none := by
      intro l
      induction l with
      | nil => intro _; rfl
      | cons d rest ih =>
        intro hall
        simp only [ensureTtsDeviceLoop, hall d (by simp), if_false]
        exact ih (fun x hx => hall x (by simp [hx]))
    rw [this prefs h1]

theorem c2_device_fallback_witness :
    (∀ d ∈ ["cuda".data, "cpu".data], (fun (_ : Text) => false) d = false)
    ∧ (fun (_ : Text) => false) "cpu".data = false
    ∧ initTtsDevice (fun _ => false) ["cuda".data, "cpu".data]
        = .error "TTS tidak dapat dijalankan di CPU.".data :=
  ⟨by decide, rfl,
    (c2_device_fallback (fun _ => false) ["cuda".data, "cpu".data]
      (by decide) rfl).1⟩

/-- C3: the row loop of builder.py `build_anki_deck` processes every row
independently (the notes and warnings of a build are exactly the
per-row outcomes of all rows, in input order — so a failing row never
aborts the processing of subsequent rows); every row yields a note
exactly when it yields no warning; a row with empty Hanzi yields no note
and exactly the skip warning; a row with non-empty Hanzi whose processing
does not fail yields a note and no warning. -/
theorem c3_row_dichotomy (cfg : DeckBuildConfig) (env : BuildEnv) :
    (runRows cfg env).notes
      = (enumIdx 1 env.csvRows).filterMap (fun p => (rowOutcome cfg env p.1 p.2).note)
    ∧ (runRows cfg env).rowErrors
      = (enumIdx 1 env.csvRows).filterMap (fun p => (rowOutcome cfg env p.1 p.2).warn)
    ∧ (∀ idx row, ((rowOutcome cfg env idx row).note.isSome
        ↔ (rowOutcome cfg env idx row).warn = none))
    ∧ (∀ idx row, rowGet row (validateColumns cfg.columns kHanzi) [] = [] →
        (rowOutcome cfg env idx row).note = none
        ∧ (rowOutcome cfg env idx row).warn = some (skipWarn idx))
    ∧ (∀ idx row, rowGet row (validateColumns cfg.columns kHanzi) [] ≠ [] →
        env.renderFails idx = none →
        (rowOutcome cfg env idx row).note.isSome
        ∧ (rowOutcome cfg env idx row).warn = none) := by
  refine ⟨?_, ?_, ?_, ?_, ?_⟩
  · simpa using runRowsAux_notes cfg env env.csvRows.length env.csvRows initLoopState 1
  · simpa using runRowsAux_rowErrors cfg env env.csvRows.length env.csvRows initLoopState 1
  · intro idx row
    simp only [rowOutcome]
    split
    · simp
    · split
      · split <;> simp
      · simp
  · intro idx row h
    simp [rowOutcome, h]
  · intro idx row h hf
    simp only [rowOutcome, h, if_neg, if_false]
    split
    · rw [hf]; simp
    · simp

def cfgW : DeckBuildConfig :=
  { csvPath := "kalimat.csv".data, speakerWav := "suara.wav".data,
    regenerateAudioIfExists := false, columns := [],
    useLiteralLinebreaks := true, audioFormat := "mp3".data,
    devicePreference := ["cuda".data, "cpu".data] }

def envW : BuildEnv :=
  { speakerExists := true, csvExists := true,
    csvRows := [[(kHanzi, "你好".data)], []],
    audioExists := fun _ => false, renderFails := fun _ => none,
    timestampTag := "deck_20260101_000000".data }

theorem c3_row_dichotomy_witness :
    rowGet [] (validateColumns cfgW.columns kHanzi) [] = []
    ∧ (rowOutcome cfgW envW 2 []).note = none
    ∧ (rowOutcome cfgW envW 2 []).warn = some (skipWarn 2) :=
  ⟨by decide, ((c3_row_dichotomy cfgW envW).2.2.2.1 2 [] (by decide)).1,
    ((c3_row_dichotomy cfgW envW).2.2.2.1 2 [] (by decide)).2⟩

/-- C4: after the loop, zero produced notes makes builder.py
`build_anki_deck` fail with the fatal "no cards" error carrying exactly
the accumulated per-row warnings, and the package is not serialised;
with at least one note the build succeeds and the package is written. -/
theorem c4_no_cards_fatal (cfg : DeckBuildConfig) (env : BuildEnv)
    (h1 : env.speakerExists = true) (h2 : env.csvExists = true)
    (h3 : env.csvRows ≠ []) :
    ((runRows cfg env).notes = [] →
      (buildAnkiDeck cfg env).1
        = .error { message := noCardsMsg, rowErrors := (runRows cfg env).rowErrors }
      ∧ Event.packageWrite ∉ (buildAnkiDeck cfg env).2)
    ∧ ((runRows cfg env).notes ≠ [] →
      (buildAnkiDeck cfg env).1
        = .ok { apkgPath := baseName cfg ++ ['_'] ++ env.timestampTag ++ (".apkg".data),
                mediaFiles := (runRows cfg env).media,
                rowsProcessed := (runRows cfg env).notes.length,
                rowErrors := (runRows cfg env).rowErrors }
      ∧ Event.packageWrite ∈ (buildAnkiDeck cfg env).2) := by
  have hb : buildAnkiDeck cfg env =
      (if (runRows cfg env).notes = [] then
        (.error { message := noCardsMsg, rowErrors := (runRows cfg env).rowErrors },
          [Event.notify ("init".data) 0 env.csvRows.length (some ("Menyiapkan deck & model…".data)),
           Event.notify ("rows".data) 0 env.csvRows.length (some ("Memproses baris CSV…".data))]
          ++ (runRows cfg env).events)
      else
        (.ok { apkgPath := baseName cfg ++ ['_'] ++ env.timestampTag ++ (".apkg".data),
               mediaFiles := (runRows cfg env).media,
               rowsProcessed := (runRows cfg env).notes.length,
               rowErrors := (runRows cfg env).rowErrors },
          [Event.notify ("init".data) 0 env.csvRows.length (some ("Menyiapkan deck & model…".data)),
           Event.notify ("rows".data) 0 env.csvRows.length (some ("Memproses baris CSV…".data))]
          ++ (runRows cfg env).events
          ++ [Event.packageWrite,
              Event.notify ("complete".data) 0 0 (some ("Deck selesai dibangun.".data))])) := by
    unfold buildAnkiDeck
    simp only [h1, h2, h3, Bool.not_true, if_neg, if_false, Bool.false_eq_true]
    rfl
  constructor
  · intro hz
    rw [hb]
    simp only [hz, if_pos]
    refine ⟨by trivial, ?_⟩
    intro hm
    simp only [List.mem_append, List.mem_cons, List.not_mem_nil] at hm
    rcases hm with (hm | hm | hm) | hm
    · exact Event.noConfusion hm
    · exact Event.noConfusion hm
    · exact hm
    · exact runRowsAux_no_packageWrite cfg env env.csvRows.length env.csvRows
        initLoopState 1 (by simp [initLoopState]) hm
  · intro hz
    rw [hb]
    simp only [hz, if_neg, if_false]
    exact ⟨by trivial, by simp⟩

def envW4 : BuildEnv :=
  { speakerExists := true, csvExists := true,
    csvRows := [[(kHanzi, [])], []],
    audioExists := fun _ => false, renderFails := fun _ => none,
    timestampTag := "deck_20260101_000000".data }

theorem c4_no_cards_fatal_witness :
    envW4.csvRows ≠ []
    ∧ (runRows cfgW envW4).notes = []
    ∧ (buildAnkiDeck cfgW envW4).1
        = .error { message := noCardsMsg, rowErrors := (runRows cfgW envW4).rowErrors } :=
  ⟨by decide, by decide,
    ((c4_no_cards_fatal cfgW envW4 rfl rfl (by decide)).1 (by decide)).1⟩

/-- C8: for a row whose target audio file already exists while forced
regeneration is off, the pipeline does not invoke audio synthesis or
rendering for that row (no synthesis event for its index occurs in the
whole build) and, when the row's Hanzi is non-empty, the existing file
name is still listed among the build's media files. -/
theorem c8_existing_audio_reused (cfg : DeckBuildConfig) (env : BuildEnv)
    (idx : Nat) (row : Row)
    (hreg : cfg.regenerateAudioIfExists = false)
    (hmem : (idx, row) ∈ enumIdx 1 env.csvRows)
    (hex : env.audioExists (audioNameFor cfg row idx) = true) :
    (rowOutcome cfg env idx row).synthInvoked = false
    ∧ Event.synth idx ∉ (runRows cfg env).events
    ∧ (rowGet row (validateColumns cfg.columns kHanzi) [] ≠ [] →
        audioNameFor cfg row idx ∈ (runRows cfg env).media) := by
  have hsy : (rowOutcome cfg env idx row).synthInvoked = false := by
    simp only [rowOutcome]
    split
    · rfl
    · simp only [hreg, hex]
      norm_num
  refine ⟨hsy, ?_, ?_⟩
  · intro hm
    have hmf : Event.synth idx ∈ (runRows cfg env).events.filter isSynthEv :=
      List.mem_filter.mpr ⟨hm, rfl⟩
    rw [runRows, runRowsAux_synth_events cfg env env.csvRows.length env.csvRows initLoopState 1] at hmf
    simp only [initLoopState, List.filter_nil, List.nil_append, List.mem_flatMap] at hmf
    rcases hmf with ⟨p, hp, hpe⟩
    obtain ⟨i, r⟩ := p
    by_cases hs : (rowOutcome cfg env i r).synthInvoked
    · simp only [hs, if_pos, List.mem_singleton, Event.synth.injEq] at hpe
      subst hpe
      have hrow : r = row := enumIdx_mem_unique env.csvRows 1 idx r row hp hmem
      subst hrow
      rw [hsy] at hs
      exact Bool.noConfusion hs
    · simp only [hs, if_neg, if_false] at hpe
      simp at hpe
  · intro hz
    rw [runRows, runRowsAux_media cfg env env.csvRows.length env.csvRows initLoopState 1]
    simp only [initLoopState, List.nil_append, List.mem_flatMap]
    refine ⟨(idx, row), hmem, ?_⟩
    simp only [rowOutcome, hz, if_neg, if_false, hreg, hex]
    norm_num

def envW8 : BuildEnv :=
  { speakerExists := true, csvExists := true,
    csvRows := [[(kHanzi, "你好".data)]],
    audioExists := fun _ => true, renderFails := fun _ => none,
    timestampTag := "deck_20260101_000000".data }

theorem c8_existing_audio_reused_witness :
    cfgW.regenerateAudioIfExists = false
    ∧ (1, [(kHanzi, "你好".data)]) ∈ enumIdx 1 envW8.csvRows
    ∧ (rowOutcome cfgW envW8 1 [(kHanzi, "你好".data)]).synthInvoked = false :=
  ⟨rfl, by decide,
    (c8_existing_audio_reused cfgW envW8 1 [(kHanzi, "你好".data)] rfl (by decide) rfl).1⟩

/-- C9: when the configured reference-voice path does not exist,
builder.py `build_anki_deck` fails immediately with a fatal error naming
the missing path — before any row is read or processed: no progress event
is emitted, and the outcome does not depend on the CSV rows at all. -/
theorem c9_speaker_missing (cfg : DeckBuildConfig) (env : BuildEnv)
    (h : env.speakerExists = false) :
    buildAnkiDeck cfg env
      = (.error { message := speakerMissingMsg cfg, rowErrors := [] }, [])
    ∧ ∀ rows' : List Row,
        buildAnkiDeck cfg { env with csvRows := rows' }
          = (.error { message := speakerMissingMsg cfg, rowErrors := [] }, []) := by
  constructor
  · unfold buildAnkiDeck
    simp [h]
  · intro rows'
    unfold buildAnkiDeck
    simp [h]

def envW9 : BuildEnv :=
  { speakerExists := false, csvExists := true,
    csvRows := [[(kHanzi, "你好".data)]],
    audioExists := fun _ => false, renderFails := fun _ => none,
    timestampTag := "deck_20260101_000000".data }

theorem c9_speaker_missing_witness :
    envW9.speakerExists = false
    ∧ buildAnkiDeck cfgW envW9
        = (.error { message := speakerMissingMsg cfgW, rowErrors := [] }, []) :=
  ⟨rfl, (c9_speaker_missing cfgW envW9 rfl).1⟩

/-- C5 counterexample: the literal-break formatter is not idempotent.  On
the input `"<br> x"` (with the feature enabled) one application yields
`" x"` — removing the leading `<br>` exposes whitespace — and a second
application strips that whitespace, yielding `"x"`. -/
theorem c5_counterexample :
    literal_to_br (literal_to_br "<br> x".data true) true
      ≠ literal_to_br "<br> x".data true := by decide

/-- C5 (amended): the literal-break formatter is idempotent for every
input whose cleaned text does not already contain the literal marker
`<br>` (and always when the enabled flag is false).  A preexisting `<br>`
adjacent to whitespace can be stripped as a leading/trailing marker,
exposing whitespace that only a second application trims. -/
theorem c5_literal_to_br_idempotent (t : Text) (enable : Bool)
    (h : NoOcc brTxt (clean t)) :
    literal_to_br (literal_to_br t enable) enable = literal_to_br t enable := by
  cases enable with
  | false =>
    show clean (clean t) = clean t
    exact clean_clean t
  | true =>
    by_cases hs : clean t = []
    · rw [show literal_to_br t true = [] from by simp [literal_to_br, hs]]
      decide
    · have hL : literal_to_br t true
          = stripTrailingBr (stripLeadingBr (pyStrip (collapseBr (subSep (clean t))))) := by
        simp [literal_to_br, hs]
      rw [hL]
      set s1 := subSep (clean t) with hs1def
      set xc := collapseBr s1 with hxcdef
      set y := pyStrip xc with hydef
      set z := stripLeadingBr y with hzdef
      set r := stripTrailingBr z with hrdef
      have F1 : FollowOk s1 := subSep_followOk h
      have P1 : PrecedeOk s1 := subSep_precedeOk h
      obtain ⟨F2, N2, H2, P2i, M2⟩ := collapseBr_master s1 F1
      have P2 : PrecedeOk xc := P2i P1
      have F3 : FollowOk y := followOk_pyStrip F2
      have N3 : NoOcc (brTxt ++ brTxt) y := noOcc_pyStrip N2
      have P3 : PrecedeOk y := precedeOk_pyStrip P2
      have yhead : y = [] ∨ ∃ c u, y = c :: u ∧ pyIsSpace c = false := pyStrip_head xc
      have ylast : y = [] ∨ ∃ c, y.getLast? = some c ∧ pyIsSpace c = false := pyStrip_last xc
      have hzs : z <:+ y := stripLeadingBr_sfx y
      have F4 : FollowOk z := followOk_sfx hzs F3
      have N4 : NoOcc (brTxt ++ brTxt) z := noOcc_sfx hzs N3
      have P4 : PrecedeOk z := precedeOk_sfx hzs P3
      have znopfx : pfxB brTxt z = false := stripLeadingBr_nopfx y
      have zhead : z = [] ∨ ∃ c u, z = c :: u ∧ pyIsSpace c = false :=
        stripLeadingBr_head y F3 yhead
      have zlast : z = [] ∨ ∃ c, z.getLast? = some c ∧ pyIsSpace c = false := by
        by_cases hze : z = []
        · exact Or.inl hze
        · rcases ylast with hye | ⟨c, hc, hcs⟩
          · exfalso
            rw [hye] at hzs
            exact hze (List.suffix_nil.mp hzs)
          · exact Or.inr ⟨c, by rw [sfx_getLast hzs hze]; exact hc, hcs⟩
      have hrp : r <+: z := stripTrailingBr_pfx z
      have rnosfx : sfxB brTxt r = false := stripTrailingBr_nosfx z
      have rnopfx : pfxB brTxt r = false := by
        by_cases hq : pfxB brTxt r = true
        · rw [pfx_transfer hrp hq] at znopfx
          exact Bool.noConfusion znopfx
        · exact Bool.of_not_eq_true hq
      have rF : FollowOk r := followOk_pfx hrp F4
      have rN : NoOcc (brTxt ++ brTxt) r := noOcc_pfx hrp N4
      have rhead : r = [] ∨ ∃ c u, r = c :: u ∧ pyIsSpace c = false := by
        by_cases hre : r = []
        · exact Or.inl hre
        · rcases zhead with hze | ⟨c, u, hcu, hcs⟩
          · exfalso
            rw [hze] at hrp
            exact hre (List.prefix_nil.mp hrp)
          · right
            have hh : r.head? = z.head? := pfx_head hrp hre
            have hh2 : r.head? = some c := by rw [hh, hcu]; rfl
            obtain ⟨u', hu'⟩ := head?_some_shape hh2
            exact ⟨c, u', hu', hcs⟩
      have rlast : r = [] ∨ ∃ c, r.getLast? = some c ∧ pyIsSpace c = false :=
        stripTrailingBr_last z P4 zlast
      have rxc : ∀ x ∈ r, x ∈ xc := by
        intro x hx
        exact pyStrip_subset xc x (hzs.subset (hrp.subset hx))
      have hbrch : ∀ x : Char, x ∈ brTxt →
          isSepChar x = false ∧ x ≠ Char.ofNat 0xfeff ∧ x ≠ Char.ofNat 0x200b := by
        intro x hx
        simp only [brTxt, List.mem_cons, List.not_mem_nil, or_false] at hx
        rcases hx with rfl | rfl | rfl | rfl <;> exact ⟨by decide, by decide, by decide⟩
      have rsep : ∀ x ∈ r, isSepChar x = false := by
        intro x hx
        rcases M2 x (rxc x hx) with h1 | h1
        · exact subSep_no_sep (clean t) x h1
        · exact (hbrch x h1).1
      have rbom : ∀ x ∈ r, x ≠ Char.ofNat 0xfeff ∧ x ≠ Char.ofNat 0x200b := by
        intro x hx
        rcases M2 x (rxc x hx) with h1 | h1
        · rcases subSep_mem (clean t) x h1 with h2 | h2
          · exact clean_chars t x h2
          · exact (hbrch x h2).2
        · exact (hbrch x h1).2
      by_cases hre : r = []
      · rw [hre]
        decide
      · have hcr : clean r = r := by
          rw [show clean r
              = pyStrip (r.filter fun c => c ≠ Char.ofNat 0xfeff && c ≠ Char.ofNat 0x200b)
            from rfl]
          rw [List.filter_eq_self.mpr (by
            intro a ha
            have h2 := rbom a ha
            simp [h2.1, h2.2])]
          exact pyStrip_id r rhead rlast
        rw [show literal_to_br r true
            = stripTrailingBr (stripLeadingBr (pyStrip (collapseBr (subSep (clean r)))))
          from by simp [literal_to_br, hcr, hre]]
        rw [hcr, subSep_id r rsep, collapseBr_id r rF rN, pyStrip_id r rhead rlast,
          stripLeadingBr_id r rnopfx, stripTrailingBr_id r rnosfx]

theorem c5_literal_to_br_idempotent_witness :
    NoOcc brTxt (clean ("kata1, kata2; kata3".data))
    ∧ literal_to_br (literal_to_br ("kata1, kata2; kata3".data) true) true
        = literal_to_br ("kata1, kata2; kata3".data) true := by
  have hno : NoOcc brTxt (clean ("kata1, kata2; kata3".data)) :=
    noOcc_of_forall_lt (by decide) (by decide)
  exact ⟨hno, c5_literal_to_br_idempotent ("kata1, kata2; kata3".data) true hno⟩

/-! ### Scanning lemmas for the section renderer -/

theorem findAux_ge {pat : Text} :
    ∀ {s : Text} {i j : Nat}, findAux pat s i = some j → i ≤ j := by
  intro s
  induction s with
  | nil =>
    intro i j h
    simp only [findAux] at h
    split at h
    · injection h with h; omega
    · cases h
  | cons c t ih =>
    intro i j h
    rw [show findAux pat (c :: t) i
        = if pfxB pat (c :: t) then some i else findAux pat t (i + 1) from rfl] at h
    by_cases hp : pfxB pat (c :: t) = true
    · rw [if_pos hp] at h
      injection h with h
      omega
    · rw [if_neg hp] at h
      have := ih h
      omega

theorem findAux_occ {pat : Text} (hne : pat ≠ []) :
    ∀ {s : Text} {i j : Nat}, findAux pat s i = some j →
      pfxB pat (s.drop (j - i)) = true ∧ j - i + pat.length ≤ s.length := by
  intro s
  induction s with
  | nil =>
    intro i j h
    simp only [findAux] at h
    split at h
    · exact absurd (by assumption) hne
    · cases h
  | cons c t ih =>
    intro i j h
    rw [show findAux pat (c :: t) i
        = if pfxB pat (c :: t) then some i else findAux pat t (i + 1) from rfl] at h
    by_cases hp : pfxB pat (c :: t) = true
    · rw [if_pos hp] at h
      injection h with h
      subst h
      constructor
      · simpa [Nat.sub_self] using hp
      · have := pfxB_length hp
        simp only [Nat.sub_self, Nat.zero_add]
        exact this
    · rw [if_neg hp] at h
      obtain ⟨h1, h2⟩ := ih h
      have hij : i + 1 ≤ j := findAux_ge h
      constructor
      · rw [show j - i = (j - (i + 1)) + 1 from by omega]
        exact h1
      · simp only [List.length_cons]
        omega

theorem findFrom_ge {pat text : Text} {idx j : Nat}
    (h : findFrom pat text idx = some j) : idx ≤ j :=
  findAux_ge h

theorem findFrom_occ {pat text : Text} (hne : pat ≠ []) {idx j : Nat}
    (h : findFrom pat text idx = some j) :
    pfxB pat (text.drop j) = true ∧ j + pat.length ≤ text.length := by
  have hij : idx ≤ j := findAux_ge h
  obtain ⟨h1, h2⟩ := findAux_occ hne h
  have hp : 0 < pat.length := List.length_pos.mpr hne
  constructor
  · rw [List.drop_drop, show idx + (j - idx) = j from by omega] at h1
    exact h1
  · rw [List.length_drop] at h2
    omega

theorem minOpt_eq_some {a b : Option Nat} {o : Nat} (h : minOpt a b = some o) :
    a = some o ∨ b = some o := by
  cases a with
  | none => exact Or.inr h
  | some x =>
    cases b with
    | none => exact Or.inl h
    | some y =>
      simp only [minOpt, Option.some.injEq] at h
      rcases Nat.le_total x y with hxy | hxy
      · left
        rw [Nat.min_eq_left hxy] at h
        rw [h]
      · right
        rw [Nat.min_eq_right hxy] at h
        rw [h]

theorem openBefore_some {a : Option Nat} {nc : Nat} (h : openBefore a nc = true) :
    ∃ o, a = some o ∧ o < nc := by
  cases a with
  | none => cases h
  | some x => exact ⟨x, rfl, by simpa [openBefore] using h⟩

theorem slice_length_le (s : Text) (i j : Nat) : (slice s i j).length ≤ j - i := by
  simp only [slice, List.length_drop, List.length_take]
  omega

theorem closeTagOf_length (f : Text) : (closeTagOf f).length = f.length + 5 := by
  simp [closeTagOf]

theorem openHashOf_length (f : Text) : (openHashOf f).length = f.length + 5 := by
  simp [openHashOf]

theorem openCaretOf_length (f : Text) : (openCaretOf f).length = f.length + 5 := by
  simp [openCaretOf]

theorem closeTagOf_ne_nil (f : Text) : closeTagOf f ≠ [] := by
  simp [closeTagOf]

theorem extractLoop_succ (text ct oh oc : Text) (start fuel depth idx : Nat) :
    extractLoop text ct oh oc start (fuel + 1) depth idx =
      match findFrom ct text idx with
      | none => some none
      | some nextClose =>
        if openBefore (minOpt (findFrom oh text idx) (findFrom oc text idx)) nextClose then
          extractLoop text ct oh oc start fuel (depth + 1)
            (if findFrom oh text idx
                = minOpt (findFrom oh text idx) (findFrom oc text idx)
             then (minOpt (findFrom oh text idx) (findFrom oc text idx)).getD 0 + oh.length
             else (minOpt (findFrom oh text idx) (findFrom oc text idx)).getD 0 + oc.length)
        else
          if depth = 1 then
            some (some (nextClose + ct.length, slice text start nextClose))
          else
            extractLoop text ct oh oc start fuel (depth - 1) (nextClose + ct.length) := rfl

/-- Every successful `_extract_section` loop run ends at the far edge of a
close marker lying inside the text and at or beyond the scan position, and
returns the slice from `start` to that close marker. -/
theorem extractLoop_post (text ct oh oc : Text) (hct : ct ≠ []) (start : Nat) :
    ∀ fuel depth idx e inner, start ≤ idx →
      extractLoop text ct oh oc start fuel depth idx = some (some (e, inner)) →
      ∃ nc, idx ≤ nc ∧ nc + ct.length ≤ text.length ∧ e = nc + ct.length
        ∧ inner = slice text start nc := by
  intro fuel
  induction fuel with
  | zero =>
    intro depth idx e inner _ h
    cases h
  | succ fuel ih =>
    intro depth idx e inner hsi h
    rw [extractLoop_succ] at h
    split at h
    · cases h
    next nc hfc =>
      split at h
      next ho =>
        obtain ⟨o, hmin, holt⟩ := openBefore_some ho
        rw [hmin] at h
        simp only [Option.getD_some] at h
        have hio : idx ≤ o := by
          rcases minOpt_eq_some hmin with hh | hh
          · exact findFrom_ge hh
          · exact findFrom_ge hh
        have hidx2 : idx ≤ (if findFrom oh text idx = some o
            then o + oh.length else o + oc.length) := by
          split
          · omega
          · omega
        obtain ⟨nc', h1, h2, h3, h4⟩ := ih _ _ _ _ (by omega) h
        exact ⟨nc', by omega, h2, h3, h4⟩
      next ho =>
        split at h
        next hd =>
          injection h with h
          injection h with h
          obtain ⟨he, hi⟩ := Prod.mk.injEq .. ▸ h
          obtain ⟨hocc1, hocc2⟩ := findFrom_occ hct hfc
          exact ⟨nc, findFrom_ge hfc, hocc2, he.symm, hi.symm⟩
        next hd =>
          have hin : idx ≤ nc + ct.length := by
            have := findFrom_ge hfc
            omega
          obtain ⟨nc', h1, h2, h3, h4⟩ := ih _ _ _ _ (by omega) h
          exact ⟨nc', by omega, h2, h3, h4⟩

/-- `_extract_section` success: the returned end index is past a close
marker inside the text and at least `start + |close_tag|`, and the inner
text is the slice up to that close marker.  Special case of
`extractLoop_post`. -/
theorem extract_section_spec {text f : Text} {start e : Nat} {inner : Text}
    (h : extract_section text f start = some (e, inner)) :
    ∃ nc, start ≤ nc ∧ nc + (f.length + 5) ≤ text.length ∧ e = nc + (f.length + 5)
      ∧ inner = slice text start nc := by
  rw [extract_section] at h
  cases hx : extractLoop text (closeTagOf f) (openHashOf f) (openCaretOf f) start
      (text.length + 1) 1 start with
  | none =>
    rw [hx] at h
    cases h
  | some v =>
    cases v with
    | none =>
      rw [hx] at h
      cases h
    | some p =>
      rw [hx] at h
      simp only [Option.getD_some] at h
      rw [h] at hx
      obtain ⟨nc, h1, h2, h3, h4⟩ :=
        extractLoop_post text (closeTagOf f) (openHashOf f) (openCaretOf f)
          (closeTagOf_ne_nil f) start _ _ _ _ _ (Nat.le_refl start) hx
      rw [closeTagOf_length] at h2 h3
      exact ⟨nc, h1, h2, h3, h4⟩

theorem sectionMatchAt_spec {s : Text} {ty : Char} {run : Text} {mlen : Nat}
    (h : sectionMatchAt? s = some (ty, run, mlen)) :
    mlen = run.length + 5 ∧ run ≠ [] ∧ mlen ≤ s.length := by
  match s with
  | [] => cases h
  | [c1] => cases h
  | [c1, c2] => cases h
  | c1 :: c2 :: ty' :: rest =>
    simp only [sectionMatchAt?] at h
    split at h
    · split at h
      next hg =>
        obtain ⟨hrun, hpf⟩ := hg
        simp only [Option.some.injEq, Prod.mk.injEq] at h
        obtain ⟨rfl, rfl, rfl⟩ := h
        have hle : (rest.takeWhile isTagChar).length ≤ rest.length :=
          (rest.takeWhile_prefix isTagChar).length_le
        have h2 := pfxB_length hpf
        rw [List.length_drop] at h2
        refine ⟨rfl, hrun, ?_⟩
        simp only [List.length_cons] at h2 ⊢
        omega
      · cases h
    · cases h

theorem sectionSearchAux_spec :
    ∀ {s : Text} {i ms : Nat} {ty : Char} {raw : Text} {me : Nat},
      sectionSearchAux s i = some (ms, ty, raw, me) →
      i ≤ ms ∧ me = ms + (raw.length + 5) ∧ raw ≠ []
        ∧ ms - i + (raw.length + 5) ≤ s.length := by
  intro s
  induction s with
  | nil =>
    intro i ms ty raw me h
    cases h
  | cons c t ih =>
    intro i ms ty raw me h
    rw [show sectionSearchAux (c :: t) i
        = (match sectionMatchAt? (c :: t) with
           | some (ty, run, mlen) => some (i, ty, run, i + mlen)
           | none => sectionSearchAux t (i + 1)) from rfl] at h
    split at h
    next ty' run mlen hm =>
      simp only [Option.some.injEq, Prod.mk.injEq] at h
      obtain ⟨rfl, rfl, rfl, rfl⟩ := h
      obtain ⟨hlenEq, hne, hle⟩ := sectionMatchAt_spec hm
      refine ⟨Nat.le_refl _, by omega, hne, ?_⟩
      simp only [Nat.sub_self]
      omega
    next hm =>
      obtain ⟨h1, h2, h3, h4⟩ := ih h
      refine ⟨by omega, h2, h3, ?_⟩
      simp only [List.length_cons]
      omega

theorem renderLoop_succ (fields : Fields) (fuel : Nat) (text : Text) :
    renderLoop fields (fuel + 1) text =
      match sectionSearchAux text 0 with
      | none => some text
      | some (mstart, ty, raw, mend) =>
        match extract_section text (pyStrip raw) mend with
        | none => some text
        | some (e, inner) =>
          renderLoop fields fuel (text.take mstart ++
            (if (if ty = '#'
                 then !(pyStrip (getField fields (pyStrip raw))).isEmpty
                 else !(!(pyStrip (getField fields (pyStrip raw))).isEmpty))
             then inner else []) ++ text.drop e) := rfl

/-- One productive iteration of `_render_sections` strictly shortens the
text: the spliced replacement is bounded by the extracted inner slice,
which is shorter than the removed opener-plus-section extent. -/
theorem renderStep_shorter {text : Text} {ms : Nat} {ty : Char} {raw : Text} {me : Nat}
    {e : Nat} {inner repl : Text}
    (hs : sectionSearchAux text 0 = some (ms, ty, raw, me))
    (hx : extract_section text (pyStrip raw) me = some (e, inner))
    (hrepl : repl.length ≤ inner.length) :
    (text.take ms ++ repl ++ text.drop e).length < text.length := by
  obtain ⟨_, hme, hraw, hfit⟩ := sectionSearchAux_spec hs
  obtain ⟨nc, hnc1, hnc2, hnc3, hnc4⟩ := extract_section_spec hx
  have hinner : inner.length ≤ nc - me := by
    rw [hnc4]
    exact slice_length_le text me nc
  have hrawpos : 0 < raw.length := List.length_pos.mpr hraw
  simp only [List.length_append, List.length_take, List.length_drop]
  omega

/-- Fuel exceeding the template length always suffices for the
`_render_sections` loop. -/
theorem renderLoop_isSome (fields : Fields) :
    ∀ fuel text, text.length < fuel → (renderLoop fields fuel text).isSome = true := by
  intro fuel
  induction fuel with
  | zero =>
    intro text h
    omega
  | succ fuel ih =>
    intro text hlen
    rw [renderLoop_succ]
    split
    · rfl
    next ms ty raw me hs =>
      split
      · rfl
      next e inner hx =>
        apply ih
        have hlt := renderStep_shorter hs hx
          (show (if (if ty = '#'
              then !(pyStrip (getField fields (pyStrip raw))).isEmpty
              else !(!(pyStrip (getField fields (pyStrip raw))).isEmpty))
            then inner else []).length ≤ inner.length from by split <;> split <;> simp)
        omega

/-- The `_render_sections` loop result is fuel-independent once reached. -/
theorem renderLoop_mono (fields : Fields) :
    ∀ fuel text r, renderLoop fields fuel text = some r →
      ∀ d, renderLoop fields (fuel + d) text = some r := by
  intro fuel
  induction fuel with
  | zero =>
    intro text r h
    cases h
  | succ fuel ih =>
    intro text r h d
    rw [renderLoop_succ] at h
    rw [show fuel + 1 + d = (fuel + d) + 1 from by omega, renderLoop_succ]
    split at h
    next hs =>
      exact h
    next ms ty raw me hs =>
      split at h
      next hx =>
        exact h
      next e inner hx =>
        exact ih _ _ h d

/-- C10: the conditional-section resolution pass terminates on every
template string and every field mapping: any fuel exceeding the template
length makes the `_render_sections` loop finish (`isSome`) with the
`render_sections` result, because each productive iteration strictly
shortens the text (`renderStep_shorter`) and the loop otherwise stops on a
missing section match or an unterminated section. -/
theorem c10_render_sections_terminates (template : Text) (fields : Fields) (fuel : Nat)
    (hf : template.length < fuel) :
    (renderLoop fields fuel template).isSome = true
    ∧ renderLoop fields fuel template = some (render_sections template fields) := by
  have h1 := renderLoop_isSome fields (template.length + 1) template (by omega)
  obtain ⟨r, hr⟩ := Option.isSome_iff_exists.mp h1
  have hm := renderLoop_mono fields (template.length + 1) template r hr
    (fuel - (template.length + 1))
  rw [show template.length + 1 + (fuel - (template.length + 1)) = fuel from by omega] at hm
  refine ⟨by simp [hm], ?_⟩
  rw [hm]
  simp [render_sections, hr]

theorem c10_render_sections_terminates_witness :
    ("a\x7b\x7b#X\x7d\x7db\x7b\x7b/X\x7d\x7dc".data).length < 99
    ∧ ((renderLoop [] 99 ("a\x7b\x7b#X\x7d\x7db\x7b\x7b/X\x7d\x7dc".data)).isSome = true
       ∧ renderLoop [] 99 ("a\x7b\x7b#X\x7d\x7db\x7b\x7b/X\x7d\x7dc".data)
           = some (render_sections ("a\x7b\x7b#X\x7d\x7db\x7b\x7b/X\x7d\x7dc".data) [])) :=
  ⟨by decide, c10_render_sections_terminates _ [] 99 (by decide)⟩
/-! ### C6: the field-placeholder round trip -/

theorem pfxB_cons_same (a : Char) (p s : Text) : pfxB (a :: p) (a :: s) = pfxB p s := by
  simp [pfxB]

theorem pfxB_cons_ne {a b : Char} (h : a ≠ b) (p s : Text) :
    pfxB (a :: p) (b :: s) = false := by
  simp [pfxB, h]

/-- No occurrence of `pat` starts inside `x` when `x` is followed by `y`. -/
def NoPfxIn (pat x y : Text) : Prop :=
  ∀ j, j < x.length → pfxB pat (x.drop j ++ y) = false

theorem noPfxIn_nil (pat y : Text) : NoPfxIn pat [] y := by
  intro j hj
  simp at hj

theorem noPfxIn_append {pat x y z : Text} (hx : NoPfxIn pat x (y ++ z))
    (hy : NoPfxIn pat y z) : NoPfxIn pat (x ++ y) z := by
  intro j hj
  by_cases hc : j < x.length
  · rw [drop_lt_app x y j (by omega), List.append_assoc]
    exact hx j hc
  · rw [show j = x.length + (j - x.length) from by omega, drop_app]
    have hj2 : j - x.length < y.length := by
      simp only [List.length_append] at hj
      omega
    exact hy (j - x.length) hj2

theorem drop_cons_mem {x : Text} {j : Nat} (h : j < x.length) :
    ∃ a r, x.drop j = a :: r ∧ a ∈ x := by
  cases hd : x.drop j with
  | nil =>
    have := List.drop_eq_nil_iff_le.mp hd
    omega
  | cons a r =>
    refine ⟨a, r, rfl, ?_⟩
    have ha : a ∈ x.drop j := by
      rw [hd]
      exact List.mem_cons_self a r
    exact List.drop_subset j x ha

theorem noPfxIn_head_ne {c : Char} {p x y : Text} (hx : ∀ a ∈ x, a ≠ c) :
    NoPfxIn (c :: p) x y := by
  intro j hj
  obtain ⟨a, r, hd, ha⟩ := drop_cons_mem hj
  rw [hd, show (a :: r) ++ y = a :: (r ++ y) from rfl]
  exact pfxB_cons_ne (Ne.symm (hx a ha)) _ _

theorem findAux_append_skip {pat x y : Text} (h : NoPfxIn pat x y) :
    ∀ i, findAux pat (x ++ y) i = findAux pat y (i + x.length) := by
  induction x with
  | nil => intro i; simp
  | cons c t ih =>
    intro i
    have h0 : pfxB pat (c :: (t ++ y)) = false := by
      have := h 0 (by simp)
      simpa using this
    rw [show (c :: t) ++ y = c :: (t ++ y) from rfl,
      show findAux pat (c :: (t ++ y)) i
        = if pfxB pat (c :: (t ++ y)) then some i else findAux pat (t ++ y) (i + 1) from rfl,
      if_neg (by simp [h0]),
      ih (fun j hj => by
        have := h (j + 1) (by simp; omega)
        simpa using this) (i + 1),
      show i + 1 + t.length = i + (c :: t).length from by rw [List.length_cons]; omega]

theorem findAux_none_of {pat s : Text} (hne : pat ≠ []) (h : NoPfxIn pat s []) :
    ∀ i, findAux pat s i = none := by
  induction s with
  | nil => intro i; simp [findAux, hne]
  | cons c t ih =>
    intro i
    have h0 : pfxB pat (c :: t) = false := by
      have := h 0 (by simp)
      simpa using this
    rw [show findAux pat (c :: t) i
        = if pfxB pat (c :: t) then some i else findAux pat t (i + 1) from rfl,
      if_neg (by simp [h0])]
    exact ih (fun j hj => by
      have := h (j + 1) (by simp; omega)
      simpa using this) (i + 1)

/-- A template built from literal runs and unprefixed `FIELD_RE`
placeholders. -/
inductive Piece where
  | lit (s : Text)
  | ph (n : Text)

/-- The template text of a piece list: a placeholder named `n` reads as
the five-character-plus-name tag `lbrace lbrace n rbrace rbrace`. -/
def assemble : List Piece → Text
  | [] => []
  | .lit s :: ps => s ++ assemble ps
  | .ph n :: ps => (lbrace :: lbrace :: (n ++ [rbrace, rbrace])) ++ assemble ps

/-- The verbatim substitution the round-trip property promises: each
placeholder replaced by the mapping's value (empty for a missing field),
literals untouched. -/
def expectedRender (fields : Fields) : List Piece → Text
  | [] => []
  | .lit s :: ps => s ++ expectedRender fields ps
  | .ph n :: ps => getField fields n ++ expectedRender fields ps

/-- Well-formedness of a template piece: literals carry no template
braces; a placeholder name is a non-empty already-stripped plain field
name — no braces, no filter colon, no leading section marker, and not the
special `FrontSide` name. -/
def PieceOk : Piece → Prop
  | .lit s => ∀ c ∈ s, c ≠ lbrace ∧ c ≠ rbrace
  | .ph n => n ≠ [] ∧ pyStrip n = n
      ∧ (∀ c ∈ n, c ≠ lbrace ∧ c ≠ rbrace ∧ c ≠ ':')
      ∧ n.head? ≠ some '#' ∧ n.head? ≠ some '^' ∧ n ≠ "FrontSide".data

theorem sectionMatchAt_none_head {c : Char} (hc : c ≠ lbrace) (s : Text) :
    sectionMatchAt? (c :: s) = none := by
  match s with
  | [] => rfl
  | [c2] => rfl
  | c2 :: ty :: rest => simp [sectionMatchAt?, hc]

theorem sectionMatchAt_none_snd {c1 c2 : Char} (hc : c2 ≠ lbrace) (s : Text) :
    sectionMatchAt? (c1 :: c2 :: s) = none := by
  match s with
  | [] => rfl
  | ty :: rest => simp [sectionMatchAt?, hc]

theorem sectionMatchAt_none_ty {c1 c2 ty : Char} (h1 : ty ≠ '#') (h2 : ty ≠ '^')
    (rest : Text) : sectionMatchAt? (c1 :: c2 :: ty :: rest) = none := by
  simp [sectionMatchAt?, h1, h2]

theorem sectionSearchAux_cons_none {c : Char} {t : Text} {i : Nat}
    (h : sectionMatchAt? (c :: t) = none) :
    sectionSearchAux (c :: t) i = sectionSearchAux t (i + 1) := by
  rw [show sectionSearchAux (c :: t) i
      = (match sectionMatchAt? (c :: t) with
         | some (ty, run, mlen) => some (i, ty, run, i + mlen)
         | none => sectionSearchAux t (i + 1)) from rfl, h]

theorem sectionSearchAux_append_nolb {x : Text} (hx : ∀ a ∈ x, a ≠ lbrace) :
    ∀ (y : Text) (i : Nat),
      sectionSearchAux (x ++ y) i = sectionSearchAux y (i + x.length) := by
  induction x with
  | nil => intro y i; simp
  | cons c t ih =>
    intro y i
    rw [show (c :: t) ++ y = c :: (t ++ y) from rfl,
      sectionSearchAux_cons_none (sectionMatchAt_none_head (hx c (by simp)) _),
      ih (fun a ha => hx a (by simp [ha])) y (i + 1),
      show i + 1 + t.length = i + (c :: t).length from by rw [List.length_cons]; omega]

theorem sectionSearchAux_ph_skip {n : Text} (hn : n ≠ [])
    (hbf : ∀ c ∈ n, c ≠ lbrace)
    (hh : n.head? ≠ some '#') (hc : n.head? ≠ some '^') :
    ∀ (y : Text) (i : Nat),
      sectionSearchAux ((lbrace :: lbrace :: (n ++ [rbrace, rbrace])) ++ y) i
        = sectionSearchAux y (i + (n.length + 4)) := by
  intro y i
  obtain ⟨n0, n', rfl⟩ : ∃ n0 n', n = n0 :: n' := by
    cases n with
    | nil => exact absurd rfl hn
    | cons a b => exact ⟨a, b, rfl⟩
  have h0 : n0 ≠ '#' := by simpa using hh
  have h1 : n0 ≠ '^' := by simpa using hc
  rw [show (lbrace :: lbrace :: ((n0 :: n') ++ [rbrace, rbrace])) ++ y
      = lbrace :: lbrace :: n0 :: (n' ++ [rbrace, rbrace] ++ y) from by simp,
    sectionSearchAux_cons_none (sectionMatchAt_none_ty h0 h1 _),
    sectionSearchAux_cons_none (sectionMatchAt_none_snd (hbf n0 (by simp)) _),
    show n0 :: (n' ++ [rbrace, rbrace] ++ y) = ((n0 :: n') ++ [rbrace, rbrace]) ++ y
      from by simp,
    sectionSearchAux_append_nolb (by
      intro a ha
      rcases List.mem_append.mp ha with ha | ha
      · exact hbf a ha
      · simp only [List.mem_cons, List.not_mem_nil, or_false] at ha
        rcases ha with rfl | rfl <;> decide) y (i + 1 + 1),
    show i + 1 + 1 + ((n0 :: n') ++ [rbrace, rbrace]).length
      = i + ((n0 :: n').length + 4) from by
        simp [List.length_append]
        omega]

theorem sectionSearchAux_assemble :
    ∀ ps : List Piece, (∀ pc ∈ ps, PieceOk pc) →
      ∀ i, sectionSearchAux (assemble ps) i = none := by
  intro ps
  induction ps with
  | nil => intro _ i; rfl
  | cons pc ps ih =>
    intro hok i
    have hps : ∀ x ∈ ps, PieceOk x := fun x hx => hok x (by simp [hx])
    cases pc with
    | lit s =>
      have hlit : ∀ c ∈ s, c ≠ lbrace ∧ c ≠ rbrace := hok (Piece.lit s) (by simp)
      rw [show assemble (Piece.lit s :: ps) = s ++ assemble ps from rfl,
        sectionSearchAux_append_nolb (fun a ha => (hlit a ha).1) (assemble ps) i]
      exact ih hps _
    | ph n =>
      obtain ⟨hn, hstrip, hchars, hh, hc, hfs⟩ :
          n ≠ [] ∧ pyStrip n = n
            ∧ (∀ c ∈ n, c ≠ lbrace ∧ c ≠ rbrace ∧ c ≠ ':')
            ∧ n.head? ≠ some '#' ∧ n.head? ≠ some '^' ∧ n ≠ "FrontSide".data :=
        hok (Piece.ph n) (by simp)
      rw [show assemble (Piece.ph n :: ps)
          = (lbrace :: lbrace :: (n ++ [rbrace, rbrace])) ++ assemble ps from rfl,
        sectionSearchAux_ph_skip hn (fun c hcm => (hchars c hcm).1) hh hc (assemble ps) i]
      exact ih hps _

theorem render_sections_no_match {tmpl : Text} (fields : Fields)
    (h : sectionSearchAux tmpl 0 = none) : render_sections tmpl fields = tmpl := by
  rw [show render_sections tmpl fields
      = (renderLoop fields (tmpl.length + 1) tmpl).getD tmpl from rfl,
    renderLoop_succ, h]
  rfl

theorem bf_tag_match {y : Text} :
    ∀ (q n : Text), (∀ c ∈ q, c ≠ rbrace) → (∀ c ∈ n, c ≠ rbrace) →
      pfxB (q ++ [rbrace, rbrace]) (n ++ [rbrace, rbrace] ++ y) = true → q = n := by
  intro q
  induction q with
  | nil =>
    intro n hq hn h
    cases n with
    | nil => rfl
    | cons c n' =>
      rw [show (c :: n') ++ [rbrace, rbrace] ++ y
          = c :: (n' ++ [rbrace, rbrace] ++ y) from by simp,
        show ([] : Text) ++ [rbrace, rbrace] = [rbrace, rbrace] from rfl,
        pfxB_cons_ne (fun he => hn c (by simp) he.symm) _ _] at h
      cases h
  | cons a q' ih =>
    intro n hq hn h
    cases n with
    | nil =>
      rw [show ([] : Text) ++ [rbrace, rbrace] ++ y = rbrace :: rbrace :: y from by simp,
        show (a :: q') ++ [rbrace, rbrace] = a :: (q' ++ [rbrace, rbrace]) from rfl,
        pfxB_cons_ne (hq a (by simp)) _ _] at h
      cases h
    | cons c n' =>
      rw [show (a :: q') ++ [rbrace, rbrace] = a :: (q' ++ [rbrace, rbrace]) from rfl,
        show (c :: n') ++ [rbrace, rbrace] ++ y
          = c :: (n' ++ [rbrace, rbrace] ++ y) from by simp] at h
      by_cases hac : a = c
      · subst hac
        rw [pfxB_cons_same] at h
        rw [ih n' (fun x hx => hq x (by simp [hx])) (fun x hx => hn x (by simp [hx])) h]
      · rw [pfxB_cons_ne hac _ _] at h
        cases h

theorem noPfxIn_fsTag_ph {n y : Text} (hn : n ≠ [])
    (hbf : ∀ c ∈ n, c ≠ lbrace ∧ c ≠ rbrace) (hfs : n ≠ "FrontSide".data) :
    NoPfxIn fsTag (lbrace :: lbrace :: (n ++ [rbrace, rbrace])) y := by
  have hX : NoPfxIn fsTag (n ++ [rbrace, rbrace]) y := by
    rw [show fsTag = lbrace :: (lbrace :: ("FrontSide".data ++ [rbrace, rbrace])) from rfl]
    apply noPfxIn_head_ne
    intro a ha
    simp only [List.mem_append, List.mem_cons, List.not_mem_nil, or_false] at ha
    rcases ha with ha | ha
    · exact (hbf a ha).1
    · rcases ha with rfl | rfl <;> decide
  intro j hj
  match j with
  | 0 =>
    rw [List.drop_zero,
      show (lbrace :: lbrace :: (n ++ [rbrace, rbrace])) ++ y
        = lbrace :: lbrace :: (n ++ [rbrace, rbrace] ++ y) from by simp,
      show fsTag = lbrace :: lbrace :: ("FrontSide".data ++ [rbrace, rbrace]) from rfl,
      pfxB_cons_same, pfxB_cons_same]
    by_cases hp : pfxB ("FrontSide".data ++ [rbrace, rbrace])
        (n ++ [rbrace, rbrace] ++ y) = true
    · exact absurd (bf_tag_match ("FrontSide".data) n (by decide)
        (fun c hcm => (hbf c hcm).2) hp).symm hfs
    · simpa using hp
  | 1 =>
    obtain ⟨n0, n', rfl⟩ : ∃ n0 n', n = n0 :: n' := by
      cases n with
      | nil => exact absurd rfl hn
      | cons a b => exact ⟨a, b, rfl⟩
    rw [show ((lbrace :: lbrace :: ((n0 :: n') ++ [rbrace, rbrace])).drop 1) ++ y
        = lbrace :: n0 :: (n' ++ [rbrace, rbrace] ++ y) from by simp,
      show fsTag = lbrace :: lbrace :: ("FrontSide".data ++ [rbrace, rbrace]) from rfl,
      pfxB_cons_same]
    exact pfxB_cons_ne (fun he => (hbf n0 (by simp)).1 he.symm) _ _
  | (j' + 2) =>
    have hj' : j' < (n ++ [rbrace, rbrace]).length := by
      simp only [List.length_cons, List.length_append] at hj ⊢
      omega
    rw [show (lbrace :: lbrace :: (n ++ [rbrace, rbrace])).drop (j' + 2)
        = (n ++ [rbrace, rbrace]).drop j' from rfl]
    exact hX j' hj'

theorem noPfxIn_fsTag_assemble :
    ∀ ps : List Piece, (∀ pc ∈ ps, PieceOk pc) → NoPfxIn fsTag (assemble ps) [] := by
  intro ps
  induction ps with
  | nil => intro _; exact noPfxIn_nil _ _
  | cons pc ps ih =>
    intro hok
    have hps := ih (fun x hx => hok x (by simp [hx]))
    cases pc with
    | lit s =>
      have hlit : ∀ c ∈ s, c ≠ lbrace ∧ c ≠ rbrace := hok (Piece.lit s) (by simp)
      rw [show assemble (Piece.lit s :: ps) = s ++ assemble ps from rfl]
      apply noPfxIn_append _ hps
      rw [List.append_nil,
        show fsTag = lbrace :: (lbrace :: ("FrontSide".data ++ [rbrace, rbrace])) from rfl]
      exact noPfxIn_head_ne (fun a ha => (hlit a ha).1)
    | ph n =>
      obtain ⟨hn, hstrip, hchars, hh, hc, hfs⟩ :
          n ≠ [] ∧ pyStrip n = n
            ∧ (∀ c ∈ n, c ≠ lbrace ∧ c ≠ rbrace ∧ c ≠ ':')
            ∧ n.head? ≠ some '#' ∧ n.head? ≠ some '^' ∧ n ≠ "FrontSide".data :=
        hok (Piece.ph n) (by simp)
      rw [show assemble (Piece.ph n :: ps)
          = (lbrace :: lbrace :: (n ++ [rbrace, rbrace])) ++ assemble ps from rfl]
      apply noPfxIn_append _ hps
      rw [List.append_nil]
      exact noPfxIn_fsTag_ph hn (fun c hcm => ⟨(hchars c hcm).1, (hchars c hcm).2.1⟩) hfs

theorem fieldMatchAt_none_head {c : Char} (hc : c ≠ lbrace) (t : Text) :
    fieldMatchAt? (c :: t) = none := by
  match t with
  | [] => rfl
  | c2 :: rest => simp [fieldMatchAt?, hc]

theorem fieldMatchAt_spec {s run : Text} {mlen : Nat}
    (h : fieldMatchAt? s = some (run, mlen)) :
    mlen = run.length + 4 ∧ run ≠ [] ∧ mlen ≤ s.length := by
  match s with
  | [] => cases h
  | [c1] => cases h
  | c1 :: c2 :: rest =>
    simp only [fieldMatchAt?] at h
    split at h
    · split at h
      next hg =>
        obtain ⟨hrun, hpf⟩ := hg
        simp only [Option.some.injEq, Prod.mk.injEq] at h
        obtain ⟨rfl, rfl⟩ := h
        have hle := (rest.takeWhile_prefix isTagChar).length_le
        have h2 := pfxB_length hpf
        rw [List.length_drop] at h2
        refine ⟨rfl, hrun, ?_⟩
        simp only [List.length_cons, List.length_nil] at h2 ⊢
        omega
      · cases h
    · cases h

theorem fieldSubF_cons_none {fields : Fields} {c : Char} {t : Text} {fuel : Nat}
    (h : fieldMatchAt? (c :: t) = none) :
    fieldSubF fields (fuel + 1) (c :: t) = c :: fieldSubF fields fuel t := by
  rw [show fieldSubF fields (fuel + 1) (c :: t)
      = (match fieldMatchAt? (c :: t) with
         | some (run, mlen) =>
           replace_field fields run ++ fieldSubF fields fuel ((c :: t).drop mlen)
         | none => c :: fieldSubF fields fuel t) from rfl, h]

theorem fieldSubF_cons_match {fields : Fields} {c : Char} {t run : Text}
    {mlen fuel : Nat} (h : fieldMatchAt? (c :: t) = some (run, mlen)) :
    fieldSubF fields (fuel + 1) (c :: t)
      = replace_field fields run ++ fieldSubF fields fuel ((c :: t).drop mlen) := by
  rw [show fieldSubF fields (fuel + 1) (c :: t)
      = (match fieldMatchAt? (c :: t) with
         | some (run, mlen) =>
           replace_field fields run ++ fieldSubF fields fuel ((c :: t).drop mlen)
         | none => c :: fieldSubF fields fuel t) from rfl, h]

theorem fieldSubF_fuel (fields : Fields) :
    ∀ fuel fuel' s, s.length ≤ fuel → s.length ≤ fuel' →
      fieldSubF fields fuel s = fieldSubF fields fuel' s := by
  intro fuel
  induction fuel with
  | zero =>
    intro fuel' s h h'
    have hs : s = [] := List.eq_nil_of_length_eq_zero (by omega)
    subst hs
    cases fuel' with
    | zero => rfl
    | succ f => rfl
  | succ fuel ih =>
    intro fuel' s h h'
    cases s with
    | nil =>
      cases fuel' with
      | zero => rfl
      | succ f => rfl
    | cons c t =>
      cases fuel' with
      | zero =>
        simp only [List.length_cons] at h'
        omega
      | succ f =>
        cases hm : fieldMatchAt? (c :: t) with
        | none =>
          rw [fieldSubF_cons_none hm, fieldSubF_cons_none hm,
            ih f t (by simp only [List.length_cons] at h; omega)
              (by simp only [List.length_cons] at h'; omega)]
        | some p =>
          obtain ⟨run, mlen⟩ := p
          obtain ⟨hml, hrun, hle⟩ := fieldMatchAt_spec hm
          rw [fieldSubF_cons_match hm, fieldSubF_cons_match hm]
          congr 1
          apply ih
          · simp only [List.length_drop, List.length_cons] at *
            omega
          · simp only [List.length_drop, List.length_cons] at *
            omega

theorem fieldSubF_copy (fields : Fields) :
    ∀ (x y : Text) (fuel : Nat), (∀ a ∈ x, a ≠ lbrace) →
      x.length + y.length ≤ fuel →
      fieldSubF fields fuel (x ++ y) = x ++ fieldSubF fields (fuel - x.length) y := by
  intro x
  induction x with
  | nil => intro y fuel _ _; simp
  | cons c t ih =>
    intro y fuel hx hlen
    cases fuel with
    | zero =>
      simp only [List.length_cons] at hlen
      omega
    | succ fuel =>
      rw [show (c :: t) ++ y = c :: (t ++ y) from rfl,
        fieldSubF_cons_none (fieldMatchAt_none_head (hx c (by simp)) _),
        ih y fuel (fun a ha => hx a (by simp [ha]))
          (by simp only [List.length_cons] at hlen; omega),
        show fuel + 1 - (c :: t).length = fuel - t.length from by
          simp [List.length_cons]]
      rfl

theorem replace_field_plain (fields : Fields) (n : Text) (hn : n ≠ [])
    (hstrip : pyStrip n = n) (hcol : ':' ∉ n)
    (hfs : n ≠ "FrontSide".data) :
    replace_field fields n = getField fields n := by
  simp only [replace_field, hstrip]
  rw [if_neg hn, if_neg (by simp [hcol]), if_neg hfs]

theorem takeWhile_tagchars {n : Text} (h : ∀ c ∈ n, isTagChar c = true) :
    ∀ X : Text, (n ++ (rbrace :: X)).takeWhile isTagChar = n := by
  induction n with
  | nil =>
    intro X
    simp [List.takeWhile_cons, isTagChar]
  | cons a t ih =>
    intro X
    rw [show (a :: t) ++ (rbrace :: X) = a :: (t ++ (rbrace :: X)) from rfl,
      List.takeWhile_cons, if_pos (h a (by simp)), ih (fun c hcm => h c (by simp [hcm])) X]

theorem fieldMatchAt_ph {n y : Text} (hn : n ≠ [])
    (htag : ∀ c ∈ n, isTagChar c = true) :
    fieldMatchAt? (lbrace :: lbrace :: (n ++ ([rbrace, rbrace] ++ y)))
      = some (n, n.length + 4) := by
  have hrun : (n ++ (rbrace :: rbrace :: y)).takeWhile isTagChar = n :=
    takeWhile_tagchars htag (rbrace :: y)
  have hdrop : (n ++ (rbrace :: rbrace :: y)).drop n.length = rbrace :: rbrace :: y :=
    drop_app0 n _
  rw [show lbrace :: lbrace :: (n ++ ([rbrace, rbrace] ++ y))
      = lbrace :: lbrace :: (n ++ (rbrace :: rbrace :: y)) from by simp,
    show fieldMatchAt? (lbrace :: lbrace :: (n ++ (rbrace :: rbrace :: y)))
      = (if lbrace = lbrace ∧ lbrace = lbrace then
          (if ((n ++ (rbrace :: rbrace :: y)).takeWhile isTagChar) ≠ []
              ∧ pfxB [rbrace, rbrace] ((n ++ (rbrace :: rbrace :: y)).drop
                  ((n ++ (rbrace :: rbrace :: y)).takeWhile isTagChar).length) = true
           then some ((n ++ (rbrace :: rbrace :: y)).takeWhile isTagChar,
             ((n ++ (rbrace :: rbrace :: y)).takeWhile isTagChar).length + 4)
           else none)
         else none) from rfl,
    hrun, hdrop, if_pos ⟨rfl, rfl⟩, if_pos ⟨hn, by simp [pfxB]⟩]

theorem fieldSubF_ph_step (fields : Fields) {n : Text} (y : Text) (fuel : Nat)
    (hn : n ≠ []) (hstrip : pyStrip n = n)
    (htag : ∀ c ∈ n, isTagChar c = true) (hcol : ':' ∉ n)
    (hfs : n ≠ "FrontSide".data) :
    fieldSubF fields (fuel + 1) ((lbrace :: lbrace :: (n ++ [rbrace, rbrace])) ++ y)
      = getField fields n ++ fieldSubF fields fuel y := by
  rw [show (lbrace :: lbrace :: (n ++ [rbrace, rbrace])) ++ y
      = lbrace :: lbrace :: (n ++ ([rbrace, rbrace] ++ y)) from by simp,
    fieldSubF_cons_match (fieldMatchAt_ph hn htag),
    replace_field_plain fields n hn hstrip hcol hfs]
  congr 1
  rw [show lbrace :: lbrace :: (n ++ ([rbrace, rbrace] ++ y))
      = (lbrace :: lbrace :: (n ++ [rbrace, rbrace])) ++ y from by simp,
    show n.length + 4 = (lbrace :: lbrace :: (n ++ [rbrace, rbrace])).length from by
      simp only [List.length_cons, List.length_append, List.length_nil],
    drop_app0]

theorem fieldSub_assemble (fields : Fields) :
    ∀ ps : List Piece, (∀ pc ∈ ps, PieceOk pc) →
      fieldSub fields (assemble ps) = expectedRender fields ps := by
  intro ps
  induction ps with
  | nil => intro _; rfl
  | cons pc ps ih =>
    intro hok
    have hps : ∀ x ∈ ps, PieceOk x := fun x hx => hok x (by simp [hx])
    cases pc with
    | lit s =>
      have hlit : ∀ c ∈ s, c ≠ lbrace ∧ c ≠ rbrace := hok (Piece.lit s) (by simp)
      rw [show assemble (Piece.lit s :: ps) = s ++ assemble ps from rfl,
        show expectedRender fields (Piece.lit s :: ps)
          = s ++ expectedRender fields ps from rfl,
        show fieldSub fields (s ++ assemble ps)
          = fieldSubF fields (s ++ assemble ps).length (s ++ assemble ps) from rfl,
        fieldSubF_copy fields s (assemble ps) _ (fun a ha => (hlit a ha).1)
          (by simp [List.length_append])]
      congr 1
      rw [show (s ++ assemble ps).length - s.length = (assemble ps).length from by
        simp [List.length_append]]
      exact ih hps
    | ph n =>
      obtain ⟨hn, hstrip, hchars, hh, hc, hfs⟩ :
          n ≠ [] ∧ pyStrip n = n
            ∧ (∀ c ∈ n, c ≠ lbrace ∧ c ≠ rbrace ∧ c ≠ ':')
            ∧ n.head? ≠ some '#' ∧ n.head? ≠ some '^' ∧ n ≠ "FrontSide".data :=
        hok (Piece.ph n) (by simp)
      have htag : ∀ c ∈ n, isTagChar c = true := by
        intro c hcm
        obtain ⟨h1, h2, _⟩ := hchars c hcm
        simp [isTagChar, h1, h2]
      have hcol : ':' ∉ n := fun hm => (hchars ':' hm).2.2 rfl
      rw [show assemble (Piece.ph n :: ps)
          = (lbrace :: lbrace :: (n ++ [rbrace, rbrace])) ++ assemble ps from rfl,
        show expectedRender fields (Piece.ph n :: ps)
          = getField fields n ++ expectedRender fields ps from rfl,
        show fieldSub fields ((lbrace :: lbrace :: (n ++ [rbrace, rbrace])) ++ assemble ps)
          = fieldSubF fields ((lbrace :: lbrace :: (n ++ [rbrace, rbrace])) ++ assemble ps).length
            ((lbrace :: lbrace :: (n ++ [rbrace, rbrace])) ++ assemble ps) from rfl]
      rw [show ((lbrace :: lbrace :: (n ++ [rbrace, rbrace])) ++ assemble ps).length
          = (n.length + 3 + (assemble ps).length) + 1 from by
            simp only [List.length_cons, List.length_append, List.length_nil]
            omega,
        fieldSubF_ph_step fields (assemble ps) _ hn hstrip htag hcol hfs]
      congr 1
      rw [fieldSubF_fuel fields (n.length + 3 + (assemble ps).length)
        (assemble ps).length (assemble ps) (by omega) (Nat.le_refl _)]
      exact ih hps

/-- No sound reference occurs anywhere in the text. -/
def NoSound (s : Text) : Prop := ∀ j, soundMatchAt? (s.drop j) = none

theorem noSound_of_forall_lt {s : Text}
    (h : ∀ j, j < s.length → soundMatchAt? (s.drop j) = none) : NoSound s := by
  intro j
  by_cases hj : j < s.length
  · exact h j hj
  · rw [List.drop_eq_nil_of_le (by omega)]
    rfl

theorem soundSubF_cons_none {media : Media} {c : Char} {t : Text} {fuel : Nat}
    (h : soundMatchAt? (c :: t) = none) :
    soundSubF media (fuel + 1) (c :: t) = c :: soundSubF media fuel t := by
  rw [show soundSubF media (fuel + 1) (c :: t)
      = (match soundMatchAt? (c :: t) with
         | some (filename, mlen) =>
           (match media.lookup filename with
            | none => missingMediaSpan filename
            | some [] => missingMediaSpan filename
            | some (b :: bs) => audioElem (guessMime filename) (b :: bs))
             ++ soundSubF media fuel ((c :: t).drop mlen)
         | none => c :: soundSubF media fuel t) from rfl, h]

theorem soundSubF_nosound (media : Media) :
    ∀ fuel s, NoSound s → soundSubF media fuel s = s := by
  intro fuel
  induction fuel with
  | zero => intro s _; rfl
  | succ fuel ih =>
    intro s h
    cases s with
    | nil => rfl
    | cons c t =>
      have h0 : soundMatchAt? (c :: t) = none := by
        have := h 0
        rwa [List.drop_zero] at this
      rw [soundSubF_cons_none h0,
        ih t (fun j => by
          have := h (j + 1)
          rwa [List.drop_succ_cons] at this)]

/-- C6 counterexample: with no media map, a field value containing a
sound reference is not reproduced verbatim — `_replace_sound_refs`
rewrites it to a missing-media span after the placeholder substitution. -/
theorem c6_counterexample :
    render_template (assemble [Piece.ph ("A".data)])
        [("A".data, "[sound:x.mp3]".data)] [] none
      ≠ expectedRender [("A".data, "[sound:x.mp3]".data)] [Piece.ph ("A".data)] := by
  decide

/-- C6 (amended): for templates made of brace-free literals and
unprefixed, well-formed field placeholders, and for any field mapping
whose substituted output contains no sound reference, `render_template`
with an empty media map reproduces the mapping's values verbatim in place
of the placeholders (a missing field yielding the empty string). -/
theorem c6_render_roundtrip (ps : List Piece) (fields : Fields)
    (hok : ∀ pc ∈ ps, PieceOk pc)
    (hns : NoSound (expectedRender fields ps)) :
    render_template (assemble ps) fields [] none = expectedRender fields ps := by
  have h1 : render_sections (assemble ps) fields = assemble ps :=
    render_sections_no_match fields (sectionSearchAux_assemble ps hok 0)
  have h2 : findAux fsTag (assemble ps) 0 = none :=
    findAux_none_of (by simp [fsTag]) (noPfxIn_fsTag_assemble ps hok) 0
  have h3 : fieldSub fields (assemble ps) = expectedRender fields ps :=
    fieldSub_assemble fields ps hok
  rw [show render_template (assemble ps) fields [] none
      = soundSub [] (fieldSub fields
          (if (findAux fsTag (render_sections (assemble ps) fields) 0).isSome
           then replaceAll fsTag ((none : Option Text).getD [])
             (render_sections (assemble ps) fields)
           else render_sections (assemble ps) fields)) from rfl,
    h1, h2]
  rw [if_neg (by simp), h3,
    show soundSub [] (expectedRender fields ps)
      = soundSubF [] (expectedRender fields ps).length (expectedRender fields ps)
      from rfl]
  exact soundSubF_nosound [] _ _ hns

theorem c6_render_roundtrip_witness :
    (∀ pc ∈ [Piece.lit ("Q: ".data), Piece.ph ("A".data)], PieceOk pc)
    ∧ NoSound (expectedRender [("A".data, "ni hao".data)]
        [Piece.lit ("Q: ".data), Piece.ph ("A".data)])
    ∧ render_template
        (assemble [Piece.lit ("Q: ".data), Piece.ph ("A".data)])
        [("A".data, "ni hao".data)] [] none
      = expectedRender [("A".data, "ni hao".data)]
          [Piece.lit ("Q: ".data), Piece.ph ("A".data)] := by
  have hok : ∀ pc ∈ [Piece.lit ("Q: ".data), Piece.ph ("A".data)], PieceOk pc := by
    intro pc hpc
    simp only [List.mem_cons, List.not_mem_nil, or_false] at hpc
    rcases hpc with rfl | rfl
    · exact (show ∀ c ∈ ("Q: ".data), c ≠ lbrace ∧ c ≠ rbrace from by decide)
    · exact (show ("A".data ≠ [] ∧ pyStrip ("A".data) = "A".data
        ∧ (∀ c ∈ ("A".data), c ≠ lbrace ∧ c ≠ rbrace ∧ c ≠ ':')
        ∧ ("A".data).head? ≠ some '#' ∧ ("A".data).head? ≠ some '^'
        ∧ "A".data ≠ "FrontSide".data) from by decide)
  have hns : NoSound (expectedRender [("A".data, "ni hao".data)]
      [Piece.lit ("Q: ".data), Piece.ph ("A".data)]) :=
    noSound_of_forall_lt (by decide)
  exact ⟨hok, hns, c6_render_roundtrip _ _ hok hns⟩
/-! ### C1: nested sections over the same field -/

theorem pfxB_self_append (x u : Text) : pfxB x (x ++ u) = true :=
  pfxB_iff_exists.mpr ⟨u, rfl⟩

theorem findAux_here {pat s : Text} (h : pfxB pat s = true) (i : Nat) :
    findAux pat s i = some i := by
  cases s with
  | nil =>
    have hp : pat = [] := pfxB_nil_iff.mp h
    simp [findAux, hp]
  | cons c t =>
    rw [show findAux pat (c :: t) i
        = if pfxB pat (c :: t) then some i else findAux pat t (i + 1) from rfl,
      if_pos h]

theorem noPfxIn_chain {pat x y : Text} (hx : NoPfxIn pat x y) (hy : NoPfxIn pat y []) :
    NoPfxIn pat (x ++ y) [] := by
  apply noPfxIn_append _ hy
  rwa [List.append_nil]

/-- A section tag for marker `mk` holds no occurrence of a tag with a
different marker `mk2`. -/
theorem noPfxIn_tag_tag {mk mk2 : Char} {f f2 y : Text}
    (hmk : mk ≠ lbrace) (hne : mk2 ≠ mk) (hbf : ∀ c ∈ f, c ≠ lbrace) :
    NoPfxIn (lbrace :: lbrace :: mk2 :: (f2 ++ [rbrace, rbrace]))
      (lbrace :: lbrace :: mk :: (f ++ [rbrace, rbrace])) y := by
  have hX : NoPfxIn (lbrace :: lbrace :: mk2 :: (f2 ++ [rbrace, rbrace]))
      (mk :: (f ++ [rbrace, rbrace])) y := by
    apply noPfxIn_head_ne
    intro a ha
    simp only [List.mem_cons, List.mem_append, List.not_mem_nil, or_false] at ha
    rcases ha with rfl | ha | ha
    · exact hmk
    · exact hbf a ha
    · rcases ha with rfl | rfl <;> decide
  intro j hj
  match j with
  | 0 =>
    rw [List.drop_zero,
      show (lbrace :: lbrace :: mk :: (f ++ [rbrace, rbrace])) ++ y
        = lbrace :: lbrace :: mk :: ((f ++ [rbrace, rbrace]) ++ y) from by simp,
      pfxB_cons_same, pfxB_cons_same]
    exact pfxB_cons_ne hne _ _
  | 1 =>
    rw [show ((lbrace :: lbrace :: mk :: (f ++ [rbrace, rbrace])).drop 1) ++ y
        = lbrace :: (mk :: ((f ++ [rbrace, rbrace]) ++ y)) from by simp,
      pfxB_cons_same]
    exact pfxB_cons_ne (fun he => hmk he.symm) _ _
  | (j' + 2) =>
    have hj' : j' < (mk :: (f ++ [rbrace, rbrace])).length := by
      simp only [List.length_cons, List.length_append] at hj ⊢
      omega
    rw [show (lbrace :: lbrace :: mk :: (f ++ [rbrace, rbrace])).drop (j' + 2)
        = (mk :: (f ++ [rbrace, rbrace])).drop j' from rfl]
    exact hX j' hj'

theorem sectionMatchAt_oh {f rest : Text} (hf : f ≠ [])
    (htag : ∀ c ∈ f, isTagChar c = true) :
    sectionMatchAt? (lbrace :: lbrace :: '#' :: (f ++ ([rbrace, rbrace] ++ rest)))
      = some ('#', f, f.length + 5) := by
  have hrun : (f ++ (rbrace :: rbrace :: rest)).takeWhile isTagChar = f :=
    takeWhile_tagchars htag (rbrace :: rest)
  have hdrop : (f ++ (rbrace :: rbrace :: rest)).drop f.length = rbrace :: rbrace :: rest :=
    drop_app0 f _
  rw [show lbrace :: lbrace :: '#' :: (f ++ ([rbrace, rbrace] ++ rest))
      = lbrace :: lbrace :: '#' :: (f ++ (rbrace :: rbrace :: rest)) from by simp,
    show sectionMatchAt? (lbrace :: lbrace :: '#' :: (f ++ (rbrace :: rbrace :: rest)))
      = (if lbrace = lbrace ∧ lbrace = lbrace ∧ ('#' = '#' ∨ '#' = '^') then
          (if ((f ++ (rbrace :: rbrace :: rest)).takeWhile isTagChar) ≠ []
              ∧ pfxB [rbrace, rbrace] ((f ++ (rbrace :: rbrace :: rest)).drop
                  ((f ++ (rbrace :: rbrace :: rest)).takeWhile isTagChar).length) = true
           then some ('#', (f ++ (rbrace :: rbrace :: rest)).takeWhile isTagChar,
             ((f ++ (rbrace :: rbrace :: rest)).takeWhile isTagChar).length + 5)
           else none)
         else none) from rfl,
    hrun, hdrop, if_pos ⟨rfl, rfl, Or.inl rfl⟩, if_pos ⟨hf, by simp [pfxB]⟩]

theorem sectionSearchAux_cons_match {c : Char} {t : Text} {i : Nat} {ty : Char}
    {run : Text} {mlen : Nat} (h : sectionMatchAt? (c :: t) = some (ty, run, mlen)) :
    sectionSearchAux (c :: t) i = some (i, ty, run, i + mlen) := by
  rw [show sectionSearchAux (c :: t) i
      = (match sectionMatchAt? (c :: t) with
         | some (ty, run, mlen) => some (i, ty, run, i + mlen)
         | none => sectionSearchAux t (i + 1)) from rfl, h]

theorem sectionSearchAux_nolb_none {x : Text} (hx : ∀ a ∈ x, a ≠ lbrace) (i : Nat) :
    sectionSearchAux x i = none := by
  rw [show x = x ++ [] from (List.append_nil x).symm,
    sectionSearchAux_append_nolb hx [] i]
  rfl

theorem extractLoop_step (text ct oh oc : Text) (start fuel depth idx : Nat)
    {nc : Nat} (hc : findFrom ct text idx = some nc) :
    extractLoop text ct oh oc start (fuel + 1) depth idx
      = if openBefore (minOpt (findFrom oh text idx) (findFrom oc text idx)) nc then
          extractLoop text ct oh oc start fuel (depth + 1)
            (if findFrom oh text idx
                = minOpt (findFrom oh text idx) (findFrom oc text idx)
             then (minOpt (findFrom oh text idx) (findFrom oc text idx)).getD 0 + oh.length
             else (minOpt (findFrom oh text idx) (findFrom oc text idx)).getD 0 + oc.length)
        else
          if depth = 1 then
            some (some (nc + ct.length, slice text start nc))
          else
            extractLoop text ct oh oc start fuel (depth - 1) (nc + ct.length) := by
  rw [extractLoop_succ, hc]

theorem extractLoop_mono (text ct oh oc : Text) (start : Nat) :
    ∀ fuel depth idx r, extractLoop text ct oh oc start fuel depth idx = some r →
      ∀ d, extractLoop text ct oh oc start (fuel + d) depth idx = some r := by
  intro fuel
  induction fuel with
  | zero =>
    intro depth idx r h
    cases h
  | succ fuel ih =>
    intro depth idx r h d
    rw [show fuel + 1 + d = (fuel + d) + 1 from by omega]
    cases hc : findFrom ct text idx with
    | none =>
      rw [show extractLoop text ct oh oc start (fuel + 1) depth idx = some none from by
        rw [extractLoop_succ, hc]] at h
      rw [show extractLoop text ct oh oc start ((fuel + d) + 1) depth idx = some none from by
        rw [extractLoop_succ, hc]]
      exact h
    | some nc =>
      rw [extractLoop_step text ct oh oc start fuel depth idx hc] at h
      rw [extractLoop_step text ct oh oc start (fuel + d) depth idx hc]
      by_cases ho : openBefore (minOpt (findFrom oh text idx) (findFrom oc text idx)) nc
        = true
      · rw [if_pos ho] at h ⊢
        exact ih _ _ _ h d
      · rw [if_neg ho] at h ⊢
        by_cases hd1 : depth = 1
        · rw [if_pos hd1] at h ⊢
          exact h
        · rw [if_neg hd1] at h ⊢
          exact ih _ _ _ h d

theorem renderLoop_stop {fields : Fields} {text : Text} {fuel : Nat}
    (hs : sectionSearchAux text 0 = none) :
    renderLoop fields (fuel + 1) text = some text := by
  rw [renderLoop_succ, hs]

theorem renderLoop_step (fields : Fields) {text : Text} {ms : Nat} {ty : Char}
    {raw : Text} {me e : Nat} {inner : Text} (fuel : Nat)
    (hs : sectionSearchAux text 0 = some (ms, ty, raw, me))
    (hx : extract_section text (pyStrip raw) me = some (e, inner)) :
    renderLoop fields (fuel + 1) text
      = renderLoop fields fuel (text.take ms ++
          (if (if ty = '#'
               then !(pyStrip (getField fields (pyStrip raw))).isEmpty
               else !(!(pyStrip (getField fields (pyStrip raw))).isEmpty))
           then inner else []) ++ text.drop e) := by
  rw [show renderLoop fields (fuel + 1) text
      = (match extract_section text (pyStrip raw) me with
         | none => some text
         | some (e2, inner2) =>
           renderLoop fields fuel (text.take ms ++
             (if (if ty = '#'
                  then !(pyStrip (getField fields (pyStrip raw))).isEmpty
                  else !(!(pyStrip (getField fields (pyStrip raw))).isEmpty))
              then inner2 else []) ++ text.drop e2))
      from by rw [renderLoop_succ, hs], hx]

/-- `_extract_section` on a template whose conditional section for `f`
contains a nested section for the same `f`: the inner close marker does
not close the outer section — extraction runs to the second close marker
and returns everything between the outer opener and that outer close. -/
theorem extract_nested (f a m b p : Text)
    (hbf : ∀ c ∈ f, c ≠ lbrace)
    (hba : ∀ c ∈ a, c ≠ lbrace) (hbm : ∀ c ∈ m, c ≠ lbrace)
    (hbb : ∀ c ∈ b, c ≠ lbrace) (hbp : ∀ c ∈ p, c ≠ lbrace) :
    extract_section
        (openHashOf f ++ (a ++ (openHashOf f ++ (m ++ (closeTagOf f
          ++ (b ++ (closeTagOf f ++ p))))))) f (f.length + 5)
      = some (f.length + 5 + a.length + (openHashOf f).length + m.length
            + (closeTagOf f).length + b.length + (closeTagOf f).length,
          a ++ (openHashOf f ++ (m ++ (closeTagOf f ++ b)))) := by
  set oh := openHashOf f with hoh
  set oc := openCaretOf f with hoc
  set cl := closeTagOf f with hcl
  set T := oh ++ (a ++ (oh ++ (m ++ (cl ++ (b ++ (cl ++ p)))))) with hT
  have hohlen : oh.length = f.length + 5 := openHashOf_length f
  have hoclen : oc.length = f.length + 5 := openCaretOf_length f
  have hcllen : cl.length = f.length + 5 := closeTagOf_length f
  have hohshape : oh = lbrace :: lbrace :: '#' :: (f ++ [rbrace, rbrace]) := rfl
  have hocshape : oc = lbrace :: lbrace :: '^' :: (f ++ [rbrace, rbrace]) := rfl
  have hclshape : cl = lbrace :: lbrace :: '/' :: (f ++ [rbrace, rbrace]) := rfl
  have hreg : ∀ P : Text, P = cl ∨ P = oh ∨ P = oc →
      ∀ x : Text, (∀ c ∈ x, c ≠ lbrace) → ∀ y, NoPfxIn P x y := by
    intro P hP x hx y
    rcases hP with rfl | rfl | rfl
    · rw [hclshape]
      exact noPfxIn_head_ne hx
    · rw [hohshape]
      exact noPfxIn_head_ne hx
    · rw [hocshape]
      exact noPfxIn_head_ne hx
  have htag1 : ∀ y, NoPfxIn cl oh y := by
    intro y
    rw [hclshape, hohshape]
    exact noPfxIn_tag_tag (by decide) (by decide) hbf
  have htag2 : ∀ y, NoPfxIn oc oh y := by
    intro y
    rw [hocshape, hohshape]
    exact noPfxIn_tag_tag (by decide) (by decide) hbf
  have htag3 : ∀ y, NoPfxIn oc cl y := by
    intro y
    rw [hocshape, hclshape]
    exact noPfxIn_tag_tag (by decide) (by decide) hbf
  have htag4 : ∀ y, NoPfxIn oh cl y := by
    intro y
    rw [hohshape, hclshape]
    exact noPfxIn_tag_tag (by decide) (by decide) hbf
  have hocne : oc ≠ [] := by rw [hocshape]; simp
  have hohne : oh ≠ [] := by rw [hohshape]; simp
  have hd1 : T.drop (f.length + 5) = a ++ (oh ++ (m ++ (cl ++ (b ++ (cl ++ p))))) := by
    rw [hT, show f.length + 5 = oh.length from hohlen.symm, drop_app0]
  have hd2 : T.drop (f.length + 5 + a.length + oh.length)
      = m ++ (cl ++ (b ++ (cl ++ p))) := by
    rw [hT, show oh ++ (a ++ (oh ++ (m ++ (cl ++ (b ++ (cl ++ p))))))
        = ((oh ++ a) ++ oh) ++ (m ++ (cl ++ (b ++ (cl ++ p)))) from by simp,
      show f.length + 5 + a.length + oh.length = ((oh ++ a) ++ oh).length from by
        simp only [List.length_append, hohlen],
      drop_app0]
  have hd3 : T.drop (f.length + 5 + a.length + oh.length + m.length + cl.length)
      = b ++ (cl ++ p) := by
    rw [hT, show oh ++ (a ++ (oh ++ (m ++ (cl ++ (b ++ (cl ++ p))))))
        = ((((oh ++ a) ++ oh) ++ m) ++ cl) ++ (b ++ (cl ++ p)) from by simp,
      show f.length + 5 + a.length + oh.length + m.length + cl.length
          = ((((oh ++ a) ++ oh) ++ m) ++ cl).length from by
        simp only [List.length_append, hohlen, hcllen],
      drop_app0]
  have find1cl : findFrom cl T (f.length + 5)
      = some (f.length + 5 + a.length + oh.length + m.length) := by
    rw [show findFrom cl T (f.length + 5)
        = findAux cl (T.drop (f.length + 5)) (f.length + 5) from rfl, hd1,
      findAux_append_skip (hreg cl (Or.inl rfl) a hba _),
      findAux_append_skip (htag1 _),
      findAux_append_skip (hreg cl (Or.inl rfl) m hbm _),
      findAux_here (pfxB_self_append cl _) _]
  have find1oh : findFrom oh T (f.length + 5) = some (f.length + 5 + a.length) := by
    rw [show findFrom oh T (f.length + 5)
        = findAux oh (T.drop (f.length + 5)) (f.length + 5) from rfl, hd1,
      findAux_append_skip (hreg oh (Or.inr (Or.inl rfl)) a hba _),
      findAux_here (pfxB_self_append oh _) _]
  have find1oc : findFrom oc T (f.length + 5) = none := by
    rw [show findFrom oc T (f.length + 5)
        = findAux oc (T.drop (f.length + 5)) (f.length + 5) from rfl, hd1]
    exact findAux_none_of hocne
      (noPfxIn_chain (hreg oc (Or.inr (Or.inr rfl)) a hba _)
        (noPfxIn_chain (htag2 _)
          (noPfxIn_chain (hreg oc (Or.inr (Or.inr rfl)) m hbm _)
            (noPfxIn_chain (htag3 _)
              (noPfxIn_chain (hreg oc (Or.inr (Or.inr rfl)) b hbb _)
                (noPfxIn_chain (htag3 _)
                  (hreg oc (Or.inr (Or.inr rfl)) p hbp []))))))) _
  have find2cl : findFrom cl T (f.length + 5 + a.length + oh.length)
      = some (f.length + 5 + a.length + oh.length + m.length) := by
    rw [show findFrom cl T (f.length + 5 + a.length + oh.length)
        = findAux cl (T.drop (f.length + 5 + a.length + oh.length))
            (f.length + 5 + a.length + oh.length) from rfl, hd2,
      findAux_append_skip (hreg cl (Or.inl rfl) m hbm _),
      findAux_here (pfxB_self_append cl _) _]
  have find2oh : findFrom oh T (f.length + 5 + a.length + oh.length) = none := by
    rw [show findFrom oh T (f.length + 5 + a.length + oh.length)
        = findAux oh (T.drop (f.length + 5 + a.length + oh.length))
            (f.length + 5 + a.length + oh.length) from rfl, hd2]
    exact findAux_none_of hohne
      (noPfxIn_chain (hreg oh (Or.inr (Or.inl rfl)) m hbm _)
        (noPfxIn_chain (htag4 _)
          (noPfxIn_chain (hreg oh (Or.inr (Or.inl rfl)) b hbb _)
            (noPfxIn_chain (htag4 _)
              (hreg oh (Or.inr (Or.inl rfl)) p hbp []))))) _
  have find2oc : findFrom oc T (f.length + 5 + a.length + oh.length) = none := by
    rw [show findFrom oc T (f.length + 5 + a.length + oh.length)
        = findAux oc (T.drop (f.length + 5 + a.length + oh.length))
            (f.length + 5 + a.length + oh.length) from rfl, hd2]
    exact findAux_none_of hocne
      (noPfxIn_chain (hreg oc (Or.inr (Or.inr rfl)) m hbm _)
        (noPfxIn_chain (htag3 _)
          (noPfxIn_chain (hreg oc (Or.inr (Or.inr rfl)) b hbb _)
            (noPfxIn_chain (htag3 _)
              (hreg oc (Or.inr (Or.inr rfl)) p hbp []))))) _
  have find3cl : findFrom cl T (f.length + 5 + a.length + oh.length + m.length + cl.length)
      = some (f.length + 5 + a.length + oh.length + m.length + cl.length + b.length) := by
    rw [show findFrom cl T (f.length + 5 + a.length + oh.length + m.length + cl.length)
        = findAux cl (T.drop (f.length + 5 + a.length + oh.length + m.length + cl.length))
            (f.length + 5 + a.length + oh.length + m.length + cl.length) from rfl, hd3,
      findAux_append_skip (hreg cl (Or.inl rfl) b hbb _),
      findAux_here (pfxB_self_append cl _) _]
  have find3oh : findFrom oh T (f.length + 5 + a.length + oh.length + m.length + cl.length)
      = none := by
    rw [show findFrom oh T (f.length + 5 + a.length + oh.length + m.length + cl.length)
        = findAux oh (T.drop (f.length + 5 + a.length + oh.length + m.length + cl.length))
            (f.length + 5 + a.length + oh.length + m.length + cl.length) from rfl, hd3]
    exact findAux_none_of hohne
      (noPfxIn_chain (hreg oh (Or.inr (Or.inl rfl)) b hbb _)
        (noPfxIn_chain (htag4 _)
          (hreg oh (Or.inr (Or.inl rfl)) p hbp []))) _
  have find3oc : findFrom oc T (f.length + 5 + a.length + oh.length + m.length + cl.length)
      = none := by
    rw [show findFrom oc T (f.length + 5 + a.length + oh.length + m.length + cl.length)
        = findAux oc (T.drop (f.length + 5 + a.length + oh.length + m.length + cl.length))
            (f.length + 5 + a.length + oh.length + m.length + cl.length) from rfl, hd3]
    exact findAux_none_of hocne
      (noPfxIn_chain (hreg oc (Or.inr (Or.inr rfl)) b hbb _)
        (noPfxIn_chain (htag3 _)
          (hreg oc (Or.inr (Or.inr rfl)) p hbp []))) _
  have hrun : extractLoop T cl oh oc (f.length + 5) 3 1 (f.length + 5)
      = some (some (f.length + 5 + a.length + oh.length + m.length + cl.length
            + b.length + cl.length,
          slice T (f.length + 5)
            (f.length + 5 + a.length + oh.length + m.length + cl.length + b.length))) := by
    rw [extractLoop_step T cl oh oc (f.length + 5) 2 1 (f.length + 5) find1cl,
      find1oh, find1oc,
      show minOpt (some (f.length + 5 + a.length)) none
        = some (f.length + 5 + a.length) from rfl,
      if_pos (show openBefore (some (f.length + 5 + a.length))
          (f.length + 5 + a.length + oh.length + m.length) = true from by
        simp only [openBefore, decide_eq_true_eq]
        have : 0 < oh.length := by omega
        omega),
      if_pos rfl, Option.getD_some,
      extractLoop_step T cl oh oc (f.length + 5) 1 (1 + 1)
        (f.length + 5 + a.length + oh.length) find2cl,
      find2oh, find2oc,
      show minOpt (none : Option Nat) none = none from rfl,
      if_neg (show ¬ openBefore (none : Option Nat)
          (f.length + 5 + a.length + oh.length + m.length) = true from by
        simp [openBefore]),
      if_neg (show ¬ (1 + 1 = 1) from by omega),
      extractLoop_step T cl oh oc (f.length + 5) 0 (1 + 1 - 1)
        (f.length + 5 + a.length + oh.length + m.length + cl.length) find3cl,
      find3oh, find3oc,
      show minOpt (none : Option Nat) none = none from rfl,
      if_neg (show ¬ openBefore (none : Option Nat)
          (f.length + 5 + a.length + oh.length + m.length + cl.length + b.length)
          = true from by
        simp [openBefore]),
      if_pos (show 1 + 1 - 1 = 1 from by omega)]
  have hTlen : 5 ≤ T.length := by
    rw [hT]
    simp only [List.length_append, hohlen]
    omega
  have hslice : slice T (f.length + 5)
      (f.length + 5 + a.length + oh.length + m.length + cl.length + b.length)
      = a ++ (oh ++ (m ++ (cl ++ b))) := by
    rw [show slice T (f.length + 5)
          (f.length + 5 + a.length + oh.length + m.length + cl.length + b.length)
        = (T.take (f.length + 5 + a.length + oh.length + m.length + cl.length
            + b.length)).drop (f.length + 5) from rfl,
      hT, show oh ++ (a ++ (oh ++ (m ++ (cl ++ (b ++ (cl ++ p))))))
        = (oh ++ (a ++ (oh ++ (m ++ (cl ++ b))))) ++ (cl ++ p) from by simp,
      show f.length + 5 + a.length + oh.length + m.length + cl.length + b.length
          = (oh ++ (a ++ (oh ++ (m ++ (cl ++ b))))).length from by
        simp only [List.length_append, hohlen, hcllen]
        omega,
      List.take_left, show f.length + 5 = oh.length from hohlen.symm, drop_app0]
  rw [show extract_section T f (f.length + 5)
      = (extractLoop T cl oh oc (f.length + 5) (T.length + 1) 1 (f.length + 5)).getD none
      from rfl,
    show T.length + 1 = 3 + (T.length + 1 - 3) from by omega,
    extractLoop_mono T cl oh oc (f.length + 5) 3 1 (f.length + 5) _ hrun
      (T.length + 1 - 3),
    Option.getD_some, hslice]

/-- `_render_sections` on the nested template: the sections resolve from
the innermost outward — a truthy field keeps both section bodies, a falsy
field deletes the whole outer extent. -/
theorem render_nested (f a m b p : Text) (fields : Fields) (hf : f ≠ [])
    (hfs : pyStrip f = f)
    (hbf : ∀ c ∈ f, c ≠ lbrace ∧ c ≠ rbrace)
    (hba : ∀ c ∈ a, c ≠ lbrace) (hbm : ∀ c ∈ m, c ≠ lbrace)
    (hbb : ∀ c ∈ b, c ≠ lbrace) (hbp : ∀ c ∈ p, c ≠ lbrace) :
    render_sections
        (openHashOf f ++ (a ++ (openHashOf f ++ (m ++ (closeTagOf f
          ++ (b ++ (closeTagOf f ++ p))))))) fields
      = if (pyStrip (getField fields f)).isEmpty = false
        then a ++ (m ++ (b ++ p)) else p := by
  set oh := openHashOf f with hoh
  set oc := openCaretOf f with hoc
  set cl := closeTagOf f with hcl
  set T := oh ++ (a ++ (oh ++ (m ++ (cl ++ (b ++ (cl ++ p)))))) with hT
  have hohlen : oh.length = f.length + 5 := openHashOf_length f
  have hcllen : cl.length = f.length + 5 := closeTagOf_length f
  have hohshape : oh = lbrace :: lbrace :: '#' :: (f ++ [rbrace, rbrace]) := rfl
  have hocshape : oc = lbrace :: lbrace :: '^' :: (f ++ [rbrace, rbrace]) := rfl
  have hclshape : cl = lbrace :: lbrace :: '/' :: (f ++ [rbrace, rbrace]) := rfl
  have htagf : ∀ c ∈ f, isTagChar c = true := by
    intro c hcm
    obtain ⟨h1, h2⟩ := hbf c hcm
    simp [isTagChar, h1, h2]
  have hohne : oh ≠ [] := by rw [hohshape]; simp
  have hocne : oc ≠ [] := by rw [hocshape]; simp
  have hreg : ∀ P : Text, P = cl ∨ P = oh ∨ P = oc →
      ∀ x : Text, (∀ c ∈ x, c ≠ lbrace) → ∀ y, NoPfxIn P x y := by
    intro P hP x hx y
    rcases hP with rfl | rfl | rfl
    · rw [hclshape]
      exact noPfxIn_head_ne hx
    · rw [hohshape]
      exact noPfxIn_head_ne hx
    · rw [hocshape]
      exact noPfxIn_head_ne hx
  have htag3 : ∀ y, NoPfxIn oc cl y := by
    intro y
    rw [hocshape, hclshape]
    exact noPfxIn_tag_tag (by decide) (by decide) (fun c hcm => (hbf c hcm).1)
  have htag4 : ∀ y, NoPfxIn oh cl y := by
    intro y
    rw [hohshape, hclshape]
    exact noPfxIn_tag_tag (by decide) (by decide) (fun c hcm => (hbf c hcm).1)
  have hTlen : 5 ≤ T.length := by
    rw [hT]
    simp only [List.length_append, hohlen]
    omega
  have hsearch1 : sectionSearchAux T 0 = some (0, '#', f, 0 + (f.length + 5)) := by
    rw [show T = lbrace :: lbrace :: '#'
        :: (f ++ ([rbrace, rbrace]
          ++ (a ++ (oh ++ (m ++ (cl ++ (b ++ (cl ++ p)))))))) from by
        rw [hT, hohshape]
        simp]
    exact sectionSearchAux_cons_match (sectionMatchAt_oh hf htagf)
  have hx1 : extract_section T (pyStrip f) (0 + (f.length + 5))
      = some (f.length + 5 + a.length + oh.length + m.length
            + cl.length + b.length + cl.length,
          a ++ (oh ++ (m ++ (cl ++ b)))) := by
    rw [hfs, Nat.zero_add]
    exact extract_nested f a m b p (fun c hcm => (hbf c hcm).1) hba hbm hbb hbp
  have hdropE : T.drop (f.length + 5 + a.length + oh.length + m.length
      + cl.length + b.length + cl.length) = p := by
    rw [hT, show oh ++ (a ++ (oh ++ (m ++ (cl ++ (b ++ (cl ++ p))))))
        = (oh ++ (a ++ (oh ++ (m ++ (cl ++ (b ++ cl)))))) ++ p from by simp,
      show f.length + 5 + a.length + oh.length + m.length + cl.length + b.length + cl.length
          = (oh ++ (a ++ (oh ++ (m ++ (cl ++ (b ++ cl)))))).length from by
        simp only [List.length_append, hohlen, hcllen]
        omega,
      drop_app0]
  have hstep1 : ∀ fuel, renderLoop fields (fuel + 1) T
      = renderLoop fields fuel
          ((if (!(pyStrip (getField fields f)).isEmpty) then
              a ++ (oh ++ (m ++ (cl ++ b))) else []) ++ p) := by
    intro fuel
    rw [renderLoop_step fields fuel hsearch1 hx1, hfs, hdropE,
      if_pos (show ('#' : Char) = '#' from rfl), List.take_zero, List.nil_append]
  by_cases hv : (pyStrip (getField fields f)).isEmpty = true
  · have hstep2 : ∀ fuel, renderLoop fields (fuel + 1) T = renderLoop fields fuel p := by
      intro fuel
      rw [hstep1 fuel, hv]
      rw [show (if (!true) = true then a ++ (oh ++ (m ++ (cl ++ b))) else ([] : Text))
          = [] from by simp, List.nil_append]
    have hrun : renderLoop fields 2 T = some p := by
      rw [hstep2 1, renderLoop_stop (sectionSearchAux_nolb_none hbp 0)]
    rw [show render_sections T fields = (renderLoop fields (T.length + 1) T).getD T
        from rfl,
      show T.length + 1 = 2 + (T.length + 1 - 2) from by omega,
      renderLoop_mono fields 2 T p hrun (T.length + 1 - 2), Option.getD_some,
      if_neg (show ¬ (pyStrip (getField fields f)).isEmpty = false from by simp [hv])]
  · have hv' : (pyStrip (getField fields f)).isEmpty = false := by
      simpa using hv
    have hstep2 : ∀ fuel, renderLoop fields (fuel + 1) T
        = renderLoop fields fuel (a ++ (oh ++ (m ++ (cl ++ (b ++ p))))) := by
      intro fuel
      rw [hstep1 fuel, hv']
      rw [show (if (!false) = true then a ++ (oh ++ (m ++ (cl ++ b))) else ([] : Text))
          = a ++ (oh ++ (m ++ (cl ++ b))) from by simp,
        show (a ++ (oh ++ (m ++ (cl ++ b)))) ++ p
          = a ++ (oh ++ (m ++ (cl ++ (b ++ p)))) from by simp]
    have hsearch2 : sectionSearchAux (a ++ (oh ++ (m ++ (cl ++ (b ++ p))))) 0
        = some (0 + a.length, '#', f, 0 + a.length + (f.length + 5)) := by
      rw [sectionSearchAux_append_nolb hba _ 0,
        show oh ++ (m ++ (cl ++ (b ++ p)))
          = lbrace :: lbrace :: '#'
            :: (f ++ ([rbrace, rbrace] ++ (m ++ (cl ++ (b ++ p))))) from by
          rw [hohshape]
          simp]
      exact sectionSearchAux_cons_match (sectionMatchAt_oh hf htagf)
    have hd2 : (a ++ (oh ++ (m ++ (cl ++ (b ++ p))))).drop (0 + a.length + (f.length + 5))
        = m ++ (cl ++ (b ++ p)) := by
      rw [show a ++ (oh ++ (m ++ (cl ++ (b ++ p))))
          = (a ++ oh) ++ (m ++ (cl ++ (b ++ p))) from by simp,
        show 0 + a.length + (f.length + 5) = (a ++ oh).length from by
          simp only [List.length_append, hohlen]
          omega,
        drop_app0]
    have find2cl : findFrom cl (a ++ (oh ++ (m ++ (cl ++ (b ++ p)))))
        (0 + a.length + (f.length + 5))
        = some (0 + a.length + (f.length + 5) + m.length) := by
      rw [show findFrom cl (a ++ (oh ++ (m ++ (cl ++ (b ++ p)))))
            (0 + a.length + (f.length + 5))
          = findAux cl ((a ++ (oh ++ (m ++ (cl ++ (b ++ p))))).drop
              (0 + a.length + (f.length + 5))) (0 + a.length + (f.length + 5)) from rfl,
        hd2, findAux_append_skip (hreg cl (Or.inl rfl) m hbm _),
        findAux_here (pfxB_self_append cl _) _]
    have find2oh : findFrom oh (a ++ (oh ++ (m ++ (cl ++ (b ++ p)))))
        (0 + a.length + (f.length + 5)) = none := by
      rw [show findFrom oh (a ++ (oh ++ (m ++ (cl ++ (b ++ p)))))
            (0 + a.length + (f.length + 5))
          = findAux oh ((a ++ (oh ++ (m ++ (cl ++ (b ++ p))))).drop
              (0 + a.length + (f.length + 5))) (0 + a.length + (f.length + 5)) from rfl,
        hd2]
      exact findAux_none_of hohne
        (noPfxIn_chain (hreg oh (Or.inr (Or.inl rfl)) m hbm _)
          (noPfxIn_chain (htag4 _)
            (noPfxIn_chain (hreg oh (Or.inr (Or.inl rfl)) b hbb _)
              (hreg oh (Or.inr (Or.inl rfl)) p hbp [])))) _
    have find2oc : findFrom oc (a ++ (oh ++ (m ++ (cl ++ (b ++ p)))))
        (0 + a.length + (f.length + 5)) = none := by
      rw [show findFrom oc (a ++ (oh ++ (m ++ (cl ++ (b ++ p)))))
            (0 + a.length + (f.length + 5))
          = findAux oc ((a ++ (oh ++ (m ++ (cl ++ (b ++ p))))).drop
              (0 + a.length + (f.length + 5))) (0 + a.length + (f.length + 5)) from rfl,
        hd2]
      exact findAux_none_of hocne
        (noPfxIn_chain (hreg oc (Or.inr (Or.inr rfl)) m hbm _)
          (noPfxIn_chain (htag3 _)
            (noPfxIn_chain (hreg oc (Or.inr (Or.inr rfl)) b hbb _)
              (hreg oc (Or.inr (Or.inr rfl)) p hbp [])))) _
    have hslice2 : slice (a ++ (oh ++ (m ++ (cl ++ (b ++ p)))))
        (0 + a.length + (f.length + 5)) (0 + a.length + (f.length + 5) + m.length)
        = m := by
      rw [show slice (a ++ (oh ++ (m ++ (cl ++ (b ++ p)))))
            (0 + a.length + (f.length + 5)) (0 + a.length + (f.length + 5) + m.length)
          = ((a ++ (oh ++ (m ++ (cl ++ (b ++ p))))).take
              (0 + a.length + (f.length + 5) + m.length)).drop
              (0 + a.length + (f.length + 5)) from rfl,
        show a ++ (oh ++ (m ++ (cl ++ (b ++ p))))
          = ((a ++ oh) ++ m) ++ (cl ++ (b ++ p)) from by simp,
        show 0 + a.length + (f.length + 5) + m.length = ((a ++ oh) ++ m).length from by
          simp only [List.length_append, hohlen]
          omega,
        List.take_left,
        show 0 + a.length + (f.length + 5) = (a ++ oh).length from by
          simp only [List.length_append, hohlen]
          omega,
        drop_app0]
    have hx2 : extract_section (a ++ (oh ++ (m ++ (cl ++ (b ++ p))))) (pyStrip f)
        (0 + a.length + (f.length + 5))
        = some (0 + a.length + (f.length + 5) + m.length + cl.length, m) := by
      rw [hfs,
        show extract_section (a ++ (oh ++ (m ++ (cl ++ (b ++ p))))) f
            (0 + a.length + (f.length + 5))
          = (extractLoop (a ++ (oh ++ (m ++ (cl ++ (b ++ p))))) cl oh oc
              (0 + a.length + (f.length + 5))
              ((a ++ (oh ++ (m ++ (cl ++ (b ++ p))))).length + 1) 1
              (0 + a.length + (f.length + 5))).getD none from rfl,
        extractLoop_step _ cl oh oc _ _ 1 _ find2cl, find2oh, find2oc,
        show minOpt (none : Option Nat) none = none from rfl,
        if_neg (show ¬ openBefore (none : Option Nat)
            (0 + a.length + (f.length + 5) + m.length) = true from by
          simp [openBefore]),
        if_pos rfl, hslice2, Option.getD_some]
    have hdrop2 : (a ++ (oh ++ (m ++ (cl ++ (b ++ p))))).drop
        (0 + a.length + (f.length + 5) + m.length + cl.length) = b ++ p := by
      rw [show a ++ (oh ++ (m ++ (cl ++ (b ++ p))))
          = (((a ++ oh) ++ m) ++ cl) ++ (b ++ p) from by simp,
        show 0 + a.length + (f.length + 5) + m.length + cl.length
            = (((a ++ oh) ++ m) ++ cl).length from by
          simp only [List.length_append, hohlen, hcllen]
          omega,
        drop_app0]
    have htake2 : (a ++ (oh ++ (m ++ (cl ++ (b ++ p))))).take (0 + a.length) = a := by
      rw [show (0 : Nat) + a.length = a.length from by omega, List.take_left]
    have hstep3 : ∀ fuel, renderLoop fields (fuel + 1) (a ++ (oh ++ (m ++ (cl ++ (b ++ p)))))
        = renderLoop fields fuel (a ++ (m ++ (b ++ p))) := by
      intro fuel
      rw [renderLoop_step fields fuel hsearch2 hx2, hfs, hdrop2, htake2,
        if_pos (show ('#' : Char) = '#' from rfl), hv',
        show (if (!false) = true then m else ([] : Text)) = m from by simp,
        List.append_assoc]
    have hT3 : sectionSearchAux (a ++ (m ++ (b ++ p))) 0 = none := by
      apply sectionSearchAux_nolb_none
      intro c hcm
      simp only [List.mem_append] at hcm
      rcases hcm with hcm | hcm | hcm | hcm
      · exact hba c hcm
      · exact hbm c hcm
      · exact hbb c hcm
      · exact hbp c hcm
    have hrun : renderLoop fields 3 T = some (a ++ (m ++ (b ++ p))) := by
      rw [hstep2 2, hstep3 1, renderLoop_stop hT3]
    rw [show render_sections T fields = (renderLoop fields (T.length + 1) T).getD T
        from rfl,
      show T.length + 1 = 3 + (T.length + 1 - 3) from by omega,
      renderLoop_mono fields 3 T _ hrun (T.length + 1 - 3), Option.getD_some,
      if_pos hv']

/-- C1: for a template whose conditional section for field `f` contains a
nested section for the same field `f` (with brace-free filler text), the
renderer tracks nesting depth: `_extract_section` does not stop at the
inner section's close marker — the outer extent runs to the matching
outer close marker — and `_render_sections` resolves the nested sections
from the innermost outward: a truthy field keeps both section bodies, a
falsy field removes the whole outer extent. -/
theorem c1_nested_sections (f a m b p : Text) (fields : Fields) (hf : f ≠ [])
    (hfs : pyStrip f = f)
    (hbf : ∀ c ∈ f, c ≠ lbrace ∧ c ≠ rbrace)
    (hba : ∀ c ∈ a, c ≠ lbrace) (hbm : ∀ c ∈ m, c ≠ lbrace)
    (hbb : ∀ c ∈ b, c ≠ lbrace) (hbp : ∀ c ∈ p, c ≠ lbrace) :
    extract_section
        (openHashOf f ++ (a ++ (openHashOf f ++ (m ++ (closeTagOf f
          ++ (b ++ (closeTagOf f ++ p))))))) f (openHashOf f).length
      = some ((openHashOf f ++ (a ++ (openHashOf f ++ (m ++ (closeTagOf f
            ++ (b ++ closeTagOf f)))))).length,
          a ++ (openHashOf f ++ (m ++ (closeTagOf f ++ b))))
    ∧ render_sections
        (openHashOf f ++ (a ++ (openHashOf f ++ (m ++ (closeTagOf f
          ++ (b ++ (closeTagOf f ++ p))))))) fields
      = if (pyStrip (getField fields f)).isEmpty = false
        then a ++ (m ++ (b ++ p)) else p := by
  constructor
  · have hE : (openHashOf f ++ (a ++ (openHashOf f ++ (m ++ (closeTagOf f
          ++ (b ++ closeTagOf f)))))).length
        = f.length + 5 + a.length + (openHashOf f).length + m.length
          + (closeTagOf f).length + b.length + (closeTagOf f).length := by
      simp only [List.length_append, openHashOf_length, closeTagOf_length]
      omega
    rw [hE, show (openHashOf f).length = f.length + 5 from openHashOf_length f,
      extract_nested f a m b p (fun c hcm => (hbf c hcm).1) hba hbm hbb hbp,
      openHashOf_length]
  · exact render_nested f a m b p fields hf hfs hbf hba hbm hbb hbp

theorem c1_nested_sections_witness :
    ("X".data ≠ [] ∧ pyStrip ("X".data) = "X".data
      ∧ (∀ c ∈ ("X".data), c ≠ lbrace ∧ c ≠ rbrace))
    ∧ (extract_section
          (openHashOf ("X".data) ++ ("u".data ++ (openHashOf ("X".data)
            ++ ("v".data ++ (closeTagOf ("X".data)
              ++ ("w".data ++ (closeTagOf ("X".data) ++ "z".data)))))))
          ("X".data) (openHashOf ("X".data)).length
        = some ((openHashOf ("X".data) ++ ("u".data ++ (openHashOf ("X".data)
              ++ ("v".data ++ (closeTagOf ("X".data)
                ++ ("w".data ++ closeTagOf ("X".data))))))).length,
            "u".data ++ (openHashOf ("X".data) ++ ("v".data
              ++ (closeTagOf ("X".data) ++ "w".data))))
      ∧ render_sections
          (openHashOf ("X".data) ++ ("u".data ++ (openHashOf ("X".data)
            ++ ("v".data ++ (closeTagOf ("X".data)
              ++ ("w".data ++ (closeTagOf ("X".data) ++ "z".data)))))))
          [("X".data, "1".data)]
        = if (pyStrip (getField [("X".data, "1".data)] ("X".data))).isEmpty = false
          then "u".data ++ ("v".data ++ ("w".data ++ "z".data)) else "z".data) :=
  ⟨⟨by decide, by decide, by decide⟩,
    c1_nested_sections ("X".data) ("u".data) ("v".data) ("w".data) ("z".data)
      [("X".data, "1".data)] (by decide) (by decide) (by decide)
      (by decide) (by decide) (by decide) (by decide)⟩
end MA
